import Mathlib

/-!
# memtalk: the shared-memory ring buffer

A shallow embedding of `src/ringbuf.c` (with `src/ringbuf.h` and the helpers
of `src/utils.h` and `src/utils.c`), of `src/magic.c` and of `main` and
`cleanup` of `src/memtalk.c`, and theorems about it.

Conventions of the embedding.

* `size_t` is a 64-bit unsigned integer and `int` a 32-bit signed integer
  (LP64).  Values are `Nat` / `Int`; every arithmetic operation of the source
  is written with its reduction modulo `2 ^ 64`, and every store of a
  `size_t` value into an `int` field with its reduction into
  `[-2 ^ 31, 2 ^ 31)`.  The subtraction of two `int`s wraps in the same way;
  it cannot overflow when both are indices in `[0, 2 ^ 31)`.
* The slab, the caller's data and the caller's buffer are lists of bytes.
  `memcpy` is checked: it yields `none` when one of its two ranges leaves
  its list.
* Every user-facing function holds the mutex from its first to its last
  statement, except inside `pthread_cond_wait`.  A call is therefore one
  atomic step; a call whose wait predicate holds does not take its step and is
  reported as `Res.blocked`.
* `main`, `cleanup` and `block_on_magic` are the lists of the calls they make
  (`Event`), for given answers of the system calls (`Env`, `Wait`).  The
  `assert`s are active, and a failed one ends the process without running the
  `atexit` handler.
* `stdin` is the list of the bytes still to come; `fread` returns fewer bytes
  than asked for only where the stream ends.
-/

namespace Memtalk

/-- One `char` of the slab. -/
abbrev Byte := UInt8

/-- Outcome of a call that may wait on a condition variable. -/
inductive Res (α : Type) where
  /-- the wait predicate holds: the caller sleeps, nothing is modified -/
  | blocked : Res α
  /-- a `memcpy` would leave the slab, the data or the buffer -/
  | fault : Res α
  /-- the call returns -/
  | ok : α → Res α
deriving DecidableEq, Repr

/-- Conversion `int → size_t` (value modulo `2 ^ 64`). -/
def to_size_t (i : Int) : Nat := (i % 18446744073709551616).toNat

/-- Conversion `size_t → int`, as stored into the `int` fields `head` and
`tail`: the value modulo `2 ^ 32`, read as two-complement. -/
def to_int (n : Nat) : Int :=
  if n % 4294967296 < 2147483648 then ((n % 4294967296 : Nat) : Int)
  else ((n % 4294967296 : Nat) : Int) - 4294967296

/-- Subtraction of two `int`s, wrapping to 32 bits. -/
def int_sub (a b : Int) : Int := to_int (to_size_t (a - b))

/-- Addition of two `size_t`. -/
def size_add (a b : Nat) : Nat := (a + b) % 18446744073709551616

/-- Subtraction of two `size_t`. -/
def size_sub (a b : Nat) : Nat :=
  (a % 18446744073709551616 + 18446744073709551616 - b % 18446744073709551616)
    % 18446744073709551616

/-- The fields `closed`, `head`, `tail`, `size` of `struct shared_rbuf`
(the mutex and the two condition variables are the step discipline). -/
structure shared_rbuf where
  closed : Bool
  head : Int
  tail : Int
  size : Nat
deriving DecidableEq, Repr

/-- A ring: the control block of `struct ringbuf` and the bytes its `slab`
pointer designates. -/
structure ringbuf where
  srb : shared_rbuf
  slab : List Byte
deriving DecidableEq, Repr

/-- `init_shared_ringbuf`: `none` when `assert(slab_size > 1)` fails. -/
def init_shared_ringbuf (slab_size : Nat) : Option shared_rbuf :=
  if 1 < slab_size then
    some { closed := false, head := 0, tail := 0, size := slab_size }
  else none

/-- `is_empty`. -/
def is_empty (rb : shared_rbuf) : Bool := rb.head == rb.tail

/-- `ringbuf_capacity`. -/
def ringbuf_capacity (rb : shared_rbuf) : Nat := size_sub rb.size 1

/-- `ringbuf_bytes_used`. -/
def ringbuf_bytes_used (rb : shared_rbuf) : Nat :=
  if rb.head ≤ rb.tail then to_size_t (int_sub rb.tail rb.head)
  else size_sub rb.size (to_size_t (int_sub rb.head rb.tail))

/-- `ringbuf_bytes_free`. -/
def ringbuf_bytes_free (rb : shared_rbuf) : Nat :=
  size_sub (ringbuf_capacity rb) (ringbuf_bytes_used rb)

/-- `memcpy(dst + doff, src + soff, n)`: the new bytes of `dst`, or `none`
when a range leaves its list. -/
def memcpy (dst : List Byte) (doff : Int) (src : List Byte) (soff : Int) (n : Nat) :
    Option (List Byte) :=
  if 0 ≤ doff ∧ 0 ≤ soff ∧ doff.toNat + n ≤ dst.length ∧ soff.toNat + n ≤ src.length then
    some (dst.take doff.toNat ++ (src.drop soff.toNat).take n ++ dst.drop (doff.toNat + n))
  else none

/-- `pop_ringbuf(rb, buf, len)`: the ring, the buffer and the returned length. -/
def pop_ringbuf (rb : ringbuf) (buf : List Byte) (len : Nat) :
    Res (ringbuf × List Byte × Nat) :=
  let srb := rb.srb
  if is_empty srb && !srb.closed then .blocked
  else if srb.head == srb.tail && srb.closed then .ok (rb, buf, 0)
  else
    let len := min len (ringbuf_bytes_used srb)
    let to_copy := min len (size_sub srb.size (to_size_t srb.head))
    match memcpy buf 0 rb.slab srb.head to_copy with
    | none => .fault
    | some buf1 =>
      let head1 := to_int (size_add (to_size_t srb.head) to_copy % srb.size)
      if to_copy < len then
        let more_to_copy := size_sub len to_copy
        match memcpy buf1 (to_copy : Int) rb.slab 0 more_to_copy with
        | none => .fault
        | some buf2 =>
          let head2 := to_int (size_add (to_size_t head1) more_to_copy % srb.size)
          .ok ({ rb with srb := { srb with head := head2 } }, buf2, len)
      else .ok ({ rb with srb := { srb with head := head1 } }, buf1, len)

/-- `push_ringbuf(rb, data, len)` with `len` the length of `data`. -/
def push_ringbuf (rb : ringbuf) (data : List Byte) : Res ringbuf :=
  let srb := rb.srb
  let len := data.length
  if ringbuf_bytes_free srb < len then .blocked
  else
    let to_copy := min len (size_sub srb.size (to_size_t srb.tail))
    match memcpy rb.slab srb.tail data 0 to_copy with
    | none => .fault
    | some slab1 =>
      let tail1 := to_int (size_add (to_size_t srb.tail) to_copy % srb.size)
      if to_copy < len then
        let more_to_copy := size_sub len to_copy
        match memcpy slab1 0 data (to_copy : Int) more_to_copy with
        | none => .fault
        | some slab2 =>
          let tail2 := to_int (size_add (to_size_t tail1) more_to_copy % srb.size)
          .ok { srb := { srb with tail := tail2 }, slab := slab2 }
      else .ok { srb := { srb with tail := tail1 }, slab := slab1 }

/-- `close_ringbuf`. -/
def close_ringbuf (rb : shared_rbuf) : shared_rbuf := { rb with closed := true }

/-- The fields hold values of their C types: `head` and `tail` are `int`s,
`size` is a `size_t`. -/
def well_typed (rb : shared_rbuf) : Prop :=
  -2147483648 ≤ rb.head ∧ rb.head < 2147483648 ∧
  -2147483648 ≤ rb.tail ∧ rb.tail < 2147483648 ∧ rb.size < 18446744073709551616

instance (rb : shared_rbuf) : Decidable (well_typed rb) := by
  unfold well_typed; infer_instance

/-- The index invariant: `0 ≤ head < size` and `0 ≤ tail < size`. -/
def index_inv (rb : shared_rbuf) : Prop :=
  0 ≤ rb.head ∧ rb.head < rb.size ∧ 0 ≤ rb.tail ∧ rb.tail < rb.size

instance (rb : shared_rbuf) : Decidable (index_inv rb) := by
  unfold index_inv; infer_instance

/-- A ring whose control block is well typed and satisfies the index
invariant, and whose slab has `size` bytes. -/
def ring_ok (rb : ringbuf) : Prop :=
  well_typed rb.srb ∧ index_inv rb.srb ∧ rb.slab.length = rb.srb.size

instance (rb : ringbuf) : Decidable (ring_ok rb) := by
  unfold ring_ok; infer_instance

/-- The bytes in the ring: the `ringbuf_bytes_used` bytes of the slab read
from index `head`, wrapping modulo `size`. -/
def contents (rb : ringbuf) : List Byte :=
  (List.range (ringbuf_bytes_used rb.srb)).map
    (fun j => rb.slab.getD ((rb.srb.head.toNat + j) % rb.srb.size) 0)

/-- One call made on a ring by a pump. -/
inductive Op where
  /-- `push_ringbuf(rb, data, len)` -/
  | push (data : List Byte) : Op
  /-- `pop_ringbuf(rb, buf, cap)` into a buffer of `cap` bytes -/
  | pop (cap : Nat) : Op
  /-- `close_ringbuf(rb->srb)` -/
  | close : Op
deriving DecidableEq, Repr

/-- A ring together with all bytes pushed into it and popped from it so far. -/
structure Trace where
  rb : ringbuf
  pushed : List Byte
  popped : List Byte
deriving DecidableEq, Repr

/-- One call.  A pop receives a fresh buffer of `cap` bytes and hands over
the first `ret` bytes of it, as `pop_stdout` does with `fwrite`. -/
def step (s : Trace) : Op → Res Trace
  | .push data =>
    match push_ringbuf s.rb data with
    | .ok rb => .ok { rb := rb, pushed := s.pushed ++ data, popped := s.popped }
    | .blocked => .blocked
    | .fault => .fault
  | .pop cap =>
    match pop_ringbuf s.rb (List.replicate cap 0) cap with
    | .ok (rb, buf, ret) =>
      .ok { rb := rb, pushed := s.pushed, popped := s.popped ++ buf.take ret }
    | .blocked => .blocked
    | .fault => .fault
  | .close =>
    .ok { s with rb := { s.rb with srb := close_ringbuf s.rb.srb } }

/-- A sequence of calls none of which waits. -/
def run (s : Trace) : List Op → Res Trace
  | [] => .ok s
  | op :: ops =>
    match step s op with
    | .ok s1 => run s1 ops
    | .blocked => .blocked
    | .fault => .fault

/-- A slab of `n` zero bytes. -/
def zero_slab (n : Nat) : List Byte := List.replicate n 0

/-- Multiplication of two `size_t`. -/
def size_mul (a b : Nat) : Nat := (a * b) % 18446744073709551616

/-- `next_aligned_ptr` of `src/utils.c`, on addresses (`uintptr_t`):
`((ptr + align - 1) / align) * align`. -/
def next_aligned_ptr (ptr align : Nat) : Nat :=
  size_mul (size_sub (size_add ptr align) 1 / align) align

/-- `sizeof(magic_t)`: the ready word is a `uint32_t`. -/
def SIZEOF_MAGIC : Nat := 4

/-- `metadata_size` of `main`, for `Z = sizeof(struct shared_rbuf)` and
`A = alignof(struct shared_rbuf)`. -/
def metadata_size (Z A : Nat) : Nat := size_add SIZEOF_MAGIC (size_mul 2 (size_add Z A))

/-- `min_slab_size` of `main`. -/
def min_slab_size : Nat := size_mul 2 2

/-- The sizing check of `main` and `ringbuffer_slab_size`: `none` when `main`
prints the message and returns `-1`. -/
def ringbuffer_slab_size (shm_size metadata_size : Nat) : Option Nat :=
  if size_add metadata_size min_slab_size ≥ shm_size then none
  else some (size_sub shm_size metadata_size / 2)

/-- The five pointers that `main` computes into the mapping. -/
structure Layout where
  magic_ptr : Nat
  shared_ringbuffer_1 : Nat
  slab_1 : Nat
  shared_ringbuffer_2 : Nat
  slab_2 : Nat
deriving DecidableEq, Repr

/-- The pointer layout of `main` for the mapping at `shm`, slabs of `S` bytes,
`Z = sizeof(struct shared_rbuf)` and `A = alignof(struct shared_rbuf)`. -/
def layout (shm S Z A : Nat) : Layout :=
  let magic_ptr := shm
  let shared_ringbuffer_1 := next_aligned_ptr (size_add magic_ptr SIZEOF_MAGIC) A
  let slab_1 := size_add shared_ringbuffer_1 Z
  let shared_ringbuffer_2 := next_aligned_ptr (size_add slab_1 S) A
  let slab_2 := size_add shared_ringbuffer_2 Z
  { magic_ptr := magic_ptr, shared_ringbuffer_1 := shared_ringbuffer_1, slab_1 := slab_1,
    shared_ringbuffer_2 := shared_ringbuffer_2, slab_2 := slab_2 }

/-- The assertion of `main` on the end of slab 2. -/
def layout_assert (l : Layout) (shm shm_size S : Nat) : Bool :=
  decide (size_add l.slab_2 S ≤ size_add shm shm_size)

/-- The two pointers of a `struct ringbuf`: the control block and the slab. -/
structure ringbuf_ptr where
  srb : Nat
  slab : Nat
deriving DecidableEq, Repr

/-- The binding of `push_rb` and `pop_rb` in `main`, in this order. -/
def bind (shm_creator_process : Bool) (l : Layout) : ringbuf_ptr × ringbuf_ptr :=
  if shm_creator_process then
    (⟨l.shared_ringbuffer_1, l.slab_1⟩, ⟨l.shared_ringbuffer_2, l.slab_2⟩)
  else
    (⟨l.shared_ringbuffer_2, l.slab_2⟩, ⟨l.shared_ringbuffer_1, l.slab_1⟩)

/-- `MAGIC_VAL` of `src/magic.c`. -/
def MAGIC_VAL : Nat := 0x12345678

/-- The Linux value of `EINVAL`. -/
def EINVAL : Int := 22

/-- The Linux value of `EEXIST`. -/
def EEXIST : Int := 17

/-- The Linux value of `ENOENT`. -/
def ENOENT : Int := 2

/-- The Linux value of `EAGAIN`. -/
def EAGAIN : Int := 11

/-- The value of `EXIT_FAILURE`. -/
def EXIT_FAILURE : Int := 1

/-- What a system call answers: the value it returns and `errno` after it. -/
structure Sys where
  ret : Int
  errno : Int
deriving DecidableEq, Repr

/-- How a function that may end the process ends. -/
inductive Stop where
  /-- `main` returns this value; the `atexit` handler runs -/
  | returned (code : Int) : Stop
  /-- `exit` is called with this status; the `atexit` handler runs -/
  | exited (code : Int) : Stop
  /-- `abort` is called (a failed `assert` or `assert_perror`); no handler runs -/
  | aborted : Stop
  /-- the process is still waiting in `block_on_magic` -/
  | waiting : Stop
deriving DecidableEq, Repr

/-- `assert_perror(errnum)`: whether it aborts. -/
def assert_perror (errnum : Int) : Bool := decide (errnum ≠ 0)

/-- The macro `succeeds(expr)` of `src/utils.h`, for the value of `expr` and the
current `errno`: `none` when execution continues. -/
def succeeds (expr errno : Int) : Option Stop :=
  if expr = -1 then
    if assert_perror errno then some .aborted else some (.exited EXIT_FAILURE)
  else none

/-- One iteration of `block_on_magic`: what `FUTEX_WAIT` answers and the value
the ready word holds when the iteration loads it. -/
structure Wait where
  futex : Sys
  word : Nat
deriving DecidableEq, Repr

/-- What the process does, in program order. -/
inductive Event where
  | shm_open_excl : Event
  | shm_open_existing : Event
  | ftruncate : Event
  | mmap : Event
  /-- `init_shared_ringbuf` on the control block at this address -/
  | init_ring (srb : Nat) (slab_size : Nat) : Event
  /-- the store of `MAGIC_VAL` and the `FUTEX_WAKE` of `write_magic` -/
  | write_magic : Event
  /-- the `FUTEX_WAIT` of `block_on_magic` -/
  | futex_wait : Event
  /-- the atomic load of `block_on_magic` and the value it reads -/
  | load (word : Nat) : Event
  /-- the thread `push_stdin` is started on this ring -/
  | spawn_push (rb : ringbuf_ptr) : Event
  /-- the thread `pop_stdout` is started on this ring -/
  | spawn_pop (rb : ringbuf_ptr) : Event
  | munmap : Event
  | close : Event
  | shm_unlink : Event
deriving DecidableEq, Repr

/-- The outcome of one iteration of the loop of `block_on_magic`. -/
inductive Iter where
  /-- the function returns -/
  | returns : Iter
  /-- the loop goes on -/
  | continues : Iter
  /-- the process ends -/
  | stops (s : Stop) : Iter
deriving DecidableEq, Repr

/-- One iteration of the loop of `block_on_magic`. -/
def block_on_magic_iter (w : Wait) : Iter :=
  if w.futex.ret = 0 ∨ (w.futex.ret = -1 ∧ w.futex.errno = EAGAIN) then
    if w.word = MAGIC_VAL then .returns else .continues
  else
    match succeeds w.futex.ret w.futex.errno with
    | some s => .stops s
    | none => .continues

/-- The events of one iteration of the loop of `block_on_magic`. -/
def block_on_magic_events (w : Wait) : List Event :=
  if w.futex.ret = 0 ∨ (w.futex.ret = -1 ∧ w.futex.errno = EAGAIN) then
    [.futex_wait, .load w.word]
  else [.futex_wait]

/-- `block_on_magic` over the successive answers of the system: its events and
how it ends (`none`: it returns; `Stop.waiting`: the answers are exhausted). -/
def block_on_magic : List Wait → List Event × Option Stop
  | [] => ([], some .waiting)
  | w :: ws =>
    match block_on_magic_iter w with
    | .returns => (block_on_magic_events w, none)
    | .stops s => (block_on_magic_events w, some s)
    | .continues =>
      ((block_on_magic_events w) ++ (block_on_magic ws).1, (block_on_magic ws).2)

/-- What the system answers to one run of `main`. -/
structure Env where
  /-- `argc == 3` and `argv[1]` is `-f` -/
  usage_ok : Bool
  /-- the exclusive-create `shm_open` -/
  excl : Sys
  /-- the second `shm_open`, of the existing object -/
  reopen : Sys
  /-- `sysconf(_SC_PAGESIZE)` -/
  page_size : Nat
  /-- `sizeof(struct shared_rbuf)` -/
  Z : Nat
  /-- `alignof(struct shared_rbuf)` -/
  A : Nat
  ftruncate : Sys
  /-- the address returned by `mmap`, `none` for `MAP_FAILED` -/
  mmap : Option Nat
  mmap_errno : Int
  /-- the `FUTEX_WAKE` of `write_magic` -/
  wake : Sys
  /-- the iterations of `block_on_magic` -/
  waits : List Wait
  munmap : Sys
  close : Sys
  unlink : Sys
deriving Repr

/-- The global variables of `src/memtalk.c`. -/
structure Globals where
  /-- `shm_name != NULL` -/
  shm_name : Bool
  shm_creator_process : Bool
  shm_fd : Int
  /-- `none` for `MAP_FAILED` -/
  shm : Option Nat
  shm_size : Nat
deriving DecidableEq, Repr

/-- The events of `main`, the globals when it ends and how it ends. -/
structure Run where
  events : List Event
  globals : Globals
  stop : Stop
deriving DecidableEq, Repr

/-- `main` from the pointer layout on, for the mapping at `shm` and slabs of
`S` bytes.  The `pthread` calls are taken to succeed. -/
def main_mapped (env : Env) (ev : List Event) (g : Globals) (shm S : Nat) : Run :=
  let l := layout shm S env.Z env.A
  if layout_assert l shm g.shm_size S = false then ⟨ev, g, .aborted⟩
  else if g.shm_creator_process then
    match init_shared_ringbuf S with
    | none => ⟨ev, g, .aborted⟩
    | some _ =>
      let ev1 := ev ++ [.init_ring l.shared_ringbuffer_1 S, .init_ring l.shared_ringbuffer_2 S,
        .write_magic]
      match succeeds env.wake.ret env.wake.errno with
      | some s => ⟨ev1, g, s⟩
      | none =>
        ⟨ev1 ++ [.spawn_push (bind true l).1, .spawn_pop (bind true l).2], g, .returned 0⟩
  else
    match (block_on_magic env.waits).2 with
    | some s => ⟨ev ++ (block_on_magic env.waits).1, g, s⟩
    | none =>
      ⟨ev ++ (block_on_magic env.waits).1
          ++ [.spawn_push (bind false l).1, .spawn_pop (bind false l).2], g, .returned 0⟩

/-- `main` from the size calculation on. -/
def main_sized (env : Env) (ev : List Event) (g : Globals) : Run :=
  let g1 : Globals := { g with shm_size := env.page_size }
  match ringbuffer_slab_size env.page_size (metadata_size env.Z env.A) with
  | none => ⟨ev, g1, .returned (-1)⟩
  | some S =>
    match succeeds env.ftruncate.ret env.ftruncate.errno with
    | some s => ⟨ev ++ [.ftruncate], g1, s⟩
    | none =>
      match env.mmap with
      | none =>
        match succeeds (-1) env.mmap_errno with
        | some s => ⟨ev ++ [.ftruncate, .mmap], g1, s⟩
        | none => ⟨ev ++ [.ftruncate, .mmap], g1, .aborted⟩
      | some shm =>
        main_mapped env (ev ++ [.ftruncate, .mmap]) { g1 with shm := some shm } shm S

/-- `main`. -/
def main (env : Env) : Run :=
  let g0 : Globals :=
    { shm_name := false, shm_creator_process := false, shm_fd := -1, shm := none, shm_size := 0 }
  if env.usage_ok = false then ⟨[], g0, .returned (-1)⟩
  else
    let g1 : Globals :=
      { g0 with shm_name := true, shm_creator_process := true, shm_fd := env.excl.ret }
    if env.excl.errno = EINVAL then ⟨[.shm_open_excl], g1, .returned (-1)⟩
    else if env.excl.errno = EEXIST then
      let g2 : Globals := { g1 with shm_creator_process := false, shm_fd := env.reopen.ret }
      match succeeds g2.shm_fd env.reopen.errno with
      | some s => ⟨[.shm_open_excl, .shm_open_existing], g2, s⟩
      | none => main_sized env [.shm_open_excl, .shm_open_existing] g2
    else
      match succeeds g1.shm_fd env.excl.errno with
      | some s => ⟨[.shm_open_excl], g1, s⟩
      | none => main_sized env [.shm_open_excl] g1

/-- The handler `cleanup`: its events, from the globals. -/
def cleanup (env : Env) (g : Globals) : List Event :=
  let unmap : List Event := if g.shm.isSome then [.munmap] else []
  if g.shm.isSome ∧ env.munmap.ret = -1 ∧ assert_perror env.munmap.errno = true then unmap
  else
    let cl : List Event := if g.shm_fd ≠ -1 then [.close] else []
    if g.shm_fd ≠ -1 ∧ env.close.ret = -1 ∧ assert_perror env.close.errno = true then
      unmap ++ cl
    else if g.shm_name = true ∧ g.shm_creator_process = true then unmap ++ cl ++ [.shm_unlink]
    else unmap ++ cl

/-- All events of the process: those of `main`, then those of `cleanup` when
`main` returns or `exit` is called. -/
def process (env : Env) : List Event :=
  match (main env).stop with
  | .returned _ => (main env).events ++ cleanup env (main env).globals
  | .exited _ => (main env).events ++ cleanup env (main env).globals
  | .aborted => (main env).events
  | .waiting => (main env).events

/-- The answers of the system to `main` when the name is invalid: the
exclusive-create `shm_open` returns -1 with `errno = EINVAL`, and so does
`shm_unlink`. -/
def invalid_name_env : Env :=
  { usage_ok := true, excl := ⟨-1, 22⟩, reopen := ⟨-1, 22⟩, page_size := 4096, Z := 160, A := 8,
    ftruncate := ⟨0, 0⟩, mmap := some 139637976727552, mmap_errno := 0, wake := ⟨0, 0⟩,
    waits := [], munmap := ⟨0, 0⟩, close := ⟨0, 0⟩, unlink := ⟨-1, 22⟩ }

/-- An interleaving of the events of two processes: each event comes with the
process that performs it, `true` for the creator and `false` for the opener,
and each process keeps its program order. -/
def interleaves (w : List (Bool × Event)) (ec eo : List Event) : Prop :=
  (w.filter (fun x => x.1)).map Prod.snd = ec ∧
  (w.filter (fun x => !x.1)).map Prod.snd = eo

instance (w : List (Bool × Event)) (ec eo : List Event) : Decidable (interleaves w ec eo) := by
  unfold interleaves
  exact inferInstance

/-- Replays an interleaving on the ready word, which holds `word` at the
start: `write_magic` of the creator stores `MAGIC_VAL`, and every load of the
opener must read the word as it is then. -/
def loads_consistent : List (Bool × Event) → Nat → Bool
  | [], _ => true
  | (true, .write_magic) :: w, _ => loads_consistent w MAGIC_VAL
  | (false, .load v) :: w, word => decide (v = word) && loads_consistent w word
  | _ :: w, word => loads_consistent w word

/-- Replays an interleaving and checks that whenever the opener starts a pump
on a ring, the creator has completed `inits ≥ 2` calls of
`init_shared_ringbuf`. -/
def uses_after_init : List (Bool × Event) → Nat → Bool
  | [], _ => true
  | (true, .init_ring _ _) :: w, inits => uses_after_init w (inits + 1)
  | (false, .spawn_push _) :: w, inits => decide (2 ≤ inits) && uses_after_init w inits
  | (false, .spawn_pop _) :: w, inits => decide (2 ≤ inits) && uses_after_init w inits
  | _ :: w, inits => uses_after_init w inits

/-- Program order of one process: every `write_magic` comes after two calls of
`init_shared_ringbuf` (`inits` counts those already made). -/
def inits_before_write : List Event → Nat → Bool
  | [], _ => true
  | .init_ring _ _ :: es, inits => inits_before_write es (inits + 1)
  | .write_magic :: es, inits => decide (2 ≤ inits) && inits_before_write es inits
  | _ :: es, inits => inits_before_write es inits

/-- Program order of one process: it never calls `init_shared_ringbuf`, and it
starts a pump only after a load of the ready word that read `MAGIC_VAL`
(`seen` tells whether there was one already). -/
def magic_before_use : List Event → Bool → Bool
  | [], _ => true
  | .load v :: es, seen => magic_before_use es (seen || decide (v = MAGIC_VAL))
  | .spawn_push _ :: es, seen => seen && magic_before_use es seen
  | .spawn_pop _ :: es, seen => seen && magic_before_use es seen
  | .init_ring _ _ :: _, _ => false
  | _ :: es, seen => magic_before_use es seen

/-- The events that touch neither the ready word nor a ring. -/
def is_plain : Event → Bool
  | .shm_open_excl => true
  | .shm_open_existing => true
  | .ftruncate => true
  | .mmap => true
  | .munmap => true
  | .close => true
  | .shm_unlink => true
  | _ => false

/-- The events of `main` after `mmap`, for a process whose
`shm_creator_process` is `creator` and whose iterations of `block_on_magic`
are `ws`. -/
def ring_tail (creator : Bool) (ws : List Wait) (t : List Event) : Prop :=
  t = [] ∨
  (creator = true ∧ ∃ r1 r2 S,
    t = [.init_ring r1 S, .init_ring r2 S, .write_magic] ∨
    ∃ a b, t = [.init_ring r1 S, .init_ring r2 S, .write_magic, .spawn_push a, .spawn_pop b]) ∨
  (creator = false ∧
    (t = (block_on_magic ws).1 ∨
     ((block_on_magic ws).2 = none ∧
        ∃ a b, t = (block_on_magic ws).1 ++ [.spawn_push a, .spawn_pop b])))

/-- A run in which the exclusive create succeeds and every later call
succeeds. -/
def creator_env : Env :=
  { usage_ok := true, excl := ⟨3, 0⟩, reopen := ⟨-1, 0⟩, page_size := 4096, Z := 160, A := 8,
    ftruncate := ⟨0, 0⟩, mmap := some 139637976727552, mmap_errno := 0, wake := ⟨1, 0⟩,
    waits := [], munmap := ⟨0, 0⟩, close := ⟨0, 0⟩, unlink := ⟨0, 0⟩ }

/-- A run in which the object exists already, and the first `FUTEX_WAIT`
finds the word changed (`EAGAIN`) and the load reads `MAGIC_VAL`. -/
def opener_env : Env :=
  { usage_ok := true, excl := ⟨-1, 17⟩, reopen := ⟨3, 0⟩, page_size := 4096, Z := 160, A := 8,
    ftruncate := ⟨0, 0⟩, mmap := some 140203088162816, mmap_errno := 0, wake := ⟨0, 0⟩,
    waits := [⟨⟨-1, 11⟩, 305419896⟩], munmap := ⟨0, 0⟩, close := ⟨0, 0⟩, unlink := ⟨0, 0⟩ }

/-- The interleaving in which the process of `creator_env` runs to its end
before the process of `opener_env` starts. -/
def creator_first : List (Bool × Event) :=
  (process creator_env).map (Prod.mk true) ++ (process opener_env).map (Prod.mk false)

/-- `MAX_IO_BUFSIZE`. -/
def MAX_IO_BUFSIZE : Nat := 512

/-- `get_ringbuf_capacity`. -/
def get_ringbuf_capacity (rb : ringbuf) : Nat := ringbuf_capacity rb.srb

/-- `get_io_bufsize`. -/
def get_io_bufsize (rb : ringbuf) : Nat := min (get_ringbuf_capacity rb) MAX_IO_BUFSIZE

/-- What is left of `stdin`: the bytes still to come, and whether the stream
ends with a read error instead of end-of-file. -/
structure Stdin where
  data : List Byte
  error : Bool
deriving DecidableEq, Repr

/-- `fread(buf, 1, n, stdin)`: the bytes read and what is left of the stream.
It reads fewer than `n` bytes only when the stream ends. -/
def fread (n : Nat) (s : Stdin) : List Byte × Stdin :=
  (s.data.take n, { s with data := s.data.drop n })

/-- How a pump thread ends. -/
inductive Thread_end where
  /-- the thread function returns `NULL` -/
  | returned : Thread_end
  /-- `exit` is called with this status -/
  | exited (code : Int) : Thread_end
  /-- a failed `assert` -/
  | aborted : Thread_end
deriving DecidableEq, Repr

/-- The loop of `push_stdin` with a buffer of `bufsize` bytes, for at most
`fuel` calls of `fread`: the calls it makes on the ring, and how the thread
ends (`none` while the loop is still running).  With nothing read and the
end-of-file indicator clear, `assert(ferror(stdin))` decides; reading zero
bytes into a buffer of zero bytes sets neither indicator. -/
def push_stdin_loop (bufsize : Nat) : Nat → Stdin → List Op × Option Thread_end
  | 0, _ => ([], none)
  | fuel + 1, s =>
    let bytes_read := (fread bufsize s).1
    if bytes_read.length = 0 then
      if bufsize = 0 then ([], some .aborted)
      else if s.error then ([], some (.exited EXIT_FAILURE))
      else ([.close], some .returned)
    else
      let r := push_stdin_loop bufsize fuel (fread bufsize s).2
      (.push bytes_read :: r.1, r.2)

/-- `push_stdin` on the ring `rb`: the buffer has `get_io_bufsize(rb)` bytes. -/
def push_stdin (rb : ringbuf) (fuel : Nat) (s : Stdin) : List Op × Option Thread_end :=
  push_stdin_loop (get_io_bufsize rb) fuel s

/-- One turn of the loop of `pop_stdout`. -/
inductive Pop_turn where
  /-- `pop_ringbuf` returned a positive length and `out` went to `stdout` -/
  | written (rb : ringbuf) (buf out : List Byte) : Pop_turn
  /-- `pop_ringbuf` returned 0: `destroy_ringbuf` is called and the thread ends -/
  | destroyed : Pop_turn
  /-- `pop_ringbuf` waits on `has_data` -/
  | blocked : Pop_turn
  /-- a `memcpy` of `pop_ringbuf` left its range -/
  | fault : Pop_turn
  /-- `assert(buf_len <= sizeof(buf))` failed -/
  | aborted : Pop_turn
deriving DecidableEq, Repr

/-- One turn of the loop of `pop_stdout`, with the buffer `buf` (so
`sizeof(buf)` is `buf.length`) and the ring in state `rb`. -/
def pop_stdout_turn (buf : List Byte) (rb : ringbuf) : Pop_turn :=
  match pop_ringbuf rb buf buf.length with
  | .blocked => .blocked
  | .fault => .fault
  | .ok (rb1, buf1, buf_len) =>
    if buf_len = 0 then .destroyed
    else if buf_len ≤ buf.length then .written rb1 buf1 (buf1.take buf_len)
    else .aborted

/-- One call `memcpy(dst + doff, src + soff, n)`. -/
structure Copy where
  doff : Int
  soff : Int
  n : Nat
deriving DecidableEq, Repr

/-- The `memcpy` calls of `push_ringbuf(rb, data, len)` after its wait loop:
the destination is the slab and the source is `data`. -/
def push_copies (srb : shared_rbuf) (len : Nat) : List Copy :=
  let to_copy := min len (size_sub srb.size (to_size_t srb.tail))
  if to_copy < len then
    [⟨srb.tail, 0, to_copy⟩, ⟨0, (to_copy : Int), size_sub len to_copy⟩]
  else [⟨srb.tail, 0, to_copy⟩]

/-- The `memcpy` calls of `pop_ringbuf(rb, buf, len)`: the destination is
`buf` and the source is the slab.  There is none while the call waits and
none when it returns zero for a closed and empty ring. -/
def pop_copies (srb : shared_rbuf) (len : Nat) : List Copy :=
  if is_empty srb && !srb.closed then []
  else if srb.head == srb.tail && srb.closed then []
  else
    let len := min len (ringbuf_bytes_used srb)
    let to_copy := min len (size_sub srb.size (to_size_t srb.head))
    if to_copy < len then
      [⟨0, srb.head, to_copy⟩, ⟨(to_copy : Int), 0, size_sub len to_copy⟩]
    else [⟨0, srb.head, to_copy⟩]

/-- The calls of a list made in order, `none` as soon as one leaves its
range. -/
def copy_all (dst src : List Byte) : List Copy → Option (List Byte)
  | [] => some dst
  | c :: cs =>
    match memcpy dst c.doff src c.soff c.n with
    | none => none
    | some dst1 => copy_all dst1 src cs

/-- The occupied region of the slab: the `ringbuf_bytes_used` indices
starting at `head`, modulo `size`. -/
def occupied (srb : shared_rbuf) : List Nat :=
  (List.range (ringbuf_bytes_used srb)).map (fun j => (srb.head.toNat + j) % srb.size)

/-! ## Arithmetic of the conversions -/

theorem to_size_t_ofNat (n : Nat) (h : n < 18446744073709551616) :
    to_size_t (n : Int) = n := by
  unfold to_size_t; omega

theorem to_int_ofNat (n : Nat) (h : n < 2147483648) : to_int n = (n : Int) := by
  unfold to_int; split <;> omega

theorem size_sub_eq (a b : Nat) (hb : b ≤ a) (ha : a < 18446744073709551616) :
    size_sub a b = a - b := by
  unfold size_sub; omega

theorem size_add_eq (a b : Nat) (h : a + b < 18446744073709551616) :
    size_add a b = a + b := by
  unfold size_add; omega

theorem int_sub_ofNat (a b : Nat) (hb : b ≤ a) (ha : a < 2147483648) :
    int_sub (a : Int) (b : Int) = ((a - b : Nat) : Int) := by
  unfold int_sub to_int to_size_t; split <;> omega

theorem mod_wrap (a n : Nat) (h : a < 2 * n) :
    a % n = if a < n then a else a - n := by
  split
  · exact Nat.mod_eq_of_lt (by assumption)
  · rw [Nat.mod_eq_sub_mod (by omega)]
    exact Nat.mod_eq_of_lt (by omega)

/-! ## Lists -/

theorem getElem?_map_range {α : Type} (f : Nat → α) (m j : Nat) :
    ((List.range m).map f)[j]? = if j < m then some (f j) else none := by
  by_cases h : j < m
  · simp [h]
  · simp [h]
    omega

theorem splice_getElem? {α : Type} (dst src : List α) (a b n i : Nat)
    (ha : a + n ≤ dst.length) (hb : b + n ≤ src.length) :
    (dst.take a ++ (src.drop b).take n ++ dst.drop (a + n))[i]? =
      if a ≤ i ∧ i < a + n then src[b + (i - a)]? else dst[i]? := by
  have h1 : (dst.take a).length = a := by simp; omega
  have h2 : ((src.drop b).take n).length = n := by simp; omega
  by_cases c1 : i < a
  · have : ¬ (a ≤ i ∧ i < a + n) := by omega
    rw [if_neg this, List.append_assoc, List.getElem?_append_left (by omega)]
    simp [List.getElem?_take, c1]
  · by_cases c2 : i < a + n
    · have : (a ≤ i ∧ i < a + n) := by omega
      rw [if_pos this, List.append_assoc, List.getElem?_append_right (by omega),
        List.getElem?_append_left (by omega), h1]
      simp [List.getElem?_take, List.getElem?_drop]
      omega
    · have : ¬ (a ≤ i ∧ i < a + n) := by omega
      rw [if_neg this, List.getElem?_append_right (by simp; omega)]
      simp [List.getElem?_drop]
      congr 1
      omega

/-- A `memcpy` whose two ranges lie inside their lists succeeds; the result
has the length of `dst` and differs from it on `[a, a + n)` only. -/
theorem memcpy_ok (dst src : List Byte) (a b n : Nat)
    (ha : a + n ≤ dst.length) (hb : b + n ≤ src.length) :
    ∃ r, memcpy dst (a : Int) src (b : Int) n = some r ∧ r.length = dst.length ∧
      ∀ i, r[i]? = if a ≤ i ∧ i < a + n then src[b + (i - a)]? else dst[i]? := by
  refine ⟨dst.take a ++ (src.drop b).take n ++ dst.drop (a + n), ?_, ?_, ?_⟩
  · unfold memcpy
    rw [if_pos]
    · simp
    · simp; omega
  · simp; omega
  · intro i
    exact splice_getElem? dst src a b n i ha hb

/-! ## The index computations on natural numbers -/

theorem used_eq (c : Bool) (h t n : Nat) (hh : h < 2147483648) (ht : t < 2147483648)
    (hn : n < 18446744073709551616) (hhn : h < n) :
    ringbuf_bytes_used ⟨c, h, t, n⟩ = if h ≤ t then t - h else n - (h - t) := by
  unfold ringbuf_bytes_used
  by_cases hle : h ≤ t
  · have : (h : Int) ≤ (t : Int) := by omega
    simp only [this, hle, if_true]
    rw [int_sub_ofNat t h hle ht, to_size_t_ofNat _ (by omega)]
  · have : ¬ (h : Int) ≤ (t : Int) := by omega
    simp only [this, hle, if_false]
    rw [int_sub_ofNat h t (by omega) hh, to_size_t_ofNat _ (by omega),
      size_sub_eq _ _ (by omega) hn]

theorem capacity_eq (rb : shared_rbuf) (h1 : 1 ≤ rb.size)
    (hn : rb.size < 18446744073709551616) : ringbuf_capacity rb = rb.size - 1 := by
  unfold ringbuf_capacity
  exact size_sub_eq _ _ h1 hn

theorem free_eq (c : Bool) (h t n : Nat) (hh : h < 2147483648) (ht : t < 2147483648)
    (hn : n < 18446744073709551616) (hhn : h < n) (htn : t < n) :
    ringbuf_bytes_free ⟨c, h, t, n⟩ = n - 1 - (if h ≤ t then t - h else n - (h - t)) := by
  unfold ringbuf_bytes_free
  rw [used_eq c h t n hh ht hn hhn, capacity_eq _ (by simp; omega) (by simpa using hn)]
  apply size_sub_eq
  · split <;> simp <;> omega
  · simp; omega

/-! ## `pop_ringbuf` and `push_ringbuf` in closed form -/

theorem pop_ringbuf_eq (c : Bool) (h t n : Nat) (slab buf : List Byte) (cap : Nat)
    (hh : h < 2147483648) (ht : t < 2147483648) (hn : n < 18446744073709551616)
    (hhn : h < n) (htn : t < n) (hs : slab.length = n) (hne : h ≠ t)
    (hb : cap ≤ buf.length) :
    ∃ buf1, pop_ringbuf ⟨⟨c, h, t, n⟩, slab⟩ buf cap =
        .ok (⟨⟨c, to_int ((h + min cap (ringbuf_bytes_used ⟨c, h, t, n⟩)) % n), t, n⟩, slab⟩,
          buf1, min cap (ringbuf_bytes_used ⟨c, h, t, n⟩)) ∧
      buf1.length = buf.length ∧
      ∀ i, buf1[i]? =
        if i < min cap (ringbuf_bytes_used ⟨c, h, t, n⟩) then slab[(h + i) % n]?
        else buf[i]? := by
  have hu := used_eq c h t n hh ht hn hhn
  have e1 : ((h : Int) == (t : Int)) = false := by simp; omega
  simp only [pop_ringbuf, is_empty, e1, Bool.false_and, to_size_t_ofNat h (by omega),
    size_sub_eq n h (by omega) hn]
  generalize ringbuf_bytes_used ⟨c, h, t, n⟩ = u at hu ⊢
  have hu1 : u ≤ n - 1 ∧ (t < h → u = n - h + t) ∧ (h ≤ t → u = t - h) := by
    by_cases hle : h ≤ t
    · simp only [hle, if_true] at hu; omega
    · simp only [hle, if_false] at hu; omega
  clear hu
  generalize hk : min cap u = k
  have hk1 : k ≤ cap ∧ k ≤ u := by omega
  by_cases hc : k ≤ n - h
  · rw [Nat.min_eq_left hc]
    obtain ⟨r, hr, hrl, hri⟩ := memcpy_ok buf slab 0 h k (by omega) (by omega)
    simp only [Nat.cast_zero] at hr
    simp only [hr, Nat.lt_irrefl, if_false, Bool.false_eq_true]
    refine ⟨r, ?_, hrl, ?_⟩
    · rw [size_add_eq h k (by omega)]
    · intro i
      rw [hri i]
      by_cases hi : i < k
      · have : 0 ≤ i ∧ i < 0 + k := by omega
        rw [if_pos this, if_pos hi, Nat.mod_eq_of_lt (by omega)]
        simp
      · have : ¬ (0 ≤ i ∧ i < 0 + k) := by omega
        rw [if_neg this, if_neg hi]
  · have hmin : min k (n - h) = n - h := by omega
    rw [hmin]
    obtain ⟨r, hr, hrl, hri⟩ := memcpy_ok buf slab 0 h (n - h) (by omega) (by omega)
    simp only [Nat.cast_zero] at hr
    have hlt : n - h < k := by omega
    have hmore : size_sub k (n - h) = k - (n - h) := size_sub_eq _ _ (by omega) (by omega)
    obtain ⟨r2, hr2, hrl2, hri2⟩ :=
      memcpy_ok r slab (n - h) 0 (k - (n - h)) (by omega) (by omega)
    simp only [Nat.cast_zero] at hr2
    have hh1 : to_int (size_add h (n - h) % n) = 0 := by
      rw [size_add_eq h (n - h) (by omega)]
      have : h + (n - h) = n := by omega
      rw [this, Nat.mod_self]
      rfl
    have hz : to_size_t 0 = 0 := rfl
    simp only [hr, hlt, if_true, hmore, hr2, hh1, hz, Bool.false_eq_true, if_false]
    refine ⟨r2, ?_, by omega, ?_⟩
    · rw [size_add_eq 0 _ (by omega), Nat.zero_add,
        Nat.mod_eq_of_lt (show k - (n - h) < n by omega),
        mod_wrap (h + k) n (by omega), if_neg (show ¬ h + k < n by omega)]
      have : k - (n - h) = h + k - n := by omega
      rw [this]
    · intro i
      rw [hri2 i]
      by_cases hi : i < k
      · rw [if_pos hi]
        by_cases hi2 : n - h ≤ i
        · have : n - h ≤ i ∧ i < n - h + (k - (n - h)) := by omega
          rw [if_pos this, mod_wrap (h + i) n (by omega), if_neg (show ¬ h + i < n by omega)]
          congr 1
          omega
        · have : ¬ (n - h ≤ i ∧ i < n - h + (k - (n - h))) := by omega
          rw [if_neg this, hri i]
          have : 0 ≤ i ∧ i < 0 + (n - h) := by omega
          rw [if_pos this, Nat.mod_eq_of_lt (by omega)]
          simp
      · have : ¬ (n - h ≤ i ∧ i < n - h + (k - (n - h))) := by omega
        rw [if_neg hi, if_neg this, hri i]
        have : ¬ (0 ≤ i ∧ i < 0 + (n - h)) := by omega
        rw [if_neg this]

theorem push_ringbuf_eq (c : Bool) (h t n : Nat) (slab data : List Byte)
    (hh : h < 2147483648) (ht : t < 2147483648) (hn : n < 18446744073709551616)
    (hhn : h < n) (htn : t < n) (hs : slab.length = n)
    (hfree : data.length ≤ ringbuf_bytes_free ⟨c, h, t, n⟩) :
    ∃ slab1, push_ringbuf ⟨⟨c, h, t, n⟩, slab⟩ data =
        .ok ⟨⟨c, h, to_int ((t + data.length) % n), n⟩, slab1⟩ ∧
      slab1.length = n ∧
      ∀ i, i < n → slab1[i]? =
        if t ≤ i then (if i - t < data.length then data[i - t]? else slab[i]?)
        else (if i + n - t < data.length then data[i + n - t]? else slab[i]?) := by
  have hf := free_eq c h t n hh ht hn hhn htn
  have hlen : data.length ≤ n - 1 := by omega
  simp only [push_ringbuf, if_neg (Nat.not_lt.mpr hfree), to_size_t_ofNat t (by omega),
    size_sub_eq n t (by omega) hn]
  clear hf hfree
  by_cases hc : data.length ≤ n - t
  · rw [Nat.min_eq_left hc]
    obtain ⟨r, hr, hrl, hri⟩ := memcpy_ok slab data t 0 data.length (by omega) (by omega)
    simp only [Nat.cast_zero] at hr
    simp only [hr, Nat.lt_irrefl, if_false]
    refine ⟨r, ?_, by omega, ?_⟩
    · rw [size_add_eq t _ (by omega)]
    · intro i hi
      rw [hri i]
      by_cases hti : t ≤ i
      · rw [if_pos hti]
        by_cases hi2 : i - t < data.length
        · rw [if_pos hi2, if_pos (show t ≤ i ∧ i < t + data.length by omega), Nat.zero_add]
        · rw [if_neg hi2, if_neg (show ¬ (t ≤ i ∧ i < t + data.length) by omega)]
      · rw [if_neg hti, if_neg (show ¬ (t ≤ i ∧ i < t + data.length) by omega),
          if_neg (show ¬ i + n - t < data.length by omega)]
  · have hmin : min data.length (n - t) = n - t := by omega
    rw [hmin]
    obtain ⟨r, hr, hrl, hri⟩ := memcpy_ok slab data t 0 (n - t) (by omega) (by omega)
    simp only [Nat.cast_zero] at hr
    have hlt : n - t < data.length := by omega
    have hmore : size_sub data.length (n - t) = data.length - (n - t) :=
      size_sub_eq _ _ (by omega) (by omega)
    obtain ⟨r2, hr2, hrl2, hri2⟩ :=
      memcpy_ok r data 0 (n - t) (data.length - (n - t)) (by omega) (by omega)
    simp only [Nat.cast_zero] at hr2
    have hh1 : to_int (size_add t (n - t) % n) = 0 := by
      rw [size_add_eq t (n - t) (by omega)]
      have : t + (n - t) = n := by omega
      rw [this, Nat.mod_self]
      rfl
    have hz : to_size_t 0 = 0 := rfl
    simp only [hr, hlt, if_true, hmore, hr2, hh1, hz]
    refine ⟨r2, ?_, by omega, ?_⟩
    · rw [size_add_eq 0 _ (by omega), Nat.zero_add,
        Nat.mod_eq_of_lt (show data.length - (n - t) < n by omega),
        mod_wrap (t + data.length) n (by omega),
        if_neg (show ¬ t + data.length < n by omega)]
      have : data.length - (n - t) = t + data.length - n := by omega
      rw [this]
    · intro i hi
      rw [hri2 i]
      by_cases hti : t ≤ i
      · rw [if_pos hti, if_neg (show ¬ (0 ≤ i ∧ i < 0 + (data.length - (n - t))) by omega),
          hri i, if_pos (show t ≤ i ∧ i < t + (n - t) by omega),
          if_pos (show i - t < data.length by omega), Nat.zero_add]
      · rw [if_neg hti]
        by_cases hi2 : i + n - t < data.length
        · rw [if_pos hi2, if_pos (show 0 ≤ i ∧ i < 0 + (data.length - (n - t)) by omega)]
          congr 1
          omega
        · rw [if_neg hi2, if_neg (show ¬ (0 ≤ i ∧ i < 0 + (data.length - (n - t))) by omega),
            hri i, if_neg (show ¬ (t ≤ i ∧ i < t + (n - t)) by omega)]

/-! ## The ring as a queue -/

theorem ring_ok_cases (rb : ringbuf) (hok : ring_ok rb) :
    ∃ (c : Bool) (h t n : Nat) (slab : List Byte),
      rb = ⟨⟨c, h, t, n⟩, slab⟩ ∧ h < 2147483648 ∧ t < 2147483648 ∧
      n < 18446744073709551616 ∧ h < n ∧ t < n ∧ slab.length = n := by
  obtain ⟨⟨c, hd, tl, n⟩, slab⟩ := rb
  obtain ⟨⟨_, h2, _, h4, h5⟩, ⟨i1, i2, i3, i4⟩, hs⟩ := hok
  simp only at *
  obtain ⟨h, rfl⟩ := Int.eq_ofNat_of_zero_le i1
  obtain ⟨t, rfl⟩ := Int.eq_ofNat_of_zero_le i3
  exact ⟨c, h, t, n, slab, rfl, by omega, by omega, h5, by omega, by omega, hs⟩

theorem ring_ok_mk (c : Bool) (h t n : Nat) (slab : List Byte)
    (hh : h < 2147483648) (ht : t < 2147483648) (hn : n < 18446744073709551616)
    (hhn : h < n) (htn : t < n) (hs : slab.length = n) :
    ring_ok ⟨⟨c, h, t, n⟩, slab⟩ := by
  refine ⟨⟨?_, ?_, ?_, ?_, ?_⟩, ⟨?_, ?_, ?_, ?_⟩, hs⟩ <;> simp only <;> omega

theorem some_getD_eq {l : List Byte} {a b : Nat} (hab : a = b) (hb : b < l.length) :
    some (l[a]?.getD 0) = l[b]? := by
  subst hab
  rw [List.getElem?_eq_getElem hb]
  rfl

theorem contents_getElem? (rb : ringbuf) (j : Nat) :
    (contents rb)[j]? =
      if j < ringbuf_bytes_used rb.srb then
        some (rb.slab[(rb.srb.head.toNat + j) % rb.srb.size]?.getD 0)
      else none := by
  unfold contents
  rw [getElem?_map_range]
  simp only [List.getD_eq_getElem?_getD]

theorem contents_length (rb : ringbuf) :
    (contents rb).length = ringbuf_bytes_used rb.srb := by
  simp [contents]

theorem used_spec (c : Bool) (h t n : Nat) (hh : h < 2147483648) (ht : t < 2147483648)
    (hn : n < 18446744073709551616) (hhn : h < n) (htn : t < n) :
    (h ≤ t → ringbuf_bytes_used ⟨c, h, t, n⟩ = t - h) ∧
    (t < h → ringbuf_bytes_used ⟨c, h, t, n⟩ = n - h + t) ∧
    ringbuf_bytes_free ⟨c, h, t, n⟩ = n - 1 - ringbuf_bytes_used ⟨c, h, t, n⟩ := by
  rw [free_eq c h t n hh ht hn hhn htn, used_eq c h t n hh ht hn hhn]
  by_cases hle : h ≤ t
  · rw [if_pos hle]
    exact ⟨fun _ => rfl, fun _ => by omega, rfl⟩
  · rw [if_neg hle]
    exact ⟨fun _ => by omega, fun _ => by omega, rfl⟩

theorem push_queue (c : Bool) (h t n : Nat) (slab data : List Byte)
    (hn31 : n ≤ 2147483648) (hhn : h < n) (htn : t < n) (hs : slab.length = n)
    (hfree : data.length ≤ ringbuf_bytes_free ⟨c, h, t, n⟩) :
    ∃ rb1, push_ringbuf ⟨⟨c, h, t, n⟩, slab⟩ data = .ok rb1 ∧ ring_ok rb1 ∧
      rb1.srb.head = h ∧ rb1.srb.tail = (((t + data.length) % n : Nat) : Int) ∧
      rb1.srb.size = n ∧ rb1.srb.closed = c ∧
      ringbuf_bytes_used rb1.srb = ringbuf_bytes_used ⟨c, h, t, n⟩ + data.length ∧
      contents rb1 = contents ⟨⟨c, h, t, n⟩, slab⟩ ++ data := by
  obtain ⟨hu1, hu2, hf⟩ := used_spec c h t n (by omega) (by omega) (by omega) hhn htn
  obtain ⟨slab1, hpush, hl, hget⟩ :=
    push_ringbuf_eq c h t n slab data (by omega) (by omega) (by omega) hhn htn hs hfree
  have hw := mod_wrap (t + data.length) n (by omega)
  generalize (t + data.length) % n = t1 at hw hpush ⊢
  have ht1 : t1 < n ∧ (t + data.length < n → t1 = t + data.length) ∧
      (n ≤ t + data.length → t1 = t + data.length - n) := by
    by_cases hlt : t + data.length < n
    · simp only [hlt, if_true] at hw; omega
    · simp only [hlt, if_false] at hw; omega
  clear hw
  rw [to_int_ofNat t1 (by omega)] at hpush
  obtain ⟨hv1, hv2, -⟩ := used_spec c h t1 n (by omega) (by omega) (by omega) hhn ht1.1
  have hused : ringbuf_bytes_used ⟨c, h, t1, n⟩ =
      ringbuf_bytes_used ⟨c, h, t, n⟩ + data.length := by
    by_cases a : h ≤ t <;> by_cases b : h ≤ t1 <;> omega
  refine ⟨_, hpush, ring_ok_mk c h t1 n slab1 (by omega) (by omega) (by omega) hhn ht1.1 hl,
    rfl, rfl, rfl, rfl, hused, ?_⟩
  apply List.ext_getElem?
  intro j
  rw [contents_getElem?, List.getElem?_append, contents_length, contents_getElem?]
  simp only [Int.toNat_ofNat, hused]
  generalize ringbuf_bytes_used ⟨c, h, t, n⟩ = u at *
  have hm := mod_wrap (h + j) n
  by_cases hj : j < u
  · rw [if_pos hj, if_pos hj, if_pos (by omega)]
    have hi : (h + j) % n < n := Nat.mod_lt _ (by omega)
    rw [hget _ hi]
    rw [hm (by omega)]
    by_cases hwrap : h + j < n
    · simp only [hwrap, if_true]
      by_cases a : t ≤ h + j
      · rw [if_pos a, if_neg (by omega)]
      · rw [if_neg a, if_neg (by omega)]
    · simp only [hwrap, if_false]
      by_cases a : t ≤ h + j - n
      · rw [if_pos a, if_neg (by omega)]
      · rw [if_neg a, if_neg (by omega)]
  · rw [if_neg hj]
    by_cases hj2 : j < u + data.length
    · rw [if_pos hj2]
      have hi : (h + j) % n < n := Nat.mod_lt _ (by omega)
      rw [hget _ hi, hm (by omega)]
      by_cases hwrap : h + j < n
      · simp only [hwrap, if_true]
        by_cases a : t ≤ h + j
        · rw [if_pos a, if_pos (by omega)]
          exact some_getD_eq (by omega) (by omega)
        · rw [if_neg a, if_pos (by omega)]
          exact some_getD_eq (by omega) (by omega)
      · simp only [hwrap, if_false]
        by_cases a : t ≤ h + j - n
        · rw [if_pos a, if_pos (by omega)]
          exact some_getD_eq (by omega) (by omega)
        · rw [if_neg a, if_pos (by omega)]
          exact some_getD_eq (by omega) (by omega)
    · rw [if_neg hj2]
      symm
      apply List.getElem?_eq_none
      omega

theorem pop_queue (c : Bool) (h t n : Nat) (slab buf : List Byte) (cap : Nat)
    (hn31 : n ≤ 2147483648) (hhn : h < n) (htn : t < n) (hs : slab.length = n)
    (hne : h ≠ t) (hb : cap ≤ buf.length) :
    ∃ rb1 buf1, pop_ringbuf ⟨⟨c, h, t, n⟩, slab⟩ buf cap =
        .ok (rb1, buf1, min cap (ringbuf_bytes_used ⟨c, h, t, n⟩)) ∧
      ring_ok rb1 ∧ rb1.srb.tail = t ∧ rb1.srb.size = n ∧ rb1.srb.closed = c ∧
      rb1.slab = slab ∧
      ringbuf_bytes_used rb1.srb =
        ringbuf_bytes_used ⟨c, h, t, n⟩ - min cap (ringbuf_bytes_used ⟨c, h, t, n⟩) ∧
      buf1.length = buf.length ∧
      buf1.take (min cap (ringbuf_bytes_used ⟨c, h, t, n⟩)) =
        (contents ⟨⟨c, h, t, n⟩, slab⟩).take (min cap (ringbuf_bytes_used ⟨c, h, t, n⟩)) ∧
      buf1.drop (min cap (ringbuf_bytes_used ⟨c, h, t, n⟩)) =
        buf.drop (min cap (ringbuf_bytes_used ⟨c, h, t, n⟩)) ∧
      contents rb1 =
        (contents ⟨⟨c, h, t, n⟩, slab⟩).drop (min cap (ringbuf_bytes_used ⟨c, h, t, n⟩)) := by
  obtain ⟨hu1, hu2, -⟩ := used_spec c h t n (by omega) (by omega) (by omega) hhn htn
  obtain ⟨buf1, hpop, hl, hget⟩ :=
    pop_ringbuf_eq c h t n slab buf cap (by omega) (by omega) (by omega) hhn htn hs hne hb
  have hk : min cap (ringbuf_bytes_used ⟨c, h, t, n⟩) ≤ ringbuf_bytes_used ⟨c, h, t, n⟩ :=
    Nat.min_le_right _ _
  generalize min cap (ringbuf_bytes_used ⟨c, h, t, n⟩) = k at hk hpop hget ⊢
  have hh1 : (h + k) % n < n := Nat.mod_lt _ (by omega)
  rw [to_int_ofNat _ (by omega)] at hpop
  have hw := mod_wrap (h + k) n (by omega)
  obtain ⟨hv1, hv2, -⟩ :=
    used_spec c ((h + k) % n) t n (by omega) (by omega) (by omega) hh1 htn
  have hused : ringbuf_bytes_used ⟨c, ((h + k) % n : Nat), t, n⟩ =
      ringbuf_bytes_used ⟨c, h, t, n⟩ - k := by
    by_cases hlt : h + k < n
    · simp only [hlt, if_true] at hw
      rw [hw] at hv1 hv2 ⊢
      by_cases a : h ≤ t <;> by_cases b : h + k ≤ t <;> omega
    · simp only [hlt, if_false] at hw
      rw [hw] at hv1 hv2 ⊢
      by_cases a : h ≤ t <;> by_cases b : h + k - n ≤ t <;> omega
  refine ⟨_, buf1, hpop, ring_ok_mk c _ t n slab (by omega) (by omega) (by omega) hh1 htn hs,
    rfl, rfl, rfl, rfl, hused, hl, ?_, ?_, ?_⟩
  · apply List.ext_getElem?
    intro j
    rw [List.getElem?_take, List.getElem?_take, hget j, contents_getElem?]
    simp only [Int.toNat_ofNat]
    by_cases hj : j < k
    · rw [if_pos hj, if_pos hj, if_pos hj, if_pos (by omega)]
      have hi : (h + j) % n < n := Nat.mod_lt _ (by omega)
      exact (some_getD_eq rfl (by omega)).symm
    · rw [if_neg hj, if_neg hj]
  · apply List.ext_getElem?
    intro j
    rw [List.getElem?_drop, List.getElem?_drop, hget (k + j), if_neg (by omega)]
  · apply List.ext_getElem?
    intro j
    rw [List.getElem?_drop, contents_getElem?, contents_getElem?, hused]
    simp only [Int.toNat_ofNat, Nat.mod_add_mod]
    by_cases hj : j < ringbuf_bytes_used ⟨c, h, t, n⟩ - k
    · rw [if_pos hj, if_pos (by omega), Nat.add_assoc]
    · rw [if_neg hj, if_neg (by omega)]

theorem push_ok (rb : ringbuf) (data : List Byte) (hok : ring_ok rb)
    (hsz : rb.srb.size ≤ 2147483648) (hfree : data.length ≤ ringbuf_bytes_free rb.srb) :
    ∃ rb1, push_ringbuf rb data = .ok rb1 ∧ ring_ok rb1 ∧
      rb1.srb.head = rb.srb.head ∧
      rb1.srb.tail = (((rb.srb.tail.toNat + data.length) % rb.srb.size : Nat) : Int) ∧
      rb1.srb.size = rb.srb.size ∧ rb1.srb.closed = rb.srb.closed ∧
      ringbuf_bytes_used rb1.srb = ringbuf_bytes_used rb.srb + data.length ∧
      contents rb1 = contents rb ++ data := by
  obtain ⟨c, h, t, n, slab, rfl, -, -, -, hhn, htn, hs⟩ := ring_ok_cases rb hok
  exact push_queue c h t n slab data hsz hhn htn hs hfree

theorem is_empty_false_iff (c : Bool) (h t n : Nat) :
    is_empty ⟨c, h, t, n⟩ = false ↔ h ≠ t := by
  simp [is_empty]

theorem pop_ok (rb : ringbuf) (buf : List Byte) (cap : Nat) (hok : ring_ok rb)
    (hsz : rb.srb.size ≤ 2147483648) (hne : is_empty rb.srb = false)
    (hb : cap ≤ buf.length) :
    ∃ rb1 buf1, pop_ringbuf rb buf cap =
        .ok (rb1, buf1, min cap (ringbuf_bytes_used rb.srb)) ∧
      ring_ok rb1 ∧ rb1.srb.tail = rb.srb.tail ∧ rb1.srb.size = rb.srb.size ∧
      rb1.srb.closed = rb.srb.closed ∧ rb1.slab = rb.slab ∧
      ringbuf_bytes_used rb1.srb =
        ringbuf_bytes_used rb.srb - min cap (ringbuf_bytes_used rb.srb) ∧
      buf1.length = buf.length ∧
      buf1.take (min cap (ringbuf_bytes_used rb.srb)) =
        (contents rb).take (min cap (ringbuf_bytes_used rb.srb)) ∧
      buf1.drop (min cap (ringbuf_bytes_used rb.srb)) =
        buf.drop (min cap (ringbuf_bytes_used rb.srb)) ∧
      contents rb1 = (contents rb).drop (min cap (ringbuf_bytes_used rb.srb)) := by
  obtain ⟨c, h, t, n, slab, rfl, -, -, -, hhn, htn, hs⟩ := ring_ok_cases rb hok
  exact pop_queue c h t n slab buf cap hsz hhn htn hs ((is_empty_false_iff c h t n).mp hne) hb

theorem pop_closed_empty (rb : ringbuf) (buf : List Byte) (cap : Nat)
    (he : is_empty rb.srb = true) (hc : rb.srb.closed = true) :
    pop_ringbuf rb buf cap = .ok (rb, buf, 0) := by
  have he2 : (rb.srb.head == rb.srb.tail) = true := he
  simp [pop_ringbuf, he, hc, he2]

theorem pop_blocked (rb : ringbuf) (buf : List Byte) (cap : Nat)
    (he : is_empty rb.srb = true) (hc : rb.srb.closed = false) :
    pop_ringbuf rb buf cap = .blocked := by
  simp [pop_ringbuf, he, hc]

theorem used_pos_of_nonempty (rb : ringbuf) (hok : ring_ok rb)
    (hne : is_empty rb.srb = false) : 0 < ringbuf_bytes_used rb.srb := by
  obtain ⟨c, h, t, n, slab, rfl, hh, ht, hn, hhn, htn, hs⟩ := ring_ok_cases rb hok
  have hne2 := (is_empty_false_iff c h t n).mp hne
  obtain ⟨hu1, hu2, -⟩ := used_spec c h t n hh ht hn hhn htn
  by_cases a : h ≤ t <;> simp only at * <;> omega

theorem used_zero_of_empty (rb : ringbuf) (hok : ring_ok rb)
    (he : is_empty rb.srb = true) : ringbuf_bytes_used rb.srb = 0 := by
  obtain ⟨c, h, t, n, slab, rfl, hh, ht, hn, hhn, htn, hs⟩ := ring_ok_cases rb hok
  have he2 : h = t := by simpa [is_empty] using he
  obtain ⟨hu1, -, -⟩ := used_spec c h t n hh ht hn hhn htn
  simp only at *
  omega

theorem used_free (rb : ringbuf) (hok : ring_ok rb) :
    ringbuf_bytes_used rb.srb ≤ rb.srb.size - 1 ∧
    ringbuf_bytes_free rb.srb = rb.srb.size - 1 - ringbuf_bytes_used rb.srb ∧
    ringbuf_capacity rb.srb = rb.srb.size - 1 := by
  obtain ⟨c, h, t, n, slab, rfl, hh, ht, hn, hhn, htn, hs⟩ := ring_ok_cases rb hok
  obtain ⟨hu1, hu2, hf⟩ := used_spec c h t n hh ht hn hhn htn
  have hcap := capacity_eq ⟨c, h, t, n⟩ (by simp only; omega) (by simpa using hn)
  simp only at *
  refine ⟨?_, hf, hcap⟩
  by_cases a : h ≤ t <;> omega

theorem step_inv (s : Trace) (op : Op) (hok : ring_ok s.rb)
    (hsz : s.rb.srb.size ≤ 2147483648) :
    step s op ≠ .fault ∧
    ∀ s1, step s op = .ok s1 →
      ring_ok s1.rb ∧ s1.rb.srb.size = s.rb.srb.size ∧
      (s.pushed = s.popped ++ contents s.rb → s1.pushed = s1.popped ++ contents s1.rb) := by
  cases op with
  | push data =>
    by_cases hfree : data.length ≤ ringbuf_bytes_free s.rb.srb
    · obtain ⟨rb1, hp, hok1, -, -, hs1, -, -, hc1⟩ := push_ok s.rb data hok hsz hfree
      simp only [step, hp]
      refine ⟨by simp, ?_⟩
      intro s1 hs
      cases hs
      refine ⟨hok1, hs1, ?_⟩
      intro hq
      simp only [hc1, hq, List.append_assoc]
    · have hb : push_ringbuf s.rb data = .blocked := by
        simp only [push_ringbuf]
        rw [if_pos (by omega)]
      simp [step, hb]
  | pop cap =>
    by_cases he : is_empty s.rb.srb = true
    · by_cases hc : s.rb.srb.closed = true
      · simp only [step, pop_closed_empty s.rb _ cap he hc]
        refine ⟨by simp, ?_⟩
        intro s1 hs
        cases hs
        exact ⟨hok, rfl, fun hq => by simpa using hq⟩
      · simp [step, pop_blocked s.rb _ cap he (by simpa using hc)]
    · obtain ⟨rb1, buf1, hp, hok1, -, hs1, -, -, -, -, htake, -, hc1⟩ :=
        pop_ok s.rb (List.replicate cap 0) cap hok hsz (by simpa using he) (by simp)
      simp only [step, hp]
      refine ⟨by simp, ?_⟩
      intro s1 hs
      cases hs
      refine ⟨hok1, hs1, ?_⟩
      intro hq
      simp only [hc1, hq, htake, List.append_assoc, List.take_append_drop]
  | close =>
    simp only [step]
    refine ⟨by simp, ?_⟩
    intro s1 hs
    cases hs
    exact ⟨hok, rfl, fun hq => hq⟩

theorem run_inv (ops : List Op) :
    ∀ s : Trace, ring_ok s.rb → s.rb.srb.size ≤ 2147483648 →
      run s ops ≠ .fault ∧
      ∀ s1, run s ops = .ok s1 →
        ring_ok s1.rb ∧ s1.rb.srb.size = s.rb.srb.size ∧
        (s.pushed = s.popped ++ contents s.rb →
          s1.pushed = s1.popped ++ contents s1.rb) := by
  induction ops with
  | nil =>
    intro s hok hsz
    refine ⟨by simp [run], ?_⟩
    intro s1 hs
    simp only [run, Res.ok.injEq] at hs
    subst hs
    exact ⟨hok, rfl, fun hq => hq⟩
  | cons op ops ih =>
    intro s hok hsz
    obtain ⟨hnf, hstep⟩ := step_inv s op hok hsz
    cases hst : step s op with
    | blocked => simp [run, hst]
    | fault => exact absurd hst hnf
    | ok s1 =>
      obtain ⟨hok1, hsz1, hq1⟩ := hstep s1 hst
      obtain ⟨hnf2, hrun⟩ := ih s1 hok1 (by omega)
      simp only [run, hst]
      refine ⟨hnf2, ?_⟩
      intro s2 hs2
      obtain ⟨hok2, hsz2, hq2⟩ := hrun s2 hs2
      exact ⟨hok2, by rw [hsz2, hsz1], fun hq => hq2 (hq1 hq)⟩

theorem zero_slab_length (n : Nat) : (zero_slab n).length = n := by
  simp [zero_slab]

theorem run_push (s : Trace) (data : List Byte) (rb1 : ringbuf)
    (h : push_ringbuf s.rb data = .ok rb1) :
    run s [.push data] = .ok ⟨rb1, s.pushed ++ data, s.popped⟩ := by
  simp [run, step, h]

theorem run_cons (s s1 : Trace) (op : Op) (ops : List Op) (h : step s op = .ok s1) :
    run s (op :: ops) = run s1 ops := by
  simp [run, h]

theorem step_pop (s : Trace) (cap ret : Nat) (rb1 : ringbuf) (buf1 : List Byte)
    (h : pop_ringbuf s.rb (List.replicate cap 0) cap = .ok (rb1, buf1, ret)) :
    step s (.pop cap) = .ok ⟨rb1, s.pushed, s.popped ++ buf1.take ret⟩ := by
  simp [step, h]

theorem run_fault (s : Trace) (op : Op) (ops : List Op) (h : step s op = .fault) :
    run s (op :: ops) = .fault := by
  simp [run, h]

theorem step_pop_fault (s : Trace) (cap : Nat)
    (h : pop_ringbuf s.rb (List.replicate cap 0) cap = .fault) :
    step s (.pop cap) = .fault := by
  simp [step, h]

theorem pop_any_size (c : Bool) (h t n : Nat) (slab buf : List Byte) (cap : Nat)
    (hh : h < 2147483648) (ht : t < 2147483648) (hn : n < 18446744073709551616)
    (hhn : h < n) (htn : t < n) (hs : slab.length = n) (hne : h ≠ t)
    (hb : cap ≤ buf.length) :
    ∃ rb1 buf1, pop_ringbuf ⟨⟨c, h, t, n⟩, slab⟩ buf cap =
        .ok (rb1, buf1, min cap (ringbuf_bytes_used ⟨c, h, t, n⟩)) ∧
      rb1.srb.tail = t ∧ rb1.srb.size = n ∧ rb1.srb.closed = c ∧ rb1.slab = slab ∧
      buf1.length = buf.length ∧
      buf1.take (min cap (ringbuf_bytes_used ⟨c, h, t, n⟩)) =
        (contents ⟨⟨c, h, t, n⟩, slab⟩).take (min cap (ringbuf_bytes_used ⟨c, h, t, n⟩)) ∧
      buf1.drop (min cap (ringbuf_bytes_used ⟨c, h, t, n⟩)) =
        buf.drop (min cap (ringbuf_bytes_used ⟨c, h, t, n⟩)) ∧
      (ringbuf_bytes_used ⟨c, h, t, n⟩ ≤ cap → rb1.srb.head = t) := by
  obtain ⟨hu1, hu2, -⟩ := used_spec c h t n hh ht hn hhn htn
  obtain ⟨buf1, hpop, hl, hget⟩ :=
    pop_ringbuf_eq c h t n slab buf cap hh ht hn hhn htn hs hne hb
  refine ⟨_, buf1, hpop, rfl, rfl, rfl, rfl, hl, ?_, ?_, ?_⟩
  · have hk : min cap (ringbuf_bytes_used ⟨c, h, t, n⟩) ≤ ringbuf_bytes_used ⟨c, h, t, n⟩ :=
      Nat.min_le_right _ _
    generalize min cap (ringbuf_bytes_used ⟨c, h, t, n⟩) = k at hk hget ⊢
    apply List.ext_getElem?
    intro j
    rw [List.getElem?_take, List.getElem?_take, hget j, contents_getElem?]
    simp only [Int.toNat_ofNat]
    by_cases hj : j < k
    · rw [if_pos hj, if_pos hj, if_pos hj, if_pos (by omega)]
      have hi : (h + j) % n < n := Nat.mod_lt _ (by omega)
      exact (some_getD_eq rfl (by omega)).symm
    · rw [if_neg hj, if_neg hj]
  · generalize min cap (ringbuf_bytes_used ⟨c, h, t, n⟩) = k at hget ⊢
    apply List.ext_getElem?
    intro j
    rw [List.getElem?_drop, List.getElem?_drop, hget (k + j), if_neg (by omega)]
  · intro hcap
    simp only
    rw [Nat.min_eq_right hcap]
    have hw := mod_wrap (h + ringbuf_bytes_used ⟨c, h, t, n⟩) n
      (by by_cases a : h ≤ t <;> omega)
    have : (h + ringbuf_bytes_used ⟨c, h, t, n⟩) % n = t := by
      rw [hw]
      by_cases a : h ≤ t
      · rw [if_pos (by omega)]; omega
      · rw [if_neg (by omega)]; omega
    rw [this, to_int_ofNat t ht]

theorem drain_run : ∀ (caps : List Nat) (s : Trace), ring_ok s.rb →
    s.rb.srb.size ≤ 2147483648 → s.rb.srb.closed = true → (∀ c ∈ caps, 1 ≤ c) →
    ringbuf_bytes_used s.rb.srb ≤ caps.length →
    ∃ s1, run s (caps.map Op.pop) = .ok s1 ∧ s1.popped = s.popped ++ contents s.rb ∧
      is_empty s1.rb.srb = true ∧ s1.rb.srb.closed = true ∧ s1.rb.slab = s.rb.slab ∧
      s1.rb.srb.tail = s.rb.srb.tail := by
  intro caps
  induction caps with
  | nil =>
    intro s hok hsz hcl _ hlen
    have hu : ringbuf_bytes_used s.rb.srb = 0 := by simpa using hlen
    have hc : contents s.rb = [] :=
      List.eq_nil_of_length_eq_zero (by rw [contents_length, hu])
    refine ⟨s, rfl, by simp [hc], ?_, hcl, rfl, rfl⟩
    by_cases he : is_empty s.rb.srb = true
    · exact he
    · have := used_pos_of_nonempty s.rb hok (by simpa using he)
      omega
  | cons c cs ih =>
    intro s hok hsz hcl hcaps hlen
    have hc1 : 1 ≤ c := hcaps c (List.mem_cons_self _ _)
    have hcs : ∀ d ∈ cs, 1 ≤ d := fun d hd => hcaps d (List.mem_cons_of_mem _ hd)
    simp only [List.length_cons] at hlen
    by_cases he : is_empty s.rb.srb = true
    · have hp := pop_closed_empty s.rb (List.replicate c 0) c he hcl
      have hst := step_pop s c 0 s.rb _ hp
      have hu := used_zero_of_empty s.rb hok he
      obtain ⟨s1, hr, hpop, h1, h2, h3, h4⟩ :=
        ih ⟨s.rb, s.pushed, s.popped ++ (List.replicate c 0).take 0⟩ hok hsz hcl hcs
          (by simp only; omega)
      refine ⟨s1, ?_, ?_, h1, h2, h3, h4⟩
      · rw [List.map_cons, run_cons s _ _ _ hst]
        exact hr
      · simpa using hpop
    · have hne : is_empty s.rb.srb = false := by simpa using he
      have hpos := used_pos_of_nonempty s.rb hok hne
      obtain ⟨rb1, buf1, hp, hok1, ht1, hs1, hcl1, hsl1, hu1, -, htake, -, hcon⟩ :=
        pop_ok s.rb (List.replicate c 0) c hok hsz hne (by simp)
      have hst := step_pop s c _ rb1 buf1 hp
      obtain ⟨s1, hr, hpop, h1, h2, h3, h4⟩ :=
        ih ⟨rb1, s.pushed, s.popped ++ buf1.take (min c (ringbuf_bytes_used s.rb.srb))⟩
          hok1 (by simp only; omega) (by simp only; rw [hcl1]; exact hcl) hcs
          (by simp only; omega)
      refine ⟨s1, ?_, ?_, h1, h2, by rw [h3]; exact hsl1, by rw [h4]; exact ht1⟩
      · rw [List.map_cons, run_cons s _ _ _ hst]
        exact hr
      · rw [hpop]
        simp only [htake, hcon, List.append_assoc, List.take_append_drop]

theorem pop_negative_head (slab buf : List Byte) :
    pop_ringbuf ⟨⟨true, -2147483647, 0, 3221225472⟩, slab⟩ buf 2 = .fault := by
  have hu : ringbuf_bytes_used ⟨true, -2147483647, 0, 3221225472⟩ = 2147483647 := by
    decide
  have hs : size_sub 3221225472 (to_size_t (-2147483647)) = 5368709119 := by decide
  have he : ((-2147483647 : Int) == 0) = false := by decide
  have hm : ∀ n : Nat, memcpy buf 0 slab (-2147483647) n = none := by
    intro n
    unfold memcpy
    rw [if_neg]
    intro h
    have := h.2.1
    omega
  simp only [pop_ringbuf, is_empty, he, hu, hs, Bool.false_and, hm]
  rfl

theorem push_closed (rb : ringbuf) (data : List Byte) (rb1 : ringbuf)
    (h : push_ringbuf rb data = .ok rb1) : rb1.srb.closed = rb.srb.closed := by
  unfold push_ringbuf at h
  simp only at h
  split at h
  · cases h
  · split at h
    · cases h
    · split at h
      · split at h
        · cases h
        · cases h; rfl
      · cases h; rfl

theorem pop_closed (rb : ringbuf) (buf : List Byte) (cap : Nat) (rb1 : ringbuf)
    (buf1 : List Byte) (ret : Nat) (h : pop_ringbuf rb buf cap = .ok (rb1, buf1, ret)) :
    rb1.srb.closed = rb.srb.closed := by
  unfold pop_ringbuf at h
  simp only at h
  split at h
  · cases h
  · split at h
    · cases h; rfl
    · split at h
      · cases h
      · split at h
        · split at h
          · cases h
          · cases h; rfl
        · cases h; rfl

theorem step_closed (s s1 : Trace) (op : Op) (hc : s.rb.srb.closed = true)
    (h : step s op = .ok s1) : s1.rb.srb.closed = true := by
  cases op with
  | push data =>
    simp only [step] at h
    split at h
    · rename_i rb1 hp
      cases h
      simp only
      rw [push_closed _ _ _ hp]
      exact hc
    · cases h
    · cases h
  | pop cap =>
    simp only [step] at h
    split at h
    · rename_i rb1 buf1 ret hp
      cases h
      simp only
      rw [pop_closed _ _ _ _ _ _ hp]
      exact hc
    · cases h
    · cases h
  | close =>
    simp only [step] at h
    cases h
    rfl

theorem run_closed (ops : List Op) : ∀ (s s1 : Trace), s.rb.srb.closed = true →
    run s ops = .ok s1 → s1.rb.srb.closed = true := by
  induction ops with
  | nil =>
    intro s s1 hc h
    simp only [run, Res.ok.injEq] at h
    subst h
    exact hc
  | cons op ops ih =>
    intro s s1 hc h
    cases hst : step s op with
    | blocked => simp [run, hst] at h
    | fault => simp [run, hst] at h
    | ok s2 =>
      rw [run_cons s s2 op ops hst] at h
      exact ih s2 s1 (step_closed s s2 op hc hst) h

theorem push_blocked (rb : ringbuf) (data : List Byte)
    (h : ringbuf_bytes_free rb.srb < data.length) : push_ringbuf rb data = .blocked := by
  simp [push_ringbuf, h]

theorem run_nil (s : Trace) : run s [] = .ok s := rfl

theorem nonempty_of_used_pos (rb : ringbuf) (hok : ring_ok rb)
    (h : 0 < ringbuf_bytes_used rb.srb) : is_empty rb.srb = false := by
  by_cases he : is_empty rb.srb = true
  · have := used_zero_of_empty rb hok he
    omega
  · simpa using he

theorem empty_of_used_zero (rb : ringbuf) (hok : ring_ok rb)
    (h : ringbuf_bytes_used rb.srb = 0) : is_empty rb.srb = true := by
  by_cases he : is_empty rb.srb = true
  · exact he
  · have := used_pos_of_nonempty rb hok (by simpa using he)
    omega

/-! ## C1: FIFO order -/

/-- C1, as amended: for every ring state with `0 ≤ head, tail < size` whose
`size` is at most `2 ^ 31` (so that every index fits the `int` fields),
(a) a push of `data` with `len(data) ≤ bytes_free` returns and appends `data`
to the contents; (b) a pop on a non-empty ring with requested length `cap`
returns `n = min(cap, bytes_used)`, puts the first `n` bytes of the contents
in the buffer and leaves the rest as the contents; (c) for every sequence of
calls that do not wait, starting from the initialised ring, no copy leaves
the slab and the bytes popped are a prefix of the bytes pushed. -/
theorem fifo_order :
    (∀ (rb : ringbuf) (data : List Byte), ring_ok rb → rb.srb.size ≤ 2147483648 →
        data.length ≤ ringbuf_bytes_free rb.srb →
        ∃ rb1, push_ringbuf rb data = .ok rb1 ∧ contents rb1 = contents rb ++ data) ∧
    (∀ (rb : ringbuf) (buf : List Byte) (cap : Nat), ring_ok rb →
        rb.srb.size ≤ 2147483648 → is_empty rb.srb = false → cap ≤ buf.length →
        ∃ rb1 buf1, pop_ringbuf rb buf cap =
            .ok (rb1, buf1, min cap (ringbuf_bytes_used rb.srb)) ∧
          buf1.take (min cap (ringbuf_bytes_used rb.srb)) =
            (contents rb).take (min cap (ringbuf_bytes_used rb.srb)) ∧
          contents rb1 = (contents rb).drop (min cap (ringbuf_bytes_used rb.srb))) ∧
    (∀ (n : Nat) (srb : shared_rbuf) (slab : List Byte) (ops : List Op),
        init_shared_ringbuf n = some srb → n ≤ 2147483648 → slab.length = n →
        run ⟨⟨srb, slab⟩, [], []⟩ ops ≠ .fault ∧
        ∀ s, run ⟨⟨srb, slab⟩, [], []⟩ ops = .ok s → s.popped <+: s.pushed) := by
  refine ⟨?_, ?_, ?_⟩
  · intro rb data hok hsz hfree
    obtain ⟨rb1, hp, -, -, -, -, -, -, hc⟩ := push_ok rb data hok hsz hfree
    exact ⟨rb1, hp, hc⟩
  · intro rb buf cap hok hsz hne hb
    obtain ⟨rb1, buf1, hp, -, -, -, -, -, -, -, htake, -, hc⟩ :=
      pop_ok rb buf cap hok hsz hne hb
    exact ⟨rb1, buf1, hp, htake, hc⟩
  · intro n srb slab ops hinit hn hs
    unfold init_shared_ringbuf at hinit
    split at hinit
    · rename_i h1
      cases hinit
      have hok0 := ring_ok_mk false 0 0 n slab (by omega) (by omega) (by omega) (by omega)
        (by omega) hs
      have hq0 : ([] : List Byte) = [] ++ contents ⟨⟨false, 0, 0, n⟩, slab⟩ := by
        have : ringbuf_bytes_used ⟨false, 0, 0, n⟩ = 0 :=
          (used_spec false 0 0 n (by omega) (by omega) (by omega) (by omega)
            (by omega)).1 (Nat.le_refl 0)
        simp [contents, this]
      simp only [Nat.cast_zero] at hok0
      obtain ⟨hnf, hrun⟩ := run_inv ops ⟨⟨⟨false, 0, 0, n⟩, slab⟩, [], []⟩ hok0 hn
      refine ⟨hnf, ?_⟩
      intro s hs1
      obtain ⟨-, -, hq⟩ := hrun s hs1
      exact ⟨contents s.rb, (hq hq0).symm⟩
    · cases hinit

/-- C1 at a concrete input: a one-byte push into a ring of four bytes that
holds two, and two pushes and two pops from the initialised ring. -/
theorem fifo_order_witness :
    (∃ rb1, push_ringbuf ⟨⟨false, 3, 1, 4⟩, [5, 6, 0, 4]⟩ [7] = .ok rb1 ∧
      contents rb1 = contents ⟨⟨false, 3, 1, 4⟩, [5, 6, 0, 4]⟩ ++ [7]) ∧
    (run ⟨⟨⟨false, 0, 0, 4⟩, [0, 0, 0, 0]⟩, [], []⟩
        [.push [1, 2, 3], .pop 2, .push [4, 5], .pop 9] ≠ .fault) := by
  refine ⟨?_, ?_⟩
  · exact fifo_order.1 ⟨⟨false, 3, 1, 4⟩, [5, 6, 0, 4]⟩ [7] (by decide) (by decide) (by decide)
  · exact (fifo_order.2.2 4 ⟨false, 0, 0, 4⟩ [0, 0, 0, 0] _ (by decide) (by decide)
      (by decide)).1

/-- C1 fails for slabs of more than `2 ^ 31` bytes: with
`size = 3 * 2 ^ 30` and `head = tail = 0`, a push of `size - 1` bytes stores
`size - 1` into the `int` field `tail`, which becomes `-(2 ^ 30 + 1)`; the
contents then have `2 ^ 31 - 1` bytes and are not the old contents followed
by the data. -/
theorem fifo_order_counterexample :
    ring_ok ⟨⟨false, 0, 0, 3221225472⟩, zero_slab 3221225472⟩ ∧
    (zero_slab 3221225471).length ≤ ringbuf_bytes_free ⟨false, 0, 0, 3221225472⟩ ∧
    ∃ rb1,
      push_ringbuf ⟨⟨false, 0, 0, 3221225472⟩, zero_slab 3221225472⟩ (zero_slab 3221225471)
        = .ok rb1 ∧
      rb1.srb.tail = -1073741825 ∧
      contents rb1 ≠
        contents ⟨⟨false, 0, 0, 3221225472⟩, zero_slab 3221225472⟩ ++ zero_slab 3221225471 := by
  have hfree : ringbuf_bytes_free ⟨false, 0, 0, 3221225472⟩ = 3221225471 := by decide
  have hok := ring_ok_mk false 0 0 3221225472 (zero_slab 3221225472)
    (by omega) (by omega) (by omega) (by omega) (by omega) (zero_slab_length _)
  obtain ⟨slab1, hp, -, -⟩ := push_ringbuf_eq false 0 0 3221225472
    (zero_slab 3221225472) (zero_slab 3221225471) (by omega) (by omega) (by omega)
    (by omega) (by omega) (zero_slab_length _)
    (by simp only [Nat.cast_zero]; rw [hfree, zero_slab_length])
  rw [zero_slab_length] at hp
  have e : to_int ((0 + 3221225471) % 3221225472) = -1073741825 := by decide
  rw [e] at hp
  simp only [Nat.cast_zero] at hok hp
  refine ⟨hok, by rw [hfree, zero_slab_length], _, hp, rfl, ?_⟩
  intro hcon
  have hlen := congrArg List.length hcon
  rw [List.length_append, contents_length, contents_length, zero_slab_length] at hlen
  have h1 : ringbuf_bytes_used ⟨false, 0, -1073741825, 3221225472⟩ = 2147483647 := by
    decide
  have h2 : ringbuf_bytes_used ⟨false, 0, 0, 3221225472⟩ = 0 := by decide
  simp only [h1, h2] at hlen
  omega

/-! ## C2: the index invariant -/

/-- C2, as amended: `init_shared_ringbuf(slab_size)` with `slab_size > 1`
yields `head = tail = 0`, `closed = false`, `size = slab_size`; and when
`slab_size ≤ 2 ^ 31`, no sequence of calls that do not wait makes a copy
leave the slab, and every state it reaches has `0 ≤ head < size`,
`0 ≤ tail < size`, the same `size`, and
`bytes_used + bytes_free = size - 1` with `bytes_used ≤ size - 1`. -/
theorem index_invariant (n : Nat) (h1 : 1 < n) :
    ∃ srb, init_shared_ringbuf n = some srb ∧
      srb.head = 0 ∧ srb.tail = 0 ∧ srb.closed = false ∧ srb.size = n ∧
      ∀ (slab : List Byte) (ops : List Op), n ≤ 2147483648 → slab.length = n →
        run ⟨⟨srb, slab⟩, [], []⟩ ops ≠ .fault ∧
        ∀ s, run ⟨⟨srb, slab⟩, [], []⟩ ops = .ok s →
          index_inv s.rb.srb ∧ s.rb.srb.size = n ∧
          ringbuf_bytes_used s.rb.srb + ringbuf_bytes_free s.rb.srb = n - 1 ∧
          ringbuf_bytes_used s.rb.srb ≤ n - 1 ∧
          ringbuf_capacity s.rb.srb = n - 1 := by
  refine ⟨⟨false, 0, 0, n⟩, by simp [init_shared_ringbuf, h1], rfl, rfl, rfl, rfl, ?_⟩
  intro slab ops hn hs
  have hok0 := ring_ok_mk false 0 0 n slab (by omega) (by omega) (by omega) (by omega)
    (by omega) hs
  simp only [Nat.cast_zero] at hok0
  obtain ⟨hnf, hrun⟩ := run_inv ops ⟨⟨⟨false, 0, 0, n⟩, slab⟩, [], []⟩ hok0 hn
  refine ⟨hnf, ?_⟩
  intro s hs1
  obtain ⟨hok, hsz, -⟩ := hrun s hs1
  simp only at hsz
  obtain ⟨hu, hf, hcap⟩ := used_free s.rb hok
  rw [hsz] at hu hf hcap
  exact ⟨hok.2.1, hsz, by omega, hu, hcap⟩

/-- C2 at `slab_size = 4`, with a push that wraps around the end of the slab. -/
theorem index_invariant_witness :
    ∃ s, run ⟨⟨⟨false, 0, 0, 4⟩, [0, 0, 0, 0]⟩, [], []⟩
        [.push [1, 2, 3], .pop 2, .push [4, 5]] = .ok s ∧
      index_inv s.rb.srb ∧ s.rb.srb.size = 4 ∧
      ringbuf_bytes_used s.rb.srb + ringbuf_bytes_free s.rb.srb = 4 - 1 := by
  obtain ⟨srb, hi, -, -, -, -, h⟩ := index_invariant 4 (by decide)
  cases hi
  refine ⟨⟨⟨⟨false, 2, 1, 4⟩, [5, 2, 3, 4]⟩, [1, 2, 3, 4, 5], [1, 2]⟩, by decide, ?_⟩
  obtain ⟨h1, h2, h3, -, -⟩ := (h [0, 0, 0, 0] [.push [1, 2, 3], .pop 2, .push [4, 5]]
    (by decide) (by decide)).2 ⟨⟨⟨false, 2, 1, 4⟩, [5, 2, 3, 4]⟩, [1, 2, 3, 4, 5], [1, 2]⟩
    (by decide)
  exact ⟨h1, h2, h3⟩

/-- C2 fails for `slab_size = 2 ^ 31 + 1`: after the initialisation, one push
of `2 ^ 31` bytes (all of them free) leaves `tail = -2 ^ 31`. -/
theorem index_invariant_counterexample :
    init_shared_ringbuf 2147483649 = some ⟨false, 0, 0, 2147483649⟩ ∧
    (zero_slab 2147483648).length ≤ ringbuf_bytes_free ⟨false, 0, 0, 2147483649⟩ ∧
    ∃ s, run ⟨⟨⟨false, 0, 0, 2147483649⟩, zero_slab 2147483649⟩, [], []⟩
        [.push (zero_slab 2147483648)] = .ok s ∧
      s.rb.srb.tail = -2147483648 ∧ ¬ index_inv s.rb.srb := by
  have hfree : ringbuf_bytes_free ⟨false, 0, 0, 2147483649⟩ = 2147483648 := by decide
  obtain ⟨slab1, hp, -, -⟩ := push_ringbuf_eq false 0 0 2147483649
    (zero_slab 2147483649) (zero_slab 2147483648) (by omega) (by omega) (by omega) (by omega)
    (by omega) (zero_slab_length _)
    (by simp only [Nat.cast_zero]; rw [hfree, zero_slab_length])
  rw [zero_slab_length] at hp
  have e : to_int ((0 + 2147483648) % 2147483649) = -2147483648 := by decide
  rw [e] at hp
  simp only [Nat.cast_zero] at hp
  refine ⟨by simp [init_shared_ringbuf], by rw [hfree, zero_slab_length], ?_⟩
  refine ⟨_, run_push _ _ _ hp, rfl, ?_⟩
  simp [index_inv]

/-! ## C3: the length returned by `pop_ringbuf` -/

/-- C3: for every ring state satisfying the index invariant, `pop_ringbuf` on
a non-empty ring with requested length `cap` returns `min(cap, bytes_used)`,
which is at most `cap`; it writes that many bytes, the first bytes of the
contents, at the start of the buffer and leaves the rest of the buffer as it
was; and when `cap ≥ bytes_used` it returns `bytes_used` and leaves the ring
empty. -/
theorem pop_returns_min (rb : ringbuf) (buf : List Byte) (cap : Nat) (hok : ring_ok rb)
    (hne : is_empty rb.srb = false) (hb : cap ≤ buf.length) :
    ∃ rb1 buf1 ret, pop_ringbuf rb buf cap = .ok (rb1, buf1, ret) ∧
      ret = min cap (ringbuf_bytes_used rb.srb) ∧ ret ≤ cap ∧
      buf1.length = buf.length ∧
      buf1.take ret = (contents rb).take ret ∧ buf1.drop ret = buf.drop ret ∧
      (ringbuf_bytes_used rb.srb ≤ cap →
        ret = ringbuf_bytes_used rb.srb ∧ is_empty rb1.srb = true) := by
  obtain ⟨c, h, t, n, slab, rfl, hh, ht, hn, hhn, htn, hs⟩ := ring_ok_cases rb hok
  obtain ⟨rb1, buf1, hp, htl, -, -, -, hl, htake, hdrop, hfull⟩ :=
    pop_any_size c h t n slab buf cap hh ht hn hhn htn hs
      ((is_empty_false_iff c h t n).mp hne) hb
  refine ⟨rb1, buf1, _, hp, rfl, Nat.min_le_left _ _, hl, htake, hdrop, ?_⟩
  intro hcap
  refine ⟨Nat.min_eq_right hcap, ?_⟩
  have := hfull hcap
  simp [is_empty, this, htl]

/-- C3 at a concrete input: a ring of five bytes holding three, popped into a
buffer of two bytes and into a buffer of four. -/
theorem pop_returns_min_witness :
    (∃ rb1 buf1 ret, pop_ringbuf ⟨⟨false, 3, 1, 5⟩, [5, 6, 0, 3, 4]⟩ [9, 9] 2
        = .ok (rb1, buf1, ret) ∧
      ret = min 2 (ringbuf_bytes_used ⟨false, 3, 1, 5⟩) ∧ ret ≤ 2 ∧
      buf1.length = [9, 9].length ∧
      buf1.take ret = (contents ⟨⟨false, 3, 1, 5⟩, [5, 6, 0, 3, 4]⟩).take ret ∧
      buf1.drop ret = ([9, 9] : List Byte).drop ret ∧
      (ringbuf_bytes_used ⟨false, 3, 1, 5⟩ ≤ 2 →
        ret = ringbuf_bytes_used ⟨false, 3, 1, 5⟩ ∧ is_empty rb1.srb = true)) ∧
    pop_ringbuf ⟨⟨false, 3, 1, 5⟩, [5, 6, 0, 3, 4]⟩ [9, 9, 9, 9] 4
      = .ok (⟨⟨false, 1, 1, 5⟩, [5, 6, 0, 3, 4]⟩, [3, 4, 5, 9], 3) :=
  ⟨pop_returns_min ⟨⟨false, 3, 1, 5⟩, [5, 6, 0, 3, 4]⟩ [9, 9] 2 (by decide) (by decide)
    (by decide), by decide⟩

/-! ## C4: when `pop_ringbuf` returns zero -/

/-- C4, as amended: for every ring state satisfying the index invariant and
every requested length `len ≥ 1`, a `pop_ringbuf` that finds the ring
non-empty returns a value greater than zero; and `pop_ringbuf` returns zero
only when the ring is closed and empty. -/
theorem pop_positive (rb : ringbuf) (buf : List Byte) (len : Nat) (hok : ring_ok rb)
    (hlen : 1 ≤ len) (hb : len ≤ buf.length) :
    (is_empty rb.srb = false →
      ∃ rb1 buf1 ret, pop_ringbuf rb buf len = .ok (rb1, buf1, ret) ∧ 0 < ret) ∧
    (∀ rb1 buf1, pop_ringbuf rb buf len = .ok (rb1, buf1, 0) →
      is_empty rb.srb = true ∧ rb.srb.closed = true) := by
  have hpos : is_empty rb.srb = false →
      ∃ rb1 buf1 ret, pop_ringbuf rb buf len = .ok (rb1, buf1, ret) ∧ 0 < ret := by
    intro hne
    have hu := used_pos_of_nonempty rb hok hne
    obtain ⟨c, h, t, n, slab, rfl, hh, ht, hn, hhn, htn, hs⟩ := ring_ok_cases rb hok
    obtain ⟨rb1, buf1, hp, -⟩ :=
      pop_any_size c h t n slab buf len hh ht hn hhn htn hs
        ((is_empty_false_iff c h t n).mp hne) hb
    exact ⟨rb1, buf1, _, hp, by simp only at hu; omega⟩
  refine ⟨hpos, ?_⟩
  intro rb1 buf1 hp
  by_cases he : is_empty rb.srb = true
  · refine ⟨he, ?_⟩
    by_cases hc : rb.srb.closed = true
    · exact hc
    · rw [pop_blocked rb buf len he (by simpa using hc)] at hp
      cases hp
  · obtain ⟨rb2, buf2, ret, hp2, hret⟩ := hpos (by simpa using he)
    rw [hp2] at hp
    simp only [Res.ok.injEq, Prod.mk.injEq] at hp
    omega

/-- C4 at a concrete input: one byte is asked of a ring holding two. -/
theorem pop_positive_witness :
    ∃ rb1 buf1 ret, pop_ringbuf ⟨⟨false, 0, 2, 4⟩, [1, 2, 3, 4]⟩ [9] 1
      = .ok (rb1, buf1, ret) ∧ 0 < ret :=
  (pop_positive ⟨⟨false, 0, 2, 4⟩, [1, 2, 3, 4]⟩ [9] 1 (by decide) (by decide)
    (by decide)).1 (by decide)

/-- C4 fails for a requested length of zero: on a ring that holds two bytes
and is not closed, `pop_ringbuf` with `len = 0` returns 0.  It also fails
outside the index invariant: with `size = 2`, `head = 2`, `tail = 0` the ring
is not empty, `ringbuf_bytes_used` is 0 and `pop_ringbuf` with `len = 1`
returns 0. -/
theorem pop_positive_counterexample :
    (ring_ok ⟨⟨false, 0, 2, 4⟩, [1, 2, 3, 4]⟩ ∧ is_empty ⟨false, 0, 2, 4⟩ = false ∧
      pop_ringbuf ⟨⟨false, 0, 2, 4⟩, [1, 2, 3, 4]⟩ [] 0
        = .ok (⟨⟨false, 0, 2, 4⟩, [1, 2, 3, 4]⟩, [], 0)) ∧
    (is_empty ⟨false, 2, 0, 2⟩ = false ∧
      pop_ringbuf ⟨⟨false, 2, 0, 2⟩, [1, 2]⟩ [9] 1
        = .ok (⟨⟨false, 0, 0, 2⟩, [1, 2]⟩, [9], 0)) := by
  decide

/-! ## C5: how `bytes_used` changes -/

/-- C5, as amended: for every ring state satisfying the index invariant whose
`size` is at most `2 ^ 31`: a push of `n` bytes with `n ≤ bytes_free` returns
with `bytes_used` exactly `n` larger and `head` unchanged; and after a pop
that returns `n`, `bytes_used` is exactly `n` smaller and `tail` is
unchanged. -/
theorem bytes_used_delta (rb : ringbuf) (hok : ring_ok rb)
    (hsz : rb.srb.size ≤ 2147483648) :
    (∀ data : List Byte, data.length ≤ ringbuf_bytes_free rb.srb →
      ∃ rb1, push_ringbuf rb data = .ok rb1 ∧
        ringbuf_bytes_used rb1.srb = ringbuf_bytes_used rb.srb + data.length ∧
        rb1.srb.head = rb.srb.head) ∧
    (∀ (buf : List Byte) (cap : Nat) (rb1 : ringbuf) (buf1 : List Byte) (n : Nat),
      cap ≤ buf.length → pop_ringbuf rb buf cap = .ok (rb1, buf1, n) →
        ringbuf_bytes_used rb1.srb + n = ringbuf_bytes_used rb.srb ∧
        rb1.srb.tail = rb.srb.tail) := by
  refine ⟨?_, ?_⟩
  · intro data hfree
    obtain ⟨rb1, hp, -, hh, -, -, -, hu, -⟩ := push_ok rb data hok hsz hfree
    exact ⟨rb1, hp, hu, hh⟩
  · intro buf cap rb1 buf1 n hb hp
    by_cases he : is_empty rb.srb = true
    · by_cases hc : rb.srb.closed = true
      · rw [pop_closed_empty rb buf cap he hc] at hp
        simp only [Res.ok.injEq, Prod.mk.injEq] at hp
        obtain ⟨rfl, -, rfl⟩ := hp
        exact ⟨rfl, rfl⟩
      · rw [pop_blocked rb buf cap he (by simpa using hc)] at hp
        cases hp
    · obtain ⟨rb2, buf2, hp2, -, ht, -, -, -, hu, -⟩ :=
        pop_ok rb buf cap hok hsz (by simpa using he) hb
      rw [hp2] at hp
      simp only [Res.ok.injEq, Prod.mk.injEq] at hp
      obtain ⟨rfl, -, rfl⟩ := hp
      refine ⟨?_, ht⟩
      rw [hu]
      omega

/-- C5 at a concrete input: two bytes pushed across the end of a slab of four
bytes, and two bytes popped from it. -/
theorem bytes_used_delta_witness :
    (∃ rb1, push_ringbuf ⟨⟨false, 2, 3, 4⟩, [0, 0, 8, 0]⟩ [1, 2] = .ok rb1 ∧
      ringbuf_bytes_used rb1.srb =
        ringbuf_bytes_used ⟨false, 2, 3, 4⟩ + ([1, 2] : List Byte).length ∧
      rb1.srb.head = 2) ∧
    ringbuf_bytes_used ⟨false, 0, 1, 4⟩ + 2 = ringbuf_bytes_used ⟨false, 2, 1, 4⟩ :=
  ⟨(bytes_used_delta ⟨⟨false, 2, 3, 4⟩, [0, 0, 8, 0]⟩ (by decide) (by decide)).1 [1, 2]
      (by decide),
   ((bytes_used_delta ⟨⟨false, 2, 1, 4⟩, [2, 0, 8, 1]⟩ (by decide) (by decide)).2
      [9, 9] 2 ⟨⟨false, 0, 1, 4⟩, [2, 0, 8, 1]⟩ [8, 1] 2 (by decide) (by decide)).1⟩

/-- C5 fails for slabs of more than `2 ^ 31` bytes: with
`size = 3 * 2 ^ 30` and `head = tail = 5` the ring is empty; a push of
`2 ^ 31 + 1` bytes leaves `tail = -(2 ^ 31 - 6)` and `ringbuf_bytes_used`
equal to `2 ^ 30 + 1` instead of `2 ^ 31 + 1`. -/
theorem bytes_used_delta_counterexample :
    ring_ok ⟨⟨false, 5, 5, 3221225472⟩, zero_slab 3221225472⟩ ∧
    ringbuf_bytes_used ⟨false, 5, 5, 3221225472⟩ = 0 ∧
    (zero_slab 2147483649).length ≤ ringbuf_bytes_free ⟨false, 5, 5, 3221225472⟩ ∧
    ∃ rb1,
      push_ringbuf ⟨⟨false, 5, 5, 3221225472⟩, zero_slab 3221225472⟩ (zero_slab 2147483649)
        = .ok rb1 ∧
      rb1.srb.tail = -2147483642 ∧ ringbuf_bytes_used rb1.srb = 1073741825 := by
  have hfree : ringbuf_bytes_free ⟨false, 5, 5, 3221225472⟩ = 3221225471 := by decide
  have hok := ring_ok_mk false 5 5 3221225472 (zero_slab 3221225472)
    (by omega) (by omega) (by omega) (by omega) (by omega) (zero_slab_length _)
  obtain ⟨slab1, hp, -, -⟩ := push_ringbuf_eq false 5 5 3221225472
    (zero_slab 3221225472) (zero_slab 2147483649) (by omega) (by omega) (by omega)
    (by omega) (by omega) (zero_slab_length _)
    (by simp only [Nat.cast_ofNat]; rw [hfree, zero_slab_length]; omega)
  rw [zero_slab_length] at hp
  have e : to_int ((5 + 2147483649) % 3221225472) = -2147483642 := by decide
  rw [e] at hp
  simp only [Nat.cast_ofNat] at hok hp
  refine ⟨hok, by decide, by rw [hfree, zero_slab_length]; omega, _, hp, rfl, ?_⟩
  show ringbuf_bytes_used ⟨false, 5, -2147483642, 3221225472⟩ = 1073741825
  decide

/-! ## C6: close and drain -/

/-- C6, as amended: for every ring state satisfying the index invariant whose
`size` is at most `2 ^ 31`, holding `k = bytes_used` bytes: after
`close_ringbuf`, pops with requested lengths `caps` (each at least 1), as
soon as there are `k` of them, return, deliver exactly the `k` buffered
bytes in order, and after them every `pop_ringbuf` returns 0 and leaves the
ring (head, tail, slab) and the buffer as they were. -/
theorem close_and_drain (rb : ringbuf) (caps : List Nat) (hok : ring_ok rb)
    (hsz : rb.srb.size ≤ 2147483648) (hcaps : ∀ c ∈ caps, 1 ≤ c)
    (hlen : ringbuf_bytes_used rb.srb ≤ caps.length) :
    ∃ s, run ⟨⟨close_ringbuf rb.srb, rb.slab⟩, [], []⟩ (caps.map Op.pop) = .ok s ∧
      s.popped = contents rb ∧ s.popped.length = ringbuf_bytes_used rb.srb ∧
      ∀ (buf : List Byte) (cap : Nat), pop_ringbuf s.rb buf cap = .ok (s.rb, buf, 0) := by
  obtain ⟨s, hr, hpop, he, hcl, -, -⟩ :=
    drain_run caps ⟨⟨close_ringbuf rb.srb, rb.slab⟩, [], []⟩ hok hsz rfl hcaps hlen
  have hc : contents ⟨close_ringbuf rb.srb, rb.slab⟩ = contents rb := rfl
  simp only [List.nil_append, hc] at hpop
  refine ⟨s, hr, hpop, by rw [hpop, contents_length], ?_⟩
  intro buf cap
  exact pop_closed_empty s.rb buf cap he hcl

/-- C6 at a concrete input: three bytes around the end of a slab of four
bytes, drained with requested lengths 2, 1 and 5. -/
theorem close_and_drain_witness :
    ∃ s, run ⟨⟨close_ringbuf ⟨false, 3, 2, 4⟩, [5, 6, 0, 4]⟩, [], []⟩
        ([2, 1, 5].map Op.pop) = .ok s ∧
      s.popped = contents ⟨⟨false, 3, 2, 4⟩, [5, 6, 0, 4]⟩ ∧
      s.popped.length = ringbuf_bytes_used ⟨false, 3, 2, 4⟩ ∧
      ∀ (buf : List Byte) (cap : Nat), pop_ringbuf s.rb buf cap = .ok (s.rb, buf, 0) :=
  close_and_drain ⟨⟨false, 3, 2, 4⟩, [5, 6, 0, 4]⟩ [2, 1, 5] (by decide) (by decide)
    (by intro c hc; simp at hc; omega) (by decide)

/-- C6 fails for slabs of more than `2 ^ 31` bytes: with
`size = 3 * 2 ^ 30`, `head = 2 ^ 31 - 1` and `tail = 0` the ring holds
`2 ^ 30 + 1` bytes; after `close_ringbuf` the first pop of two bytes leaves
`head = -(2 ^ 31 - 1)`, and the second pop copies from the slab at that
negative index, so the buffered bytes are not delivered. -/
theorem close_and_drain_counterexample :
    ring_ok ⟨⟨false, 2147483647, 0, 3221225472⟩, zero_slab 3221225472⟩ ∧
    ringbuf_bytes_used ⟨false, 2147483647, 0, 3221225472⟩ = 1073741825 ∧
    (∃ buf1, pop_ringbuf
        ⟨close_ringbuf ⟨false, 2147483647, 0, 3221225472⟩, zero_slab 3221225472⟩
        (List.replicate 2 0) 2
      = .ok (⟨⟨true, -2147483647, 0, 3221225472⟩, zero_slab 3221225472⟩, buf1, 2)) ∧
    run ⟨⟨close_ringbuf ⟨false, 2147483647, 0, 3221225472⟩, zero_slab 3221225472⟩, [], []⟩
      ([2, 2].map Op.pop) = .fault := by
  have hok := ring_ok_mk false 2147483647 0 3221225472 (zero_slab 3221225472)
    (by omega) (by omega) (by omega) (by omega) (by omega) (zero_slab_length _)
  simp only [Nat.cast_ofNat, Nat.cast_zero] at hok
  obtain ⟨buf1, hp, -, -⟩ := pop_ringbuf_eq true 2147483647 0 3221225472
    (zero_slab 3221225472) (List.replicate 2 0) 2 (by omega) (by omega) (by omega)
    (by omega) (by omega) (zero_slab_length _) (by omega) (by simp)
  have hu : ringbuf_bytes_used ⟨true, ((2147483647 : Nat) : Int), ((0 : Nat) : Int),
      3221225472⟩ = 1073741825 := by decide
  rw [hu] at hp
  have e : to_int ((2147483647 + min 2 1073741825) % 3221225472) = -2147483647 := by decide
  rw [e] at hp
  have hm : min 2 1073741825 = 2 := by decide
  rw [hm] at hp
  simp only [Nat.cast_ofNat, Nat.cast_zero] at hp
  have hcl : close_ringbuf ⟨false, 2147483647, 0, 3221225472⟩
      = ⟨true, 2147483647, 0, 3221225472⟩ := rfl
  refine ⟨hok, by decide, ⟨buf1, by rw [hcl]; exact hp⟩, ?_⟩
  rw [hcl, List.map_cons, List.map_cons, List.map_nil,
    run_cons ⟨⟨⟨true, 2147483647, 0, 3221225472⟩, zero_slab 3221225472⟩, [], []⟩ _ _ _
      (step_pop _ 2 _ _ _ hp)]
  exact run_fault _ _ _ (step_pop_fault _ 2 (pop_negative_head _ _))

/-! ## C7: the closed flag is monotone -/

/-- C7: `init_shared_ringbuf` sets `closed = false`; for every ring state
with `closed = true`, the state after any `push_ringbuf`, `pop_ringbuf` or
`close_ringbuf` still has `closed = true`; so in every run, once `closed` is
true it is true in all later states. -/
theorem closed_monotone :
    (∀ (n : Nat) (srb : shared_rbuf), init_shared_ringbuf n = some srb →
      srb.closed = false) ∧
    (∀ rb : ringbuf, rb.srb.closed = true →
      (∀ (data : List Byte) (rb1 : ringbuf), push_ringbuf rb data = .ok rb1 →
        rb1.srb.closed = true) ∧
      (∀ (buf : List Byte) (cap : Nat) (rb1 : ringbuf) (buf1 : List Byte) (ret : Nat),
        pop_ringbuf rb buf cap = .ok (rb1, buf1, ret) → rb1.srb.closed = true) ∧
      (close_ringbuf rb.srb).closed = true) ∧
    (∀ (s s1 : Trace) (ops : List Op), s.rb.srb.closed = true → run s ops = .ok s1 →
      s1.rb.srb.closed = true) := by
  refine ⟨?_, ?_, ?_⟩
  · intro n srb h
    unfold init_shared_ringbuf at h
    split at h
    · cases h; rfl
    · cases h
  · intro rb hc
    refine ⟨?_, ?_, rfl⟩
    · intro data rb1 h
      rw [push_closed rb data rb1 h]
      exact hc
    · intro buf cap rb1 buf1 ret h
      rw [pop_closed rb buf cap rb1 buf1 ret h]
      exact hc
  · intro s s1 ops hc h
    exact run_closed ops s s1 hc h

/-- C7 at a concrete input: a push, a pop and a second close on a closed ring. -/
theorem closed_monotone_witness :
    (∀ s1, run ⟨⟨⟨true, 1, 2, 4⟩, [0, 7, 0, 0]⟩, [], []⟩ [.push [1], .pop 3, .close] = .ok s1 →
      s1.rb.srb.closed = true) ∧
    run ⟨⟨⟨true, 1, 2, 4⟩, [0, 7, 0, 0]⟩, [], []⟩ [.push [1], .pop 3, .close]
      = .ok ⟨⟨⟨true, 3, 3, 4⟩, [0, 7, 1, 0]⟩, [1], [7, 1]⟩ :=
  ⟨fun s1 h => closed_monotone.2.2 ⟨⟨⟨true, 1, 2, 4⟩, [0, 7, 0, 0]⟩, [], []⟩ s1
    [.push [1], .pop 3, .close] rfl h, by decide⟩

/-! ## C8: `close_ringbuf` changes only the closed flag -/

/-- C8: for every ring state `s`, `close_ringbuf(s)` has `closed = true` and
the same `head`, `tail` and `size` as `s`; closing an already-closed ring
returns a state equal to its input, so close is idempotent; and the call
never waits: as a step it always returns, with the slab unchanged. -/
theorem close_only_sets_closed (s : shared_rbuf) :
    (close_ringbuf s).closed = true ∧ (close_ringbuf s).head = s.head ∧
    (close_ringbuf s).tail = s.tail ∧ (close_ringbuf s).size = s.size ∧
    (s.closed = true → close_ringbuf s = s) ∧
    close_ringbuf (close_ringbuf s) = close_ringbuf s ∧
    ∀ (slab pushed popped : List Byte),
      step ⟨⟨s, slab⟩, pushed, popped⟩ .close = .ok ⟨⟨close_ringbuf s, slab⟩, pushed, popped⟩ := by
  refine ⟨rfl, rfl, rfl, rfl, ?_, rfl, ?_⟩
  · intro hc
    obtain ⟨c, h, t, n⟩ := s
    simp only at hc
    subst hc
    rfl
  · intro slab pushed popped
    rfl

/-- C8 at a concrete input: closing a closed ring. -/
theorem close_only_sets_closed_witness :
    close_ringbuf ⟨true, 1, 3, 4⟩ = ⟨true, 1, 3, 4⟩ :=
  (close_only_sets_closed ⟨true, 1, 3, 4⟩).2.2.2.2.1 rfl

/-! ## C9: an oversized push never proceeds -/

/-- C9, as amended: for every ring state satisfying the index invariant whose
`size` is at most `2 ^ 31`, and every `len > size - 1`, the wait predicate
`ringbuf_bytes_free < len` of `push_ringbuf` is true, so the call waits
without reaching the copy; and the predicate is still true in every state
reached by any sequence of calls that return, in particular `pop_ringbuf`
and `close_ringbuf` by the peer. -/
theorem oversized_push_blocks (rb : ringbuf) (data : List Byte) (hok : ring_ok rb)
    (hsz : rb.srb.size ≤ 2147483648) (hlen : rb.srb.size - 1 < data.length) :
    ringbuf_bytes_free rb.srb < data.length ∧ push_ringbuf rb data = .blocked ∧
    ∀ (ops : List Op) (pushed popped : List Byte) (s : Trace),
      run ⟨rb, pushed, popped⟩ ops = .ok s →
        ringbuf_bytes_free s.rb.srb < data.length ∧ push_ringbuf s.rb data = .blocked := by
  have key : ∀ r : ringbuf, ring_ok r → r.srb.size = rb.srb.size →
      ringbuf_bytes_free r.srb < data.length ∧ push_ringbuf r data = .blocked := by
    intro r hr hs
    obtain ⟨-, hf, -⟩ := used_free r hr
    have : ringbuf_bytes_free r.srb < data.length := by omega
    exact ⟨this, push_blocked r data this⟩
  refine ⟨(key rb hok rfl).1, (key rb hok rfl).2, ?_⟩
  intro ops pushed popped s hrun
  obtain ⟨hok1, hs1, -⟩ := (run_inv ops ⟨rb, pushed, popped⟩ hok hsz).2 s hrun
  exact key s.rb hok1 hs1

/-- C9 at a concrete input: four bytes offered to a ring of capacity three,
before and after the peer pops and closes. -/
theorem oversized_push_blocks_witness :
    ringbuf_bytes_free ⟨false, 1, 3, 4⟩ < ([1, 2, 3, 4] : List Byte).length ∧
    push_ringbuf ⟨⟨false, 1, 3, 4⟩, [0, 5, 6, 0]⟩ [1, 2, 3, 4] = .blocked ∧
    ∀ (ops : List Op) (pushed popped : List Byte) (s : Trace),
      run ⟨⟨⟨false, 1, 3, 4⟩, [0, 5, 6, 0]⟩, pushed, popped⟩ ops = .ok s →
        ringbuf_bytes_free s.rb.srb < ([1, 2, 3, 4] : List Byte).length ∧
        push_ringbuf s.rb [1, 2, 3, 4] = .blocked :=
  oversized_push_blocks ⟨⟨false, 1, 3, 4⟩, [0, 5, 6, 0]⟩ [1, 2, 3, 4] (by decide) (by decide)
    (by decide)

/-- C9 fails for slabs of more than `2 ^ 31` bytes: with `size = 2 ^ 31 + 2`,
`head = 2 ^ 31 - 1` and `tail = 2 ^ 31 - 2` the ring is full and a push of
`len = size` bytes waits; after the peer pops one byte `head` is `-2 ^ 31`,
`ringbuf_bytes_free` is `2 ^ 31 + 3` and the wait predicate is false. -/
theorem oversized_push_blocks_counterexample :
    ring_ok ⟨⟨false, 2147483647, 2147483646, 2147483650⟩, zero_slab 2147483650⟩ ∧
    2147483650 - 1 < (zero_slab 2147483650).length ∧
    ringbuf_bytes_free ⟨false, 2147483647, 2147483646, 2147483650⟩
      < (zero_slab 2147483650).length ∧
    ∃ s, run ⟨⟨⟨false, 2147483647, 2147483646, 2147483650⟩, zero_slab 2147483650⟩, [], []⟩
        [.pop 1] = .ok s ∧
      s.rb.srb.head = -2147483648 ∧
      ¬ ringbuf_bytes_free s.rb.srb < (zero_slab 2147483650).length := by
  have hok := ring_ok_mk false 2147483647 2147483646 2147483650 (zero_slab 2147483650)
    (by omega) (by omega) (by omega) (by omega) (by omega) (zero_slab_length _)
  simp only [Nat.cast_ofNat] at hok
  have hfree : ringbuf_bytes_free ⟨false, 2147483647, 2147483646, 2147483650⟩ = 0 := by
    decide
  refine ⟨hok, by rw [zero_slab_length]; omega, by rw [zero_slab_length, hfree]; omega, ?_⟩
  obtain ⟨buf1, hp, -, -⟩ := pop_ringbuf_eq false 2147483647 2147483646 2147483650
    (zero_slab 2147483650) (List.replicate 1 0) 1 (by omega) (by omega) (by omega)
    (by omega) (by omega) (zero_slab_length _) (by omega) (by simp)
  have hu : ringbuf_bytes_used ⟨false, ((2147483647 : Nat) : Int), ((2147483646 : Nat) : Int),
      2147483650⟩ = 2147483649 := by decide
  rw [hu] at hp
  have e : to_int ((2147483647 + min 1 2147483649) % 2147483650) = -2147483648 := by decide
  rw [e] at hp
  simp only [Nat.cast_ofNat] at hp
  refine ⟨⟨⟨⟨false, -2147483648, 2147483646, 2147483650⟩, zero_slab 2147483650⟩, [],
    [] ++ buf1.take (min 1 2147483649)⟩, ?_, ?_, ?_⟩
  · rw [run_cons ⟨⟨⟨false, 2147483647, 2147483646, 2147483650⟩, zero_slab 2147483650⟩, [], []⟩
      _ _ _ (step_pop _ 1 _ _ _ hp)]
    exact run_nil _
  · rfl
  · rw [zero_slab_length]
    show ¬ ringbuf_bytes_free ⟨false, -2147483648, 2147483646, 2147483650⟩ < 2147483650
    decide

/-! ## C10: a push of exactly the capacity -/

/-- C10, as amended: for every `size` with `2 ≤ size ≤ 2 ^ 31` and every
empty ring state (`head = tail = k`, `0 ≤ k < size`), `ringbuf_bytes_free` is
`size - 1`, so a push of `size - 1` bytes does not wait; afterwards
`ringbuf_bytes_free = 0` and `(tail + 1) mod size = head`.  With `size = 2`
the capacity is 1, and a one-byte push followed by a one-byte pop returns
that byte and leaves the ring empty. -/
theorem full_capacity_push :
    (∀ (n k : Nat) (c : Bool) (slab data : List Byte), 2 ≤ n → n ≤ 2147483648 → k < n →
      slab.length = n → data.length = n - 1 →
      ringbuf_bytes_free ⟨c, k, k, n⟩ = n - 1 ∧
      ∃ rb1, push_ringbuf ⟨⟨c, k, k, n⟩, slab⟩ data = .ok rb1 ∧
        ringbuf_bytes_free rb1.srb = 0 ∧
        (rb1.srb.tail + 1) % (rb1.srb.size : Int) = rb1.srb.head) ∧
    (∀ (k : Nat) (c : Bool) (slab buf : List Byte) (b : Byte), k < 2 → slab.length = 2 →
      1 ≤ buf.length →
      ringbuf_capacity ⟨c, k, k, 2⟩ = 1 ∧
      ∃ rb1 rb2 buf1, push_ringbuf ⟨⟨c, k, k, 2⟩, slab⟩ [b] = .ok rb1 ∧
        pop_ringbuf rb1 buf 1 = .ok (rb2, buf1, 1) ∧ buf1[0]? = some b ∧
        is_empty rb2.srb = true) := by
  have hempty : ∀ (n k : Nat) (c : Bool), k < n → n ≤ 2147483648 →
      ringbuf_bytes_used ⟨c, k, k, n⟩ = 0 ∧ ringbuf_bytes_free ⟨c, k, k, n⟩ = n - 1 := by
    intro n k c hk hn
    obtain ⟨hu, -, hf⟩ := used_spec c k k n (by omega) (by omega) (by omega) hk hk
    have := hu (Nat.le_refl k)
    exact ⟨by omega, by omega⟩
  refine ⟨?_, ?_⟩
  · intro n k c slab data hn2 hn hk hs hd
    obtain ⟨hu0, hf0⟩ := hempty n k c hk hn
    refine ⟨hf0, ?_⟩
    obtain ⟨rb1, hp, hok1, hh1, ht1, hs1, -, hu1, -⟩ :=
      push_queue c k k n slab data hn hk hk hs (by omega)
    refine ⟨rb1, hp, ?_, ?_⟩
    · obtain ⟨-, hf, -⟩ := used_free rb1 hok1
      omega
    · rw [ht1, hh1, hs1]
      have hw := mod_wrap (k + data.length) n (by omega)
      have : ((k + data.length) % n + 1) % n = k := by
        by_cases hk0 : k = 0
        · rw [hw, if_pos (by omega)]
          have : k + data.length + 1 = n := by omega
          rw [this, Nat.mod_self, hk0]
        · rw [hw, if_neg (by omega)]
          have : k + data.length - n + 1 = k := by omega
          rw [this, Nat.mod_eq_of_lt hk]
      exact_mod_cast this
  · intro k c slab buf b hk hs hb
    obtain ⟨hu0, hf0⟩ := hempty 2 k c hk (by omega)
    refine ⟨capacity_eq ⟨c, k, k, 2⟩ (by simp only; omega) (by simp only; omega), ?_⟩
    obtain ⟨rb1, hp, hok1, -, -, hs1, -, hu1, hc1⟩ :=
      push_queue c k k 2 slab [b] (by omega) hk hk hs (by rw [hf0]; simp)
    have hc0 : contents ⟨⟨c, k, k, 2⟩, slab⟩ = [] :=
      List.eq_nil_of_length_eq_zero (by rw [contents_length]; exact hu0)
    rw [hc0, List.nil_append] at hc1
    rw [hu0] at hu1
    simp only [List.length_singleton, Nat.zero_add] at hu1
    obtain ⟨rb2, buf1, hp2, hok2, -, -, -, -, hu2, -, htake, -, -⟩ :=
      pop_ok rb1 buf 1 hok1 (by omega) (nonempty_of_used_pos rb1 hok1 (by omega)) hb
    rw [hu1] at hp2 hu2 htake
    simp only [Nat.min_self] at hp2 hu2 htake
    refine ⟨rb1, rb2, buf1, hp, hp2, ?_, empty_of_used_zero rb2 hok2 (by omega)⟩
    have h0 := congrArg (fun l => l[0]?) htake
    simp only [hc1, List.getElem?_take] at h0
    simpa using h0

/-- C10 at a concrete input: three bytes pushed into the empty ring of four
bytes with `head = tail = 2`. -/
theorem full_capacity_push_witness :
    ringbuf_bytes_free ⟨false, ((2 : Nat) : Int), ((2 : Nat) : Int), 4⟩ = 4 - 1 ∧
    ∃ rb1, push_ringbuf ⟨⟨false, ((2 : Nat) : Int), ((2 : Nat) : Int), 4⟩, [0, 0, 0, 0]⟩
        [1, 2, 3] = .ok rb1 ∧
      ringbuf_bytes_free rb1.srb = 0 ∧
      (rb1.srb.tail + 1) % (rb1.srb.size : Int) = rb1.srb.head :=
  full_capacity_push.1 4 2 false [0, 0, 0, 0] [1, 2, 3] (by decide) (by decide) (by decide)
    (by decide) (by decide)

/-- C10 fails for slabs of more than `2 ^ 31` bytes: with `size = 2 ^ 31 + 2`
and `head = tail = 0`, a push of `size - 1` bytes does not wait and leaves
`tail = -(2 ^ 31 - 1)`, for which `(tail + 1) mod size` is 4 and not `head`. -/
theorem full_capacity_push_counterexample :
    ringbuf_bytes_free ⟨false, 0, 0, 2147483650⟩ = 2147483650 - 1 ∧
    (zero_slab 2147483649).length = 2147483650 - 1 ∧
    ∃ rb1, push_ringbuf ⟨⟨false, 0, 0, 2147483650⟩, zero_slab 2147483650⟩
        (zero_slab 2147483649) = .ok rb1 ∧
      rb1.srb.tail = -2147483647 ∧
      (rb1.srb.tail + 1) % (rb1.srb.size : Int) ≠ rb1.srb.head := by
  have hfree : ringbuf_bytes_free ⟨false, 0, 0, 2147483650⟩ = 2147483649 := by decide
  obtain ⟨slab1, hp, -, -⟩ := push_ringbuf_eq false 0 0 2147483650
    (zero_slab 2147483650) (zero_slab 2147483649) (by omega) (by omega) (by omega) (by omega)
    (by omega) (zero_slab_length _)
    (by simp only [Nat.cast_zero]; rw [hfree, zero_slab_length])
  rw [zero_slab_length] at hp
  have e : to_int ((0 + 2147483649) % 2147483650) = -2147483647 := by decide
  rw [e] at hp
  simp only [Nat.cast_zero] at hp
  refine ⟨by rw [hfree], by rw [zero_slab_length], _, hp, rfl, ?_⟩
  show ((-2147483647 : Int) + 1) % ((2147483650 : Nat) : Int) ≠ 0
  decide

/-! ## C11: the wraparound round trip -/

theorem pop_frame (rb : ringbuf) (buf : List Byte) (cap : Nat) (rb1 : ringbuf)
    (buf1 : List Byte) (ret : Nat) (h : pop_ringbuf rb buf cap = .ok (rb1, buf1, ret)) :
    rb1.srb.tail = rb.srb.tail ∧ rb1.srb.size = rb.srb.size ∧ rb1.slab = rb.slab ∧
    ret ≤ ringbuf_bytes_used rb.srb ∧ ret ≤ cap := by
  unfold pop_ringbuf at h
  simp only at h
  split at h
  · cases h
  · split at h
    · cases h
      exact ⟨rfl, rfl, rfl, Nat.zero_le _, Nat.zero_le _⟩
    · split at h
      · cases h
      · split at h
        · split at h
          · cases h
          · cases h
            exact ⟨rfl, rfl, rfl, Nat.min_le_right _ _, Nat.min_le_left _ _⟩
        · cases h
          exact ⟨rfl, rfl, rfl, Nat.min_le_right _ _, Nat.min_le_left _ _⟩

/-- C11, as amended: for every `size ≤ 2 ^ 31`, every start index `k` with
`0 ≤ k < size` and every byte string `data` with
`1 ≤ len(data) ≤ size - 1` (also when `k + len(data) > size`): from the
empty ring with `head = tail = k`, `push_ringbuf(data)` returns, and the
following `pop_ringbuf` with requested length `cap ≥ len(data)` returns
`len(data)`, puts exactly `data` at the start of the buffer and leaves the
ring empty with `head = tail = (k + len(data)) mod size`. -/
theorem wraparound_round_trip (n k : Nat) (c : Bool) (slab data buf : List Byte) (cap : Nat)
    (hn : n ≤ 2147483648) (hk : k < n) (hs : slab.length = n) (hd1 : 1 ≤ data.length)
    (hd : data.length ≤ n - 1) (hcap : data.length ≤ cap) (hb : cap ≤ buf.length) :
    ∃ rb1 rb2 buf1, push_ringbuf ⟨⟨c, k, k, n⟩, slab⟩ data = .ok rb1 ∧
      pop_ringbuf rb1 buf cap = .ok (rb2, buf1, data.length) ∧
      buf1.take data.length = data ∧ buf1.drop data.length = buf.drop data.length ∧
      rb2.srb.head = (((k + data.length) % n : Nat) : Int) ∧
      rb2.srb.tail = (((k + data.length) % n : Nat) : Int) ∧
      is_empty rb2.srb = true := by
  obtain ⟨hu, -, hf⟩ := used_spec c k k n (by omega) (by omega) (by omega) hk hk
  have hu0 : ringbuf_bytes_used ⟨c, k, k, n⟩ = 0 := by
    have := hu (Nat.le_refl k)
    omega
  obtain ⟨rb1, hp, hok1, -, ht1, hs1, -, hu1, hc1⟩ :=
    push_queue c k k n slab data hn hk hk hs (by omega)
  have hc0 : contents ⟨⟨c, k, k, n⟩, slab⟩ = [] :=
    List.eq_nil_of_length_eq_zero (by rw [contents_length]; exact hu0)
  rw [hc0, List.nil_append] at hc1
  rw [hu0, Nat.zero_add] at hu1
  obtain ⟨rb2, buf1, hp2, hok2, ht2, -, -, -, hu2, -, htake, hdrop, -⟩ :=
    pop_ok rb1 buf cap hok1 (by omega) (nonempty_of_used_pos rb1 hok1 (by omega)) hb
  rw [hu1, Nat.min_eq_right hcap] at hp2 hu2 htake hdrop
  have he : is_empty rb2.srb = true := empty_of_used_zero rb2 hok2 (by omega)
  have hht : rb2.srb.head = rb2.srb.tail := by simpa [is_empty] using he
  refine ⟨rb1, rb2, buf1, hp, hp2, ?_, hdrop, ?_, ?_, he⟩
  · rw [htake, hc1, List.take_length]
  · rw [hht, ht2, ht1]
  · rw [ht2, ht1]

/-- C11 at a concrete input: three bytes pushed at index 2 of a slab of four
bytes, which straddle its end, and popped into a buffer of five bytes. -/
theorem wraparound_round_trip_witness :
    ∃ rb1 rb2 buf1,
      push_ringbuf ⟨⟨false, ((2 : Nat) : Int), ((2 : Nat) : Int), 4⟩, [0, 0, 0, 0]⟩ [1, 2, 3]
        = .ok rb1 ∧
      pop_ringbuf rb1 [9, 9, 9, 9, 9] 5 = .ok (rb2, buf1, ([1, 2, 3] : List Byte).length) ∧
      buf1.take ([1, 2, 3] : List Byte).length = [1, 2, 3] ∧
      buf1.drop ([1, 2, 3] : List Byte).length
        = ([9, 9, 9, 9, 9] : List Byte).drop ([1, 2, 3] : List Byte).length ∧
      rb2.srb.head = (((2 + ([1, 2, 3] : List Byte).length) % 4 : Nat) : Int) ∧
      rb2.srb.tail = (((2 + ([1, 2, 3] : List Byte).length) % 4 : Nat) : Int) ∧
      is_empty rb2.srb = true :=
  wraparound_round_trip 4 2 false [0, 0, 0, 0] [1, 2, 3] [9, 9, 9, 9, 9] 5 (by decide)
    (by decide) (by decide) (by decide) (by decide) (by decide) (by decide)

/-- C11 fails for the empty byte string: after a push of no byte into an
empty ring that is not closed, `pop_ringbuf` waits instead of returning.  It
also fails for slabs of more than `2 ^ 31` bytes: with `size = 3 * 2 ^ 30`
and `head = tail = 0`, the push of `size - 1` bytes leaves
`tail = -(2 ^ 30 + 1)`, and every pop that returns then returns fewer than
`size - 1` bytes and leaves that `tail`. -/
theorem wraparound_round_trip_counterexample :
    (push_ringbuf ⟨⟨false, 1, 1, 4⟩, [0, 0, 0, 0]⟩ [] = .ok ⟨⟨false, 1, 1, 4⟩, [0, 0, 0, 0]⟩ ∧
      pop_ringbuf ⟨⟨false, 1, 1, 4⟩, [0, 0, 0, 0]⟩ [9] 1 = .blocked) ∧
    ((zero_slab 3221225471).length ≤ 3221225472 - 1 ∧
      ∃ rb1,
        push_ringbuf ⟨⟨false, 0, 0, 3221225472⟩, zero_slab 3221225472⟩ (zero_slab 3221225471)
          = .ok rb1 ∧
        rb1.srb.tail = -1073741825 ∧
        ∀ (buf : List Byte) (cap : Nat) (rb2 : ringbuf) (buf2 : List Byte) (ret : Nat),
          pop_ringbuf rb1 buf cap = .ok (rb2, buf2, ret) →
            ret < (zero_slab 3221225471).length ∧ rb2.srb.tail = -1073741825) := by
  refine ⟨by decide, by rw [zero_slab_length], ?_⟩
  have hfree : ringbuf_bytes_free ⟨false, 0, 0, 3221225472⟩ = 3221225471 := by decide
  obtain ⟨slab1, hp, -, -⟩ := push_ringbuf_eq false 0 0 3221225472
    (zero_slab 3221225472) (zero_slab 3221225471) (by omega) (by omega) (by omega)
    (by omega) (by omega) (zero_slab_length _)
    (by simp only [Nat.cast_zero]; rw [hfree, zero_slab_length])
  rw [zero_slab_length] at hp
  have e : to_int ((0 + 3221225471) % 3221225472) = -1073741825 := by decide
  rw [e] at hp
  simp only [Nat.cast_zero] at hp
  refine ⟨_, hp, rfl, ?_⟩
  intro buf cap rb2 buf2 ret hpop
  obtain ⟨ht, -, -, hret, -⟩ := pop_frame _ buf cap rb2 buf2 ret hpop
  have hu : ringbuf_bytes_used ⟨false, 0, -1073741825, 3221225472⟩ = 2147483647 := by
    decide
  simp only [hu] at hret
  rw [zero_slab_length]
  exact ⟨by omega, ht⟩

/-! ## Alignment and the layout of the page -/

theorem size_mul_eq (a b : Nat) (h : a * b < 18446744073709551616) : size_mul a b = a * b := by
  unfold size_mul
  exact Nat.mod_eq_of_lt h

theorem next_aligned_ptr_eq (p a : Nat) (ha : 1 ≤ a)
    (hov : p + a - 1 < 18446744073709551616) :
    next_aligned_ptr p a = (p + a - 1) / a * a := by
  unfold next_aligned_ptr
  have hsub : size_sub (size_add p a) 1 = p + a - 1 := by
    unfold size_sub size_add
    omega
  rw [hsub]
  apply size_mul_eq
  have := Nat.div_mul_le_self (p + a - 1) a
  omega

theorem align_up_spec (p a : Nat) (ha : 1 ≤ a) :
    (p + a - 1) / a * a % a = 0 ∧ p ≤ (p + a - 1) / a * a ∧ (p + a - 1) / a * a < p + a ∧
    (∀ m, m % a = 0 → p ≤ m → (p + a - 1) / a * a ≤ m) ∧
    (p % a = 0 → (p + a - 1) / a * a = p) := by
  have h1 := Nat.div_mul_le_self (p + a - 1) a
  have h2 := Nat.lt_div_mul_add (a := p + a - 1) (b := a) (by omega)
  have hmin : ∀ m, m % a = 0 → p ≤ m → (p + a - 1) / a * a ≤ m := by
    intro m hm hpm
    obtain ⟨q, rfl⟩ := Nat.dvd_of_mod_eq_zero hm
    rw [Nat.mul_comm a q]
    apply Nat.mul_le_mul_right
    apply (Nat.div_le_iff_le_mul_add_pred (by omega)).mpr
    rw [Nat.mul_comm a q] at hpm
    rw [Nat.mul_comm a q]
    omega
  refine ⟨Nat.mul_mod_left _ _, by omega, by omega, hmin, ?_⟩
  intro hp
  have := hmin p hp (Nat.le_refl p)
  omega

theorem sizing_exact (P Z A : Nat) (hM : 4 + 2 * (Z + A) + 4 < P)
    (hP : P < 18446744073709551616) :
    metadata_size Z A = 4 + 2 * (Z + A) ∧
    ringbuffer_slab_size P (metadata_size Z A) = some ((P - (4 + 2 * (Z + A))) / 2) ∧
    2 ≤ (P - (4 + 2 * (Z + A))) / 2 := by
  have hm : metadata_size Z A = 4 + 2 * (Z + A) := by
    unfold metadata_size SIZEOF_MAGIC
    rw [size_add_eq Z A (by omega), size_mul_eq 2 (Z + A) (by omega),
      size_add_eq 4 _ (by omega)]
  have hmin : min_slab_size = 4 := by decide
  refine ⟨hm, ?_, by omega⟩
  unfold ringbuffer_slab_size
  rw [hm, hmin, size_add_eq _ 4 (by omega), if_neg (by omega),
    size_sub_eq P _ (by omega) hP]

theorem layout_exact (base P Z A : Nat) (hA : 1 ≤ A) (hM : 4 + 2 * (Z + A) + 4 < P)
    (hP : base + P < 18446744073709551616) :
    (layout base ((P - (4 + 2 * (Z + A))) / 2) Z A).magic_ptr = base ∧
    (layout base ((P - (4 + 2 * (Z + A))) / 2) Z A).shared_ringbuffer_1
      = (base + 4 + A - 1) / A * A ∧
    (layout base ((P - (4 + 2 * (Z + A))) / 2) Z A).slab_1
      = (base + 4 + A - 1) / A * A + Z ∧
    (layout base ((P - (4 + 2 * (Z + A))) / 2) Z A).shared_ringbuffer_2
      = ((base + 4 + A - 1) / A * A + Z + (P - (4 + 2 * (Z + A))) / 2 + A - 1) / A * A ∧
    (layout base ((P - (4 + 2 * (Z + A))) / 2) Z A).slab_2
      = ((base + 4 + A - 1) / A * A + Z + (P - (4 + 2 * (Z + A))) / 2 + A - 1) / A * A + Z ∧
    ((base + 4 + A - 1) / A * A + Z + (P - (4 + 2 * (Z + A))) / 2 + A - 1) / A * A + Z
      + (P - (4 + 2 * (Z + A))) / 2 ≤ base + P - 2 := by
  generalize hS : (P - (4 + 2 * (Z + A))) / 2 = S
  have hS2 : 2 * S ≤ P - (4 + 2 * (Z + A)) := by
    rw [← hS]; exact Nat.mul_div_le _ _
  obtain ⟨-, h1a, h1b, -, -⟩ := align_up_spec (base + 4) A hA
  generalize hr1 : (base + 4 + A - 1) / A * A = r1 at h1a h1b ⊢
  obtain ⟨-, h2a, h2b, -, -⟩ := align_up_spec (r1 + Z + S) A hA
  generalize hr2 : (r1 + Z + S + A - 1) / A * A = r2 at h2a h2b ⊢
  have e1 : next_aligned_ptr (size_add base SIZEOF_MAGIC) A = r1 := by
    unfold SIZEOF_MAGIC
    rw [size_add_eq base 4 (by omega), next_aligned_ptr_eq _ _ hA (by omega), hr1]
  have e2 : next_aligned_ptr (size_add (size_add r1 Z) S) A = r2 := by
    rw [size_add_eq r1 Z (by omega), size_add_eq _ S (by omega),
      next_aligned_ptr_eq _ _ hA (by omega), hr2]
  refine ⟨rfl, ?_, ?_, ?_, ?_, by omega⟩
  · simp only [layout, e1]
  · simp only [layout, e1]
    exact size_add_eq r1 Z (by omega)
  · simp only [layout, e1, e2]
  · simp only [layout, e1, e2]
    exact size_add_eq r2 Z (by omega)

theorem align_shift (b x A : Nat) (hA : 1 ≤ A) (hb : A ∣ b) :
    (b + x + A - 1) / A * A = b + (x + A - 1) / A * A := by
  obtain ⟨q, rfl⟩ := hb
  have e : A * q + x + A - 1 = A * q + (x + A - 1) := by omega
  rw [e, Nat.mul_add_div (by omega), Nat.add_mul, Nat.mul_comm q A]

/-! ## C19: `next_aligned_ptr` -/

/-- C19: for every address `p` and every alignment `a ≥ 1` with `p + a - 1`
not overflowing the pointer width, `next_aligned_ptr(p, a)` is the least
multiple of `a` that is `≥ p`: it is a multiple of `a`, lies in `[p, p + a)`,
is below every other such multiple, and is `p` itself when `p` is a multiple
of `a`; so a second application (under the same condition) changes nothing,
and both ring control blocks of `main` are placed at multiples of the
alignment. -/
theorem next_aligned_ptr_least (p a : Nat) (ha : 1 ≤ a)
    (hov : p + a - 1 < 18446744073709551616) :
    next_aligned_ptr p a % a = 0 ∧ p ≤ next_aligned_ptr p a ∧
    next_aligned_ptr p a < p + a ∧
    (∀ m, m % a = 0 → p ≤ m → next_aligned_ptr p a ≤ m) ∧
    (p % a = 0 → next_aligned_ptr p a = p) ∧
    (next_aligned_ptr p a + a - 1 < 18446744073709551616 →
      next_aligned_ptr (next_aligned_ptr p a) a = next_aligned_ptr p a) ∧
    (∀ base P Z : Nat, 4 + 2 * (Z + a) + 4 < P → base + P < 18446744073709551616 →
      (layout base ((P - (4 + 2 * (Z + a))) / 2) Z a).shared_ringbuffer_1 % a = 0 ∧
      (layout base ((P - (4 + 2 * (Z + a))) / 2) Z a).shared_ringbuffer_2 % a = 0) := by
  obtain ⟨h1, h2, h3, h4, h5⟩ := align_up_spec p a ha
  rw [← next_aligned_ptr_eq p a ha hov] at h1 h2 h3 h4 h5
  refine ⟨h1, h2, h3, h4, h5, ?_, ?_⟩
  · intro hov2
    obtain ⟨-, -, -, -, h6⟩ := align_up_spec (next_aligned_ptr p a) a ha
    rw [next_aligned_ptr_eq _ a ha hov2]
    exact h6 h1
  · intro base P Z hM hP
    obtain ⟨-, e1, -, e2, -, -⟩ := layout_exact base P Z a ha hM hP
    rw [e1, e2]
    exact ⟨Nat.mul_mod_left _ _, Nat.mul_mod_left _ _⟩

/-- C19 at a concrete input: address 13 and alignment 8. -/
theorem next_aligned_ptr_least_witness :
    next_aligned_ptr 13 8 = 16 ∧ next_aligned_ptr 13 8 % 8 = 0 ∧ 13 ≤ next_aligned_ptr 13 8 ∧
    next_aligned_ptr 13 8 < 13 + 8 :=
  ⟨by decide, (next_aligned_ptr_least 13 8 (by decide) (by decide)).1,
    (next_aligned_ptr_least 13 8 (by decide) (by decide)).2.1,
    (next_aligned_ptr_least 13 8 (by decide) (by decide)).2.2.1⟩

/-! ## C13: the layout fits in the page -/

/-- C13: for every mapping of `P` bytes at `base` that lies in the address
space, every control-block size `Z` and alignment `A ≥ 1` whose metadata size
`M = 4 + 2 * (Z + A)` passes the sizing check (`M + 4 < P`): `main` derives
`S = (P - M) / 2`, and the ready word at `base`, the ring-1 control block at
the next multiple of `A` after it, slab 1, the ring-2 control block at the
next multiple of `A` after slab 1, and slab 2 follow each other without
overlap, with `slab_2 + S ≤ base + P`: the assertion of `main` holds. -/
theorem layout_fits (base P Z A : Nat) (hA : 1 ≤ A) (hM : 4 + 2 * (Z + A) + 4 < P)
    (hP : base + P < 18446744073709551616) :
    ∃ S, ringbuffer_slab_size P (metadata_size Z A) = some S ∧
      S = (P - (4 + 2 * (Z + A))) / 2 ∧
      (layout base S Z A).magic_ptr = base ∧
      base + 4 ≤ (layout base S Z A).shared_ringbuffer_1 ∧
      (layout base S Z A).shared_ringbuffer_1 < base + 4 + A ∧
      (layout base S Z A).shared_ringbuffer_1 % A = 0 ∧
      (layout base S Z A).shared_ringbuffer_1 + Z ≤ (layout base S Z A).slab_1 ∧
      (layout base S Z A).slab_1 + S ≤ (layout base S Z A).shared_ringbuffer_2 ∧
      (layout base S Z A).shared_ringbuffer_2 < (layout base S Z A).slab_1 + S + A ∧
      (layout base S Z A).shared_ringbuffer_2 % A = 0 ∧
      (layout base S Z A).shared_ringbuffer_2 + Z ≤ (layout base S Z A).slab_2 ∧
      (layout base S Z A).slab_2 + S ≤ base + P ∧
      layout_assert (layout base S Z A) base P S = true := by
  obtain ⟨-, hs, -⟩ := sizing_exact P Z A hM (by omega)
  obtain ⟨e0, e1, e2, e3, e4, hend⟩ := layout_exact base P Z A hA hM hP
  refine ⟨_, hs, rfl, e0, ?_⟩
  generalize (P - (4 + 2 * (Z + A))) / 2 = S at *
  obtain ⟨a1, a2, a3, -, -⟩ := align_up_spec (base + 4) A hA
  generalize hl : layout base S Z A = l at *
  obtain ⟨m, r1, s1, r2, s2⟩ := l
  simp only at e0 e1 e2 e3 e4 ⊢
  rw [← e1] at a1 a2 a3 e2 e3 e4 hend
  rw [← e2] at e3 e4 hend
  obtain ⟨b1, b2, b3, -, -⟩ := align_up_spec (s1 + S) A hA
  rw [← e3] at b1 b2 b3 e4 hend
  rw [← e4] at hend
  refine ⟨a2, a3, a1, by omega, b2, b3, b1, by omega, by omega, ?_⟩
  unfold layout_assert
  simp only
  rw [size_add_eq s2 S (by omega), size_add_eq base P hP]
  simp only [decide_eq_true_eq]
  omega

/-- C13 at a concrete input: a page of 4096 bytes at `0x7f0000000000`, control
blocks of 160 bytes aligned to 8. -/
theorem layout_fits_witness :
    ∃ S, ringbuffer_slab_size 4096 (metadata_size 160 8) = some S ∧
      S = (4096 - (4 + 2 * (160 + 8))) / 2 ∧
      (layout 139637976727552 S 160 8).slab_2 + S ≤ 139637976727552 + 4096 ∧
      layout_assert (layout 139637976727552 S 160 8) 139637976727552 4096 S = true := by
  obtain ⟨S, h1, h2, -, -, -, -, -, -, -, -, -, h3, h4⟩ :=
    layout_fits 139637976727552 4096 160 8 (by decide) (by decide) (by decide)
  exact ⟨S, h1, h2, h3, h4⟩

/-! ## C14: both peers agree on the rings -/

theorem layout_offsets (base P Z A : Nat) (hM : 4 + 2 * (Z + A) + 4 < P) (hA : A ∣ P)
    (hb : P ∣ base) (hP : base + P < 18446744073709551616) :
    (layout base ((P - (4 + 2 * (Z + A))) / 2) Z A).shared_ringbuffer_1
      = base + (4 + A - 1) / A * A ∧
    (layout base ((P - (4 + 2 * (Z + A))) / 2) Z A).slab_1
      = base + ((4 + A - 1) / A * A + Z) ∧
    (layout base ((P - (4 + 2 * (Z + A))) / 2) Z A).shared_ringbuffer_2
      = base + ((4 + A - 1) / A * A + Z + (P - (4 + 2 * (Z + A))) / 2 + A - 1) / A * A ∧
    (layout base ((P - (4 + 2 * (Z + A))) / 2) Z A).slab_2
      = base + (((4 + A - 1) / A * A + Z + (P - (4 + 2 * (Z + A))) / 2 + A - 1) / A * A
          + Z) := by
  have hA1 : 1 ≤ A := by
    rcases Nat.eq_zero_or_pos A with h0 | h0
    · subst h0
      have := Nat.eq_zero_of_zero_dvd hA
      omega
    · exact h0
  have hAb : A ∣ base := Nat.dvd_trans hA hb
  obtain ⟨-, e1, e2, e3, e4, -⟩ := layout_exact base P Z A hA1 hM hP
  have s1 := align_shift base 4 A hA1 hAb
  have s2 := align_shift base ((4 + A - 1) / A * A + Z + (P - (4 + 2 * (Z + A))) / 2) A hA1 hAb
  rw [e1, e2, e3, e4, s1]
  have e : base + (4 + A - 1) / A * A + Z + (P - (4 + 2 * (Z + A))) / 2
      = base + ((4 + A - 1) / A * A + Z + (P - (4 + 2 * (Z + A))) / 2) := by omega
  rw [e, s2]
  exact ⟨rfl, by omega, rfl, by omega⟩

/-- C14: for every page size `P` that passes the sizing check, every
control-block alignment `A` dividing `P`, and every two mappings in the
address space whose bases are multiples of `P`: the offsets from the base of
the ring-1 control block, slab 1, the ring-2 control block and slab 2
computed by `main` are the same in both processes; the creator's `push_rb`
and the opener's `pop_rb` are ring 1, the creator's `pop_rb` and the
opener's `push_rb` are ring 2, and the two rings are different. -/
theorem peers_agree (P Z A base1 base2 : Nat) (hM : 4 + 2 * (Z + A) + 4 < P) (hA : A ∣ P)
    (hb1 : P ∣ base1) (hb2 : P ∣ base2) (hP1 : base1 + P < 18446744073709551616)
    (hP2 : base2 + P < 18446744073709551616) :
    ∃ S l1 l2, ringbuffer_slab_size P (metadata_size Z A) = some S ∧
      l1 = layout base1 S Z A ∧ l2 = layout base2 S Z A ∧
      l1.shared_ringbuffer_1 - base1 = l2.shared_ringbuffer_1 - base2 ∧
      l1.slab_1 - base1 = l2.slab_1 - base2 ∧
      l1.shared_ringbuffer_2 - base1 = l2.shared_ringbuffer_2 - base2 ∧
      l1.slab_2 - base1 = l2.slab_2 - base2 ∧
      base1 ≤ l1.shared_ringbuffer_1 ∧ base2 ≤ l2.shared_ringbuffer_1 ∧
      (bind true l1).1 = ⟨l1.shared_ringbuffer_1, l1.slab_1⟩ ∧
      (bind false l2).2 = ⟨l2.shared_ringbuffer_1, l2.slab_1⟩ ∧
      (bind true l1).2 = ⟨l1.shared_ringbuffer_2, l1.slab_2⟩ ∧
      (bind false l2).1 = ⟨l2.shared_ringbuffer_2, l2.slab_2⟩ ∧
      l1.shared_ringbuffer_1 ≠ l1.shared_ringbuffer_2 ∧
      l2.shared_ringbuffer_1 ≠ l2.shared_ringbuffer_2 := by
  obtain ⟨-, hs, hS2⟩ := sizing_exact P Z A hM (by omega)
  obtain ⟨a1, a2, a3, a4⟩ := layout_offsets base1 P Z A hM hA hb1 hP1
  obtain ⟨b1, b2, b3, b4⟩ := layout_offsets base2 P Z A hM hA hb2 hP2
  have hA1 : 1 ≤ A := by
    rcases Nat.eq_zero_or_pos A with h0 | h0
    · subst h0
      have := Nat.eq_zero_of_zero_dvd hA
      omega
    · exact h0
  obtain ⟨-, c2, -, -, -⟩ := align_up_spec
    ((4 + A - 1) / A * A + Z + (P - (4 + 2 * (Z + A))) / 2) A hA1
  refine ⟨_, _, _, hs, rfl, rfl, ?_, ?_, ?_, ?_, ?_, ?_, rfl, rfl, rfl, rfl, ?_, ?_⟩
  · rw [a1, b1]; omega
  · rw [a2, b2]; omega
  · rw [a3, b3]; omega
  · rw [a4, b4]; omega
  · rw [a1]; omega
  · rw [b1]; omega
  · rw [a1, a3]; omega
  · rw [b1, b3]; omega

/-- C14 at a concrete input: pages of 4096 bytes at `0x7f0000000000` and at
`0x7f0000042000`, control blocks of 160 bytes aligned to 8. -/
theorem peers_agree_witness :
    ∃ S l1 l2, ringbuffer_slab_size 4096 (metadata_size 160 8) = some S ∧
      l1 = layout 139637976727552 S 160 8 ∧ l2 = layout 139637976997888 S 160 8 ∧
      l1.shared_ringbuffer_1 - 139637976727552 = l2.shared_ringbuffer_1 - 139637976997888 ∧
      l1.slab_2 - 139637976727552 = l2.slab_2 - 139637976997888 ∧
      (bind true l1).1 = ⟨l1.shared_ringbuffer_1, l1.slab_1⟩ ∧
      (bind false l2).2 = ⟨l2.shared_ringbuffer_1, l2.slab_1⟩ := by
  obtain ⟨S, l1, l2, h1, h2, h3, h4, -, -, h5, -, -, h6, h7, -⟩ :=
    peers_agree 4096 160 8 139637976727552 139637976997888 (by decide) (by decide)
      (by decide) (by decide) (by decide) (by decide)
  exact ⟨S, l1, l2, h1, h2, h3, h4, h5, h6, h7⟩

/-! ## C12: the sizing check -/

theorem cleanup_events (env : Env) (g : Globals) (e : Event) (h : e ∈ cleanup env g) :
    e = .munmap ∨ e = .close ∨ e = .shm_unlink := by
  unfold cleanup at h
  simp only at h
  split at h
  · split at h <;> simp at h
    exact Or.inl h
  · split at h
    · have : e ∈ (if g.shm.isSome then [Event.munmap] else [])
          ∨ e ∈ (if g.shm_fd ≠ -1 then [Event.close] else []) := List.mem_append.mp h
      rcases this with h1 | h1
      · split at h1 <;> simp at h1
        exact Or.inl h1
      · split at h1 <;> simp at h1
        exact Or.inr (Or.inl h1)
    · split at h
      · rcases List.mem_append.mp h with h1 | h1
        · rcases List.mem_append.mp h1 with h2 | h2
          · split at h2 <;> simp at h2
            exact Or.inl h2
          · split at h2 <;> simp at h2
            exact Or.inr (Or.inl h2)
        · simp at h1
          exact Or.inr (Or.inr h1)
      · rcases List.mem_append.mp h with h2 | h2
        · split at h2 <;> simp at h2
          exact Or.inl h2
        · split at h2 <;> simp at h2
          exact Or.inr (Or.inl h2)

theorem main_sized_none (env : Env) (ev : List Event) (g : Globals)
    (h : ringbuffer_slab_size env.page_size (metadata_size env.Z env.A) = none) :
    main_sized env ev g = ⟨ev, { g with shm_size := env.page_size }, .returned (-1)⟩ := by
  simp only [main_sized, h]

theorem main_too_small (env : Env)
    (h : ringbuffer_slab_size env.page_size (metadata_size env.Z env.A) = none) :
    Event.mmap ∉ (main env).events ∧ (main env).stop ≠ .returned 0 ∧
    (env.usage_ok = true → env.excl.errno ≠ EINVAL →
      (if env.excl.errno = EEXIST then env.reopen.ret else env.excl.ret) ≠ -1 →
      (main env).stop = .returned (-1)) := by
  unfold main
  simp only [main_sized_none env _ _ h]
  by_cases hu : env.usage_ok = false
  · simp [hu]
  · by_cases h1 : env.excl.errno = EINVAL
    · simp [hu, h1]
    · by_cases h2 : env.excl.errno = EEXIST
      · have hne : ¬ EEXIST = EINVAL := by decide
        simp only [hu, h1, h2, hne, if_true, if_false]
        by_cases h3 : env.reopen.ret = -1
        · by_cases h4 : assert_perror env.reopen.errno = true
          · simp [succeeds, h3, h4]
          · simp [succeeds, h3, h4, EXIT_FAILURE]
        · simp [succeeds, h3]
      · simp only [hu, h1, h2, if_false]
        by_cases h3 : env.excl.ret = -1
        · by_cases h4 : assert_perror env.excl.errno = true
          · simp [succeeds, h3, h4]
          · simp [succeeds, h3, h4, EXIT_FAILURE]
        · simp [succeeds, h3]

theorem process_no_mmap (env : Env) (h : Event.mmap ∉ (main env).events) :
    Event.mmap ∉ process env := by
  intro hm
  unfold process at hm
  split at hm
  · rcases List.mem_append.mp hm with h1 | h1
    · exact h h1
    · rcases cleanup_events env _ _ h1 with h2 | h2 | h2 <;> cases h2
  · rcases List.mem_append.mp hm with h1 | h1
    · exact h h1
    · rcases cleanup_events env _ _ h1 with h2 | h2 | h2 <;> cases h2
  · exact h hm
  · exact h hm

/-- C12: for every page size `P` and metadata size `M` whose sum `M + 4` in
the check is a `size_t` value, as it is for the `M = 4 + 2 * (sizeof + alignof)`
of `main` with any `struct shared_rbuf` of less than `2 ^ 62` bytes: whenever
`S = (P - M) / 2` would be `< 2` or `M ≥ P` the sizing check of `main` fails,
and then `main` never calls `mmap`, does not return 0, and returns `-1` if it
reached the check; whenever the check lets `main` through, `M ≤ P`,
`S = (P - M) / 2 ≥ 2` and `init_shared_ringbuf(S)` meets its precondition. -/
theorem sizing_check (P M : Nat) (hP : P < 18446744073709551616)
    (hM : M + 4 < 18446744073709551616) :
    ((P - M) / 2 < 2 ∨ P ≤ M → ringbuffer_slab_size P M = none) ∧
    (∀ S, ringbuffer_slab_size P M = some S →
      M ≤ P ∧ S = (P - M) / 2 ∧ 2 ≤ S ∧ ∃ srb, init_shared_ringbuf S = some srb) ∧
    (∀ env : Env, env.page_size = P → metadata_size env.Z env.A = M →
      ringbuffer_slab_size P M = none →
      Event.mmap ∉ process env ∧ (main env).stop ≠ .returned 0 ∧
      (env.usage_ok = true → env.excl.errno ≠ EINVAL →
        (if env.excl.errno = EEXIST then env.reopen.ret else env.excl.ret) ≠ -1 →
        (main env).stop = .returned (-1))) ∧
    (∀ Z A : Nat, Z + A < 4611686018427387904 →
      metadata_size Z A = 4 + 2 * (Z + A) ∧
      metadata_size Z A + 4 < 18446744073709551616) := by
  have hmin : min_slab_size = 4 := by decide
  refine ⟨?_, ?_, ?_, ?_⟩
  · intro h
    unfold ringbuffer_slab_size
    rw [hmin, size_add_eq M 4 hM, if_pos]
    omega
  · intro S h
    unfold ringbuffer_slab_size at h
    rw [hmin, size_add_eq M 4 hM] at h
    split at h
    · cases h
    · rename_i hlt
      rw [size_sub_eq P M (by omega) hP] at h
      cases h
      have h2 : 2 ≤ (P - M) / 2 := by omega
      refine ⟨by omega, rfl, h2, ?_⟩
      unfold init_shared_ringbuf
      rw [if_pos (by omega)]
      exact ⟨_, rfl⟩
  · intro env hp hm hnone
    have h : ringbuffer_slab_size env.page_size (metadata_size env.Z env.A) = none := by
      rw [hp, hm]; exact hnone
    obtain ⟨h1, h2, h3⟩ := main_too_small env h
    exact ⟨process_no_mmap env h1, h2, h3⟩
  · intro Z A hZ
    unfold metadata_size size_add size_mul SIZEOF_MAGIC
    omega

/-- C12 at a concrete input: a page of 4096 bytes with 340 bytes of metadata,
and a page of 343 bytes with the same metadata. -/
theorem sizing_check_witness :
    metadata_size 160 8 = 340 ∧
    ringbuffer_slab_size 4096 340 = some 1878 ∧ ringbuffer_slab_size 343 340 = none :=
  ⟨by decide, by decide, (sizing_check 343 340 (by decide) (by decide)).1 (Or.inl (by decide))⟩

/-! ## C17: the ready wait -/

theorem iter_returns_iff (w : Wait) :
    block_on_magic_iter w = .returns ↔
      (w.futex.ret = 0 ∨ (w.futex.ret = -1 ∧ w.futex.errno = EAGAIN)) ∧ w.word = MAGIC_VAL := by
  unfold block_on_magic_iter
  constructor
  · intro h
    split at h
    · rename_i hc
      split at h
      · rename_i hw
        exact ⟨hc, hw⟩
      · cases h
    · split at h <;> cases h
  · rintro ⟨hc, hw⟩
    rw [if_pos hc, if_pos hw]

theorem iter_continues_load (w : Wait) (h : block_on_magic_iter w = .continues) :
    ∀ e ∈ block_on_magic_events w,
      e = .futex_wait ∨ ∃ v, e = .load v ∧ v ≠ MAGIC_VAL := by
  intro e he
  unfold block_on_magic_events at he
  unfold block_on_magic_iter at h
  split at he
  · rename_i hc
    rw [if_pos hc] at h
    split at h
    · cases h
    · rename_i hw
      simp only [List.mem_cons, List.mem_singleton, List.not_mem_nil, or_false] at he
      rcases he with he | he
      · exact Or.inl he
      · exact Or.inr ⟨w.word, he, hw⟩
  · simp only [List.mem_singleton] at he
    exact Or.inl he

theorem block_on_magic_returns (ws : List Wait) (h : (block_on_magic ws).2 = none) :
    ∃ evs, (block_on_magic ws).1 = evs ++ [.load MAGIC_VAL] ∧
      (∀ e ∈ evs, e = .futex_wait ∨ ∃ v, e = .load v ∧ v ≠ MAGIC_VAL) ∧
      ∃ w ∈ ws, block_on_magic_iter w = .returns := by
  induction ws with
  | nil => simp [block_on_magic] at h
  | cons w ws ih =>
    unfold block_on_magic at h ⊢
    cases hi : block_on_magic_iter w with
    | returns =>
      obtain ⟨hc, hw⟩ := (iter_returns_iff w).mp hi
      refine ⟨[.futex_wait], ?_, ?_, w, List.mem_cons_self _ _, hi⟩
      · simp only [block_on_magic_events, if_pos hc, hw]
        rfl
      · intro e he
        simp only [List.mem_singleton] at he
        exact Or.inl he
    | stops s =>
      rw [hi] at h
      simp at h
    | continues =>
      rw [hi] at h
      simp only at h ⊢
      obtain ⟨evs, he, hall, w1, hw1, hr⟩ := ih h
      refine ⟨block_on_magic_events w ++ evs, ?_, ?_, w1, List.mem_cons_of_mem _ hw1, hr⟩
      · rw [he, List.append_assoc]
      · intro e hmem
        rcases List.mem_append.mp hmem with h1 | h1
        · exact iter_continues_load w hi e h1
        · exact hall e h1

/-- C17: over every sequence of answers of `FUTEX_WAIT` and of values of the
ready word, `block_on_magic` returns only in an iteration that loads
`MAGIC_VAL = 0x12345678`, and every load before it read another value; on
every wake or spurious return of `FUTEX_WAIT` (it answers 0, or -1 with
`errno = EAGAIN` because the word is no longer 0) the iteration loads the word
and returns if it is `MAGIC_VAL` and continues the loop otherwise.  An error
answer, -1 with another `errno`, takes the `else` branch and ends the
process. -/
theorem ready_wait :
    MAGIC_VAL = 305419896 ∧
    (∀ ws : List Wait, (block_on_magic ws).2 = none →
      ∃ evs, (block_on_magic ws).1 = evs ++ [.load MAGIC_VAL] ∧
        (∀ e ∈ evs, e = .futex_wait ∨ ∃ v, e = .load v ∧ v ≠ MAGIC_VAL) ∧
        ∃ w ∈ ws, block_on_magic_iter w = .returns ∧ w.word = MAGIC_VAL) ∧
    (∀ w : Wait, w.futex.ret = 0 ∨ (w.futex.ret = -1 ∧ w.futex.errno = EAGAIN) →
      Event.load w.word ∈ block_on_magic_events w ∧
      (w.word = MAGIC_VAL → block_on_magic_iter w = .returns) ∧
      (w.word ≠ MAGIC_VAL → block_on_magic_iter w = .continues)) ∧
    (∀ w : Wait, w.futex.ret = -1 → w.futex.errno ≠ EAGAIN →
      ∃ s, block_on_magic_iter w = .stops s ∧ (s = .aborted ∨ s = .exited EXIT_FAILURE)) := by
  refine ⟨by decide, ?_, ?_, ?_⟩
  · intro ws h
    obtain ⟨evs, h1, h2, w, hw, hr⟩ := block_on_magic_returns ws h
    exact ⟨evs, h1, h2, w, hw, hr, ((iter_returns_iff w).mp hr).2⟩
  · intro w hc
    refine ⟨?_, ?_, ?_⟩
    · simp [block_on_magic_events, hc]
    · intro hw
      exact (iter_returns_iff w).mpr ⟨hc, hw⟩
    · intro hw
      unfold block_on_magic_iter
      rw [if_pos hc, if_neg hw]
  · intro w hr he
    have hc : ¬ (w.futex.ret = 0 ∨ (w.futex.ret = -1 ∧ w.futex.errno = EAGAIN)) := by
      intro h
      rcases h with h | h
      · omega
      · exact he h.2
    unfold block_on_magic_iter
    rw [if_neg hc]
    unfold succeeds
    rw [if_pos hr]
    by_cases ha : assert_perror w.futex.errno = true
    · rw [if_pos ha]
      exact ⟨_, rfl, Or.inl rfl⟩
    · rw [if_neg ha]
      exact ⟨_, rfl, Or.inr rfl⟩

/-- C17 at a concrete input: a spurious wake while the word is 0, then an
immediate return (`EAGAIN`) with the word equal to `MAGIC_VAL`. -/
theorem ready_wait_witness :
    block_on_magic [⟨⟨0, 0⟩, 0⟩, ⟨⟨-1, 11⟩, 305419896⟩]
      = ([.futex_wait, .load 0, .futex_wait, .load 305419896], none) ∧
    ∃ evs, (block_on_magic [⟨⟨0, 0⟩, 0⟩, ⟨⟨-1, 11⟩, 305419896⟩]).1
        = evs ++ [.load MAGIC_VAL] ∧
      (∀ e ∈ evs, e = .futex_wait ∨ ∃ v, e = .load v ∧ v ≠ MAGIC_VAL) ∧
      ∃ w ∈ [(⟨⟨0, 0⟩, 0⟩ : Wait), ⟨⟨-1, 11⟩, 305419896⟩],
        block_on_magic_iter w = .returns ∧ w.word = MAGIC_VAL :=
  ⟨by decide, ready_wait.2.1 [⟨⟨0, 0⟩, 0⟩, ⟨⟨-1, 11⟩, 305419896⟩] (by decide)⟩

/-! ## C15: who unlinks the name -/

/-- C15 at its failing input: the exclusive-create `shm_open` returns -1 with
`errno = EINVAL`; `main` returns -1 with `shm_name` set and
`shm_creator_process` still `true`, and `cleanup` calls `shm_unlink`. -/
theorem failed_create_unlinks :
    invalid_name_env.excl = ⟨-1, EINVAL⟩ ∧
    (main invalid_name_env).stop = .returned (-1) ∧
    (main invalid_name_env).globals.shm_name = true ∧
    (main invalid_name_env).globals.shm_creator_process = true ∧
    process invalid_name_env = [.shm_open_excl, .shm_unlink] := by
  decide

/-! ## C16: initialisation before use -/

theorem main_mapped_cases (env : Env) (ev : List Event) (g : Globals) (shm S : Nat) :
    ∃ t, (main_mapped env ev g shm S).events = ev ++ t ∧
      ring_tail g.shm_creator_process env.waits t := by
  unfold main_mapped
  simp only
  split
  · exact ⟨[], by simp, Or.inl rfl⟩
  · split
    · rename_i hc
      split
      · exact ⟨[], by simp, Or.inl rfl⟩
      · split
        · exact ⟨_, rfl, Or.inr (Or.inl ⟨hc, _, _, _, Or.inl rfl⟩)⟩
        · refine ⟨[.init_ring (layout shm S env.Z env.A).shared_ringbuffer_1 S,
              .init_ring (layout shm S env.Z env.A).shared_ringbuffer_2 S, .write_magic,
              .spawn_push (bind true (layout shm S env.Z env.A)).1,
              .spawn_pop (bind true (layout shm S env.Z env.A)).2], ?_,
            Or.inr (Or.inl ⟨hc, _, _, _, Or.inr ⟨_, _, rfl⟩⟩)⟩
          simp
    · rename_i hc
      have hc2 : g.shm_creator_process = false := by simpa using hc
      split
      · exact ⟨_, rfl, Or.inr (Or.inr ⟨hc2, Or.inl rfl⟩)⟩
      · rename_i hn
        refine ⟨(block_on_magic env.waits).1
            ++ [.spawn_push (bind false (layout shm S env.Z env.A)).1,
              .spawn_pop (bind false (layout shm S env.Z env.A)).2], ?_,
          Or.inr (Or.inr ⟨hc2, Or.inr ⟨hn, _, _, rfl⟩⟩)⟩
        simp

theorem main_sized_cases (env : Env) (ev : List Event) (g : Globals) :
    ∃ s t, (main_sized env ev g).events = ev ++ s ++ t ∧ (∀ e ∈ s, is_plain e = true) ∧
      ring_tail g.shm_creator_process env.waits t := by
  unfold main_sized
  simp only
  split
  · exact ⟨[], [], by simp, by simp, Or.inl rfl⟩
  · split
    · exact ⟨[.ftruncate], [], by simp, by simp [is_plain], Or.inl rfl⟩
    · split
      · split
        · exact ⟨[.ftruncate, .mmap], [], by simp, by simp [is_plain], Or.inl rfl⟩
        · exact ⟨[.ftruncate, .mmap], [], by simp, by simp [is_plain], Or.inl rfl⟩
      · rename_i shm _
        obtain ⟨t, ht, hr⟩ := main_mapped_cases env (ev ++ [.ftruncate, .mmap])
          { shm_name := g.shm_name, shm_creator_process := g.shm_creator_process,
            shm_fd := g.shm_fd, shm := some shm, shm_size := env.page_size } shm _
        exact ⟨[.ftruncate, .mmap], t, ht, by simp [is_plain], hr⟩

theorem main_cases (env : Env) :
    ∃ s t, (main env).events = s ++ t ∧ (∀ e ∈ s, is_plain e = true) ∧
      ring_tail (decide (env.excl.errno ≠ EEXIST)) env.waits t := by
  unfold main
  simp only
  split
  · exact ⟨[], [], by simp, by simp, Or.inl rfl⟩
  · split
    · exact ⟨[.shm_open_excl], [], by simp, by simp [is_plain], Or.inl rfl⟩
    · split
      · rename_i he
        split
        · exact ⟨[.shm_open_excl, .shm_open_existing], [], by simp, by simp [is_plain],
            Or.inl rfl⟩
        · obtain ⟨s, t, h1, h2, h3⟩ := main_sized_cases env [.shm_open_excl, .shm_open_existing]
            { shm_name := true, shm_creator_process := false, shm_fd := env.reopen.ret,
              shm := none, shm_size := 0 }
          refine ⟨[.shm_open_excl, .shm_open_existing] ++ s, t, h1, ?_, ?_⟩
          · intro e he2
            rcases List.mem_append.mp he2 with h | h
            · simp at h
              rcases h with h | h <;> subst h <;> rfl
            · exact h2 e h
          · simpa [he] using h3
      · rename_i he
        split
        · exact ⟨[.shm_open_excl], [], by simp, by simp [is_plain], Or.inl rfl⟩
        · obtain ⟨s, t, h1, h2, h3⟩ := main_sized_cases env [.shm_open_excl]
            { shm_name := true, shm_creator_process := true, shm_fd := env.excl.ret,
              shm := none, shm_size := 0 }
          refine ⟨[.shm_open_excl] ++ s, t, h1, ?_, ?_⟩
          · intro e he2
            rcases List.mem_append.mp he2 with h | h
            · simp at h
              subst h
              rfl
            · exact h2 e h
          · simpa [he] using h3

theorem cleanup_plain (env : Env) (g : Globals) : ∀ e ∈ cleanup env g, is_plain e = true := by
  intro e he
  rcases cleanup_events env g e he with h | h | h <;> subst h <;> rfl

theorem process_cases (env : Env) :
    ∃ s t c, process env = s ++ t ++ c ∧ (∀ e ∈ s, is_plain e = true) ∧
      (∀ e ∈ c, is_plain e = true) ∧
      ring_tail (decide (env.excl.errno ≠ EEXIST)) env.waits t := by
  obtain ⟨s, t, h1, h2, h3⟩ := main_cases env
  unfold process
  split
  · exact ⟨s, t, _, by rw [h1], h2, cleanup_plain env _, h3⟩
  · exact ⟨s, t, _, by rw [h1], h2, cleanup_plain env _, h3⟩
  · exact ⟨s, t, [], by rw [h1]; simp, h2, by simp, h3⟩
  · exact ⟨s, t, [], by rw [h1]; simp, h2, by simp, h3⟩

theorem ibw_skip (a b : List Event) (n : Nat)
    (ha : ∀ e ∈ a, (∀ r S, e ≠ .init_ring r S) ∧ e ≠ .write_magic) :
    inits_before_write (a ++ b) n = inits_before_write b n := by
  induction a with
  | nil => rfl
  | cons e a ih =>
    have he := ha e (List.mem_cons_self _ _)
    have ih2 := ih (fun x hx => ha x (List.mem_cons_of_mem _ hx))
    cases e <;> simp_all [inits_before_write]

theorem ibw_nil_like (a : List Event) (n : Nat)
    (ha : ∀ e ∈ a, (∀ r S, e ≠ .init_ring r S) ∧ e ≠ .write_magic) :
    inits_before_write a n = true := by
  have := ibw_skip a [] n ha
  simpa [inits_before_write] using this

theorem mbu_skip (a b : List Event)
    (ha : ∀ e ∈ a, (∀ r, e ≠ .spawn_push r) ∧ (∀ r, e ≠ .spawn_pop r) ∧
      (∀ r S, e ≠ .init_ring r S))
    (hb : ∀ s, magic_before_use b s = true) :
    ∀ s, magic_before_use (a ++ b) s = true := by
  induction a with
  | nil => exact hb
  | cons e a ih =>
    have he := ha e (List.mem_cons_self _ _)
    have ih2 := ih (fun x hx => ha x (List.mem_cons_of_mem _ hx))
    intro s
    cases e with
    | spawn_push r => exact absurd rfl (he.1 r)
    | spawn_pop r => exact absurd rfl (he.2.1 r)
    | init_ring r S => exact absurd rfl (he.2.2 r S)
    | load v => simpa [magic_before_use] using ih2 _
    | _ => simpa [magic_before_use] using ih2 s

theorem plain_quiet (e : Event) (h : is_plain e = true) :
    ((∀ r S, e ≠ .init_ring r S) ∧ e ≠ .write_magic) ∧
    ((∀ r, e ≠ .spawn_push r) ∧ (∀ r, e ≠ .spawn_pop r) ∧ (∀ r S, e ≠ .init_ring r S)) := by
  cases e <;> simp_all [is_plain]

theorem block_on_magic_quiet (ws : List Wait) :
    ∀ e ∈ (block_on_magic ws).1, e = .futex_wait ∨ ∃ v, e = .load v := by
  induction ws with
  | nil => simp [block_on_magic]
  | cons w ws ih =>
    have hev : ∀ e ∈ block_on_magic_events w, e = .futex_wait ∨ ∃ v, e = .load v := by
      intro e he
      unfold block_on_magic_events at he
      split at he
      · simp only [List.mem_cons, List.mem_singleton, List.not_mem_nil, or_false] at he
        rcases he with he | he
        · exact Or.inl he
        · exact Or.inr ⟨_, he⟩
      · simp only [List.mem_singleton] at he
        exact Or.inl he
    intro e he
    unfold block_on_magic at he
    split at he
    · exact hev e he
    · exact hev e he
    · rcases List.mem_append.mp he with h | h
      · exact hev e h
      · exact ih e h

theorem wait_load_quiet (e : Event) (h : e = .futex_wait ∨ ∃ v, e = .load v) :
    ((∀ r S, e ≠ .init_ring r S) ∧ e ≠ .write_magic) ∧
    ((∀ r, e ≠ .spawn_push r) ∧ (∀ r, e ≠ .spawn_pop r) ∧ (∀ r S, e ≠ .init_ring r S)) := by
  rcases h with h | ⟨v, h⟩ <;> subst h <;> simp

theorem process_inits_before_write (env : Env) :
    inits_before_write (process env) 0 = true := by
  obtain ⟨s, t, c, hp, hs, hc, ht⟩ := process_cases env
  have hsq := fun e he => (plain_quiet e (hs e he)).1
  have hcq := fun e he => (plain_quiet e (hc e he)).1
  rw [hp, List.append_assoc, ibw_skip s _ 0 hsq]
  rcases ht with ht | ⟨-, r1, r2, S, ht | ⟨a, b, ht⟩⟩ | ⟨-, ht | ⟨-, a, b, ht⟩⟩
  · subst ht
    exact ibw_nil_like _ 0 hcq
  · subst ht
    simp only [List.cons_append, List.nil_append, inits_before_write]
    simpa using ibw_nil_like c 2 hcq
  · subst ht
    simp only [List.cons_append, List.nil_append, inits_before_write]
    simpa using ibw_nil_like c 2 hcq
  · subst ht
    apply ibw_nil_like
    intro e he
    rcases List.mem_append.mp he with h | h
    · exact (wait_load_quiet e (block_on_magic_quiet _ e h)).1
    · exact hcq e h
  · subst ht
    apply ibw_nil_like
    intro e he
    rcases List.mem_append.mp he with h | h
    · rcases List.mem_append.mp h with h1 | h1
      · exact (wait_load_quiet e (block_on_magic_quiet _ e h1)).1
      · simp at h1
        rcases h1 with h1 | h1 <;> subst h1 <;> simp
    · exact hcq e h

theorem process_magic_before_use (env : Env) (ho : env.excl.errno = EEXIST) :
    magic_before_use (process env) false = true := by
  obtain ⟨s, t, c, hp, hs, hc, ht⟩ := process_cases env
  have hsq := fun e he => (plain_quiet e (hs e he)).2
  have hcq := fun e he => (plain_quiet e (hc e he)).2
  have hcall : ∀ s0, magic_before_use c s0 = true := by
    intro s0
    have := mbu_skip c [] hcq (fun _ => rfl) s0
    simpa using this
  rw [hp, List.append_assoc]
  apply mbu_skip s _ hsq
  rcases ht with ht | ⟨hcr, -⟩ | ⟨-, ht | ⟨hn, a, b, ht⟩⟩
  · subst ht
    exact hcall
  · simp [ho] at hcr
  · subst ht
    exact mbu_skip _ c (fun e he => (wait_load_quiet e (block_on_magic_quiet _ e he)).2) hcall
  · subst ht
    obtain ⟨evs, he, hall, -⟩ := block_on_magic_returns env.waits hn
    rw [he]
    simp only [List.append_assoc]
    apply mbu_skip evs
    · intro e hmem
      rcases hall e hmem with h | ⟨v, h, -⟩
      · exact (wait_load_quiet e (Or.inl h)).2
      · exact (wait_load_quiet e (Or.inr ⟨v, h⟩)).2
    · intro s0
      simp [magic_before_use, hcall]

theorem interleaves_cons_true (e : Event) (w : List (Bool × Event)) (rc ro : List Event)
    (h : interleaves ((true, e) :: w) rc ro) :
    ∃ rc1, rc = e :: rc1 ∧ interleaves w rc1 ro := by
  obtain ⟨h1, h2⟩ := h
  simp only [List.filter_cons, if_true, List.map_cons, Bool.not_true, Bool.false_eq_true,
    if_false] at h1 h2
  exact ⟨_, h1.symm, rfl, h2⟩

theorem interleaves_cons_false (e : Event) (w : List (Bool × Event)) (rc ro : List Event)
    (h : interleaves ((false, e) :: w) rc ro) :
    ∃ ro1, ro = e :: ro1 ∧ interleaves w rc ro1 := by
  obtain ⟨h1, h2⟩ := h
  simp only [List.filter_cons, Bool.false_eq_true, if_false, Bool.not_false, if_true,
    List.map_cons] at h1 h2
  exact ⟨_, h2.symm, h1, rfl⟩

theorem replay_safe : ∀ (w : List (Bool × Event)) (rc ro : List Event) (n word : Nat)
    (seen : Bool), interleaves w rc ro → inits_before_write rc n = true →
    magic_before_use ro seen = true → loads_consistent w word = true →
    (word = MAGIC_VAL → 2 ≤ n) → (seen = true → 2 ≤ n) → uses_after_init w n = true := by
  intro w
  induction w with
  | nil => intros; rfl
  | cons x w ih =>
    intro rc ro n word seen hw hi hm hl hword hseen
    obtain ⟨c, e⟩ := x
    cases c with
    | true =>
      obtain ⟨rc1, hrc, hw1⟩ := interleaves_cons_true e w rc ro hw
      subst hrc
      cases e with
      | init_ring r S =>
        simp only [inits_before_write] at hi
        simp only [loads_consistent] at hl
        simp only [uses_after_init]
        exact ih rc1 ro (n + 1) word seen hw1 hi hm hl (fun h => by have := hword h; omega)
          (fun h => by have := hseen h; omega)
      | write_magic =>
        simp only [inits_before_write, Bool.and_eq_true, decide_eq_true_eq] at hi
        simp only [loads_consistent] at hl
        simp only [uses_after_init]
        exact ih rc1 ro n MAGIC_VAL seen hw1 hi.2 hm hl (fun _ => hi.1) hseen
      | _ =>
        simp only [inits_before_write] at hi
        simp only [loads_consistent] at hl
        simp only [uses_after_init]
        exact ih rc1 ro n word seen hw1 hi hm hl hword hseen
    | false =>
      obtain ⟨ro1, hro, hw1⟩ := interleaves_cons_false e w rc ro hw
      subst hro
      cases e with
      | init_ring r S => simp [magic_before_use] at hm
      | load v =>
        simp only [magic_before_use] at hm
        simp only [loads_consistent, Bool.and_eq_true, decide_eq_true_eq] at hl
        simp only [uses_after_init]
        refine ih rc ro1 n word _ hw1 hi hm hl.2 hword ?_
        intro h
        simp only [Bool.or_eq_true, decide_eq_true_eq] at h
        rcases h with h | h
        · exact hseen h
        · exact hword (hl.1 ▸ h)
      | spawn_push r =>
        simp only [magic_before_use, Bool.and_eq_true] at hm
        simp only [loads_consistent] at hl
        simp only [uses_after_init, Bool.and_eq_true, decide_eq_true_eq]
        exact ⟨hseen hm.1, ih rc ro1 n word seen hw1 hi hm.2 hl hword hseen⟩
      | spawn_pop r =>
        simp only [magic_before_use, Bool.and_eq_true] at hm
        simp only [loads_consistent] at hl
        simp only [uses_after_init, Bool.and_eq_true, decide_eq_true_eq]
        exact ⟨hseen hm.1, ih rc ro1 n word seen hw1 hi hm.2 hl hword hseen⟩
      | _ =>
        simp only [magic_before_use] at hm
        simp only [loads_consistent] at hl
        simp only [uses_after_init]
        exact ih rc ro1 n word seen hw1 hi hm hl hword hseen

/-! ## C16: initialisation happens-before use -/

/-- C16: in every interleaving `w` of the events of a process `envc` and of a
process `envo` that found the object existing (`EEXIST`, so it is the opener),
in which every load of the ready word reads the word as it is at that moment
(0 in a new object, `MAGIC_VAL` once the creator ran `write_magic`), each pump
the opener starts on a ring comes after two completed calls of
`init_shared_ringbuf` by the creator.  The two program orders it rests on hold
as well: the creator calls `write_magic` only after both inits, and the opener
never initialises a ring and starts a pump only after `block_on_magic` loaded
`MAGIC_VAL`. -/
theorem init_before_use (envc envo : Env) (w : List (Bool × Event))
    (ho : envo.excl.errno = EEXIST)
    (hw : interleaves w (process envc) (process envo))
    (hc : loads_consistent w 0 = true) :
    uses_after_init w 0 = true ∧ inits_before_write (process envc) 0 = true ∧
      magic_before_use (process envo) false = true := by
  have h1 := process_inits_before_write envc
  have h2 := process_magic_before_use envo ho
  refine ⟨replay_safe w _ _ 0 0 false hw h1 h2 hc ?_ ?_, h1, h2⟩
  · intro h
    exact absurd h (by decide)
  · intro h
    exact absurd h (by decide)

/-- C16 at the interleaving `creator_first` of two runs that reach the pumps. -/
theorem init_before_use_witness :
    opener_env.excl.errno = EEXIST ∧
    interleaves creator_first (process creator_env) (process opener_env) ∧
    loads_consistent creator_first 0 = true ∧
    (∃ a b, Event.spawn_push a ∈ process opener_env ∧ Event.spawn_pop b ∈ process opener_env) ∧
    (uses_after_init creator_first 0 = true ∧
      inits_before_write (process creator_env) 0 = true ∧
      magic_before_use (process opener_env) false = true) :=
  ⟨by decide, by decide, by decide,
    ⟨⟨140203088164864, 140203088165024⟩, ⟨140203088162824, 140203088162984⟩, by decide, by decide⟩,
    init_before_use creator_env opener_env creator_first (by decide) (by decide) (by decide)⟩

/-! ## C18: the buffer of the pumps -/

theorem io_bufsize_eq (rb : ringbuf) (h2 : 2 ≤ rb.srb.size)
    (hn : rb.srb.size < 18446744073709551616) :
    get_io_bufsize rb = min (rb.srb.size - 1) 512 ∧ 1 ≤ get_io_bufsize rb ∧
      get_io_bufsize rb ≤ ringbuf_capacity rb.srb := by
  have hc := capacity_eq rb.srb (by omega) hn
  unfold get_io_bufsize get_ringbuf_capacity MAX_IO_BUFSIZE
  rw [hc]
  omega

theorem empty_free (rb : shared_rbuf) (he : is_empty rb = true) :
    ringbuf_bytes_free rb = ringbuf_capacity rb := by
  have hht : rb.head = rb.tail := by simpa [is_empty] using he
  have hu : ringbuf_bytes_used rb = 0 := by
    unfold ringbuf_bytes_used
    rw [if_pos (le_of_eq hht), hht]
    unfold int_sub
    rw [sub_self]
    decide
  unfold ringbuf_bytes_free
  rw [hu]
  unfold size_sub ringbuf_capacity size_sub
  omega

theorem push_stdin_loop_pushes (bufsize : Nat) : ∀ (fuel : Nat) (s : Stdin) (data : List Byte),
    Op.push data ∈ (push_stdin_loop bufsize fuel s).1 →
      1 ≤ data.length ∧ data.length ≤ bufsize := by
  intro fuel
  induction fuel with
  | zero =>
    intro s data h
    simp [push_stdin_loop] at h
  | succ fuel ih =>
    intro s data h
    unfold push_stdin_loop at h
    simp only at h
    split at h
    · split at h
      · simp at h
      · split at h
        · simp at h
        · simp at h
    · rename_i hlen
      simp only [List.mem_cons, Op.push.injEq] at h
      rcases h with h | h
      · subst h
        refine ⟨by omega, ?_⟩
        simp only [fread, List.length_take]
        omega
      · exact ih _ data h

theorem push_stdin_loop_ends (bufsize : Nat) (hb : 1 ≤ bufsize) : ∀ (fuel : Nat) (s : Stdin),
    s.data.length < fuel → (push_stdin_loop bufsize fuel s).2 ≠ none := by
  intro fuel
  induction fuel with
  | zero =>
    intro s h
    omega
  | succ fuel ih =>
    intro s h
    unfold push_stdin_loop
    simp only
    split
    · split
      · simp
      · split
        · simp
        · simp
    · rename_i hlen
      apply ih
      simp only [fread, List.length_take, List.length_drop] at hlen ⊢
      omega

theorem pop_zero (rb : ringbuf) (buf : List Byte) (cap : Nat) (rb1 : ringbuf)
    (buf1 : List Byte) (hok : ring_ok rb) (hcap : 1 ≤ cap) (hb : cap ≤ buf.length)
    (hp : pop_ringbuf rb buf cap = .ok (rb1, buf1, 0)) :
    rb.srb.closed = true ∧ is_empty rb.srb = true := by
  by_cases he : is_empty rb.srb = true
  · refine ⟨?_, he⟩
    by_cases hc : rb.srb.closed = true
    · exact hc
    · rw [pop_blocked rb buf cap he (by simpa using hc)] at hp
      cases hp
  · have hne : is_empty rb.srb = false := by simpa using he
    have hu := used_pos_of_nonempty rb hok hne
    obtain ⟨c, h, t, n, slab, rfl, hh, ht, hn, hhn, htn, hs⟩ := ring_ok_cases rb hok
    obtain ⟨rb2, buf2, hp2, -⟩ :=
      pop_any_size c h t n slab buf cap hh ht hn hhn htn hs
        ((is_empty_false_iff c h t n).mp hne) hb
    rw [hp2] at hp
    simp only [Res.ok.injEq, Prod.mk.injEq] at hp
    simp only at hu
    omega

theorem pop_stdout_turn_cases (buf : List Byte) (rb : ringbuf) :
    pop_stdout_turn buf rb ≠ .aborted ∧
    (pop_stdout_turn buf rb = .destroyed →
      ∃ rb1 buf1, pop_ringbuf rb buf buf.length = .ok (rb1, buf1, 0)) := by
  unfold pop_stdout_turn
  split
  · exact ⟨by simp, by simp⟩
  · exact ⟨by simp, by simp⟩
  · rename_i rb1 buf1 buf_len hp
    have hf := pop_frame rb buf buf.length rb1 buf1 buf_len hp
    split
    · rename_i h0
      subst h0
      exact ⟨by simp, fun _ => ⟨rb1, buf1, hp⟩⟩
    · rw [if_pos hf.2.2.2.2]
      exact ⟨by simp, by simp⟩

theorem to_int_range (n : Nat) : -2147483648 ≤ to_int n ∧ to_int n < 2147483648 := by
  unfold to_int
  split <;> omega

theorem push_well_typed (rb : ringbuf) (data : List Byte) (rb1 : ringbuf)
    (h : push_ringbuf rb data = .ok rb1) (hw : well_typed rb.srb) :
    well_typed rb1.srb ∧ rb1.srb.size = rb.srb.size := by
  obtain ⟨h1, h2, h3, h4, h5⟩ := hw
  unfold push_ringbuf at h
  simp only at h
  split at h
  · cases h
  · split at h
    · cases h
    · split at h
      · split at h
        · cases h
        · cases h
          exact ⟨⟨h1, h2, (to_int_range _).1, (to_int_range _).2, h5⟩, rfl⟩
      · cases h
        exact ⟨⟨h1, h2, (to_int_range _).1, (to_int_range _).2, h5⟩, rfl⟩

theorem pop_well_typed (rb : ringbuf) (buf : List Byte) (cap : Nat) (rb1 : ringbuf)
    (buf1 : List Byte) (ret : Nat) (h : pop_ringbuf rb buf cap = .ok (rb1, buf1, ret))
    (hw : well_typed rb.srb) :
    well_typed rb1.srb ∧ rb1.srb.size = rb.srb.size := by
  have hw0 := hw
  obtain ⟨h1, h2, h3, h4, h5⟩ := hw
  unfold pop_ringbuf at h
  simp only at h
  split at h
  · cases h
  · split at h
    · cases h
      exact ⟨hw0, rfl⟩
    · split at h
      · cases h
      · split at h
        · split at h
          · cases h
          · cases h
            exact ⟨⟨(to_int_range _).1, (to_int_range _).2, h3, h4, h5⟩, rfl⟩
        · cases h
          exact ⟨⟨(to_int_range _).1, (to_int_range _).2, h3, h4, h5⟩, rfl⟩

theorem step_well_typed (s s1 : Trace) (op : Op) (hw : well_typed s.rb.srb)
    (h : step s op = .ok s1) :
    well_typed s1.rb.srb ∧ s1.rb.srb.size = s.rb.srb.size := by
  cases op with
  | push data =>
    simp only [step] at h
    split at h
    · rename_i rb1 hp
      cases h
      exact push_well_typed _ _ _ hp hw
    · cases h
    · cases h
  | pop cap =>
    simp only [step] at h
    split at h
    · rename_i rb1 buf1 ret hp
      cases h
      exact pop_well_typed _ _ _ _ _ _ hp hw
    · cases h
    · cases h
  | close =>
    simp only [step] at h
    cases h
    exact ⟨hw, rfl⟩

theorem run_well_typed (ops : List Op) : ∀ (s s1 : Trace), well_typed s.rb.srb →
    run s ops = .ok s1 → well_typed s1.rb.srb ∧ s1.rb.srb.size = s.rb.srb.size := by
  induction ops with
  | nil =>
    intro s s1 hw h
    simp only [run, Res.ok.injEq] at h
    subst h
    exact ⟨hw, rfl⟩
  | cons op ops ih =>
    intro s s1 hw h
    cases hst : step s op with
    | blocked => simp [run, hst] at h
    | fault => simp [run, hst] at h
    | ok s2 =>
      rw [run_cons s s2 op ops hst] at h
      obtain ⟨hw2, hs2⟩ := step_well_typed s s2 op hw hst
      obtain ⟨hw1, hs1⟩ := ih s2 s1 hw2 h
      exact ⟨hw1, by rw [hs1, hs2]⟩

/-- On a slab of more than `2 ^ 31` and less than `2 ^ 64 - 2 ^ 31` bytes,
`ringbuf_bytes_used` is positive whenever `head` and `tail` differ, whatever
`int` values the two fields hold. -/
theorem used_pos_wide (rb : shared_rbuf) (hw : well_typed rb)
    (h1 : 2147483648 < rb.size) (h2 : rb.size < 18446744071562067968)
    (hne : rb.head ≠ rb.tail) : 0 < ringbuf_bytes_used rb := by
  obtain ⟨a1, a2, a3, a4, a5⟩ := hw
  unfold ringbuf_bytes_used
  split
  · unfold int_sub to_int to_size_t
    split <;> omega
  · unfold size_sub int_sub to_int to_size_t
    split <;> omega

/-- What `pop_ringbuf` returns when it returns. -/
theorem pop_ret (rb : ringbuf) (buf : List Byte) (cap : Nat) (rb1 : ringbuf)
    (buf1 : List Byte) (ret : Nat) (h : pop_ringbuf rb buf cap = .ok (rb1, buf1, ret)) :
    (is_empty rb.srb = true ∧ rb.srb.closed = true ∧ ret = 0) ∨
    (rb.srb.head ≠ rb.srb.tail ∧ ret = min cap (ringbuf_bytes_used rb.srb)) := by
  unfold pop_ringbuf at h
  simp only at h
  split at h
  · cases h
  · rename_i hb
    split at h
    · rename_i hz
      cases h
      simp only [Bool.and_eq_true, beq_iff_eq] at hz
      exact Or.inl ⟨by simp [is_empty, hz.1], hz.2, rfl⟩
    · rename_i hz
      have hne : rb.srb.head ≠ rb.srb.tail := by
        intro heq
        cases hc : rb.srb.closed
        · apply hb
          simp [is_empty, heq, hc]
        · apply hz
          simp [heq, hc]
      split at h
      · cases h
      · split at h
        · split at h
          · cases h
          · cases h
            exact Or.inr ⟨hne, rfl⟩
        · cases h
          exact Or.inr ⟨hne, rfl⟩

/-- On every ring state reached from a state satisfying the index invariant,
on a slab of less than `2 ^ 64 - 2 ^ 31` bytes, a `pop_ringbuf` asked for at
least one byte returns zero only when the ring is closed and empty. -/
theorem pop_zero_reached (s0 s : Trace) (ops : List Op) (buf : List Byte) (cap : Nat)
    (rb1 : ringbuf) (buf1 : List Byte) (hok : ring_ok s0.rb)
    (hsz : s0.rb.srb.size < 18446744071562067968) (hrun : run s0 ops = .ok s)
    (hcap : 1 ≤ cap) (hb : cap ≤ buf.length)
    (hp : pop_ringbuf s.rb buf cap = .ok (rb1, buf1, 0)) :
    s.rb.srb.closed = true ∧ is_empty s.rb.srb = true := by
  by_cases hsmall : s0.rb.srb.size ≤ 2147483648
  · have hinv := (run_inv ops s0 hok hsmall).2 s hrun
    exact pop_zero s.rb buf cap rb1 buf1 hinv.1 hcap hb hp
  · obtain ⟨hw, hs⟩ := run_well_typed ops s0 s hok.1 hrun
    rcases pop_ret s.rb buf cap rb1 buf1 0 hp with ⟨he, hc, -⟩ | ⟨hne, h0⟩
    · exact ⟨hc, he⟩
    · have hu := used_pos_wide s.rb.srb hw (by omega) (by omega) hne
      omega

/-- C18: for every ring with `2 ≤ size` (a `size_t`),
`get_io_bufsize = min(size - 1, 512)` and `1 ≤ get_io_bufsize ≤ capacity`.
Every `push_ringbuf` call issued by `push_stdin` has `1 ≤ len ≤ capacity`, so
its wait predicate is false on an empty ring of that size, and the loop of
`push_stdin` ends once `stdin` does.  Every `pop_ringbuf` call issued by
`pop_stdout` has requested length `≥ 1` and its `assert` holds; it returns
zero only when the ring is closed and empty, on every ring state satisfying
the index invariant, and on every state reached from one by any calls of
`push_ringbuf`, `pop_ringbuf` and `close_ringbuf` when the slab has less than
`2 ^ 64 - 2 ^ 31` bytes. -/
theorem pump_buffer_bound (rb0 : ringbuf) (h2 : 2 ≤ rb0.srb.size)
    (hn : rb0.srb.size < 18446744073709551616) :
    get_io_bufsize rb0 = min (rb0.srb.size - 1) 512 ∧
    1 ≤ get_io_bufsize rb0 ∧ get_io_bufsize rb0 ≤ ringbuf_capacity rb0.srb ∧
    (∀ (fuel : Nat) (s : Stdin),
      (s.data.length < fuel → (push_stdin rb0 fuel s).2 ≠ none) ∧
      ∀ data, Op.push data ∈ (push_stdin rb0 fuel s).1 →
        1 ≤ data.length ∧ data.length ≤ ringbuf_capacity rb0.srb ∧
        ∀ rb : shared_rbuf, rb.size = rb0.srb.size → is_empty rb = true →
          ¬ ringbuf_bytes_free rb < data.length) ∧
    (∀ (buf : List Byte) (rb : ringbuf), buf.length = get_io_bufsize rb0 → ring_ok rb →
      rb.srb.size = rb0.srb.size →
      1 ≤ buf.length ∧ pop_stdout_turn buf rb ≠ .aborted ∧
      (pop_stdout_turn buf rb = .destroyed →
        rb.srb.closed = true ∧ is_empty rb.srb = true)) ∧
    (∀ (s0 s : Trace) (ops : List Op) (buf : List Byte), ring_ok s0.rb →
      s0.rb.srb.size = rb0.srb.size → rb0.srb.size < 18446744071562067968 →
      run s0 ops = .ok s → buf.length = get_io_bufsize rb0 →
      pop_stdout_turn buf s.rb ≠ .aborted ∧
      (pop_stdout_turn buf s.rb = .destroyed →
        s.rb.srb.closed = true ∧ is_empty s.rb.srb = true)) := by
  obtain ⟨h1, hlo, hhi⟩ := io_bufsize_eq rb0 h2 hn
  refine ⟨h1, hlo, hhi, ?_, ?_, ?_⟩
  · intro fuel s
    refine ⟨push_stdin_loop_ends _ hlo fuel s, ?_⟩
    intro data hd
    obtain ⟨hd1, hd2⟩ := push_stdin_loop_pushes _ fuel s data hd
    refine ⟨hd1, by omega, ?_⟩
    intro rb hsz he
    rw [empty_free rb he]
    have hcap : ringbuf_capacity rb = ringbuf_capacity rb0.srb := by
      unfold ringbuf_capacity
      rw [hsz]
    omega
  · intro buf rb hb hok hsz
    obtain ⟨hna, hd⟩ := pop_stdout_turn_cases buf rb
    refine ⟨by omega, hna, ?_⟩
    intro hdes
    obtain ⟨rb1, buf1, hp⟩ := hd hdes
    exact pop_zero rb buf buf.length rb1 buf1 hok (by omega) (Nat.le_refl _) hp
  · intro s0 s ops buf hok hsz hwide hrun hb
    obtain ⟨hna, hd⟩ := pop_stdout_turn_cases buf s.rb
    refine ⟨hna, ?_⟩
    intro hdes
    obtain ⟨rb1, buf1, hp⟩ := hd hdes
    exact pop_zero_reached s0 s ops buf buf.length rb1 buf1 hok (by omega) hrun (by omega)
      (Nat.le_refl _) hp

/-- C18 at a ring of four bytes: the buffer has three bytes, five bytes of
`stdin` are pushed as three and two, and then the ring is closed; a turn of
`pop_stdout` writes the two bytes of a ring that holds two, and ends on a
closed and empty ring. -/
theorem pump_buffer_bound_witness :
    push_stdin ⟨⟨false, 0, 0, 4⟩, [0, 0, 0, 0]⟩ 3 ⟨[1, 2, 3, 4, 5], false⟩ =
      ([.push [1, 2, 3], .push [4, 5], .close], some .returned) ∧
    pop_stdout_turn [0, 0, 0] ⟨⟨false, 1, 3, 4⟩, [0, 7, 8, 0]⟩ =
      .written ⟨⟨false, 3, 3, 4⟩, [0, 7, 8, 0]⟩ [7, 8, 0] [7, 8] ∧
    pop_stdout_turn [0, 0, 0] ⟨⟨true, 3, 3, 4⟩, [0, 7, 8, 0]⟩ = .destroyed ∧
    init_shared_ringbuf 4 = some ⟨false, 0, 0, 4⟩ ∧
    (get_io_bufsize ⟨⟨false, 0, 0, 4⟩, [0, 0, 0, 0]⟩ = min (4 - 1) 512 ∧
    1 ≤ get_io_bufsize ⟨⟨false, 0, 0, 4⟩, [0, 0, 0, 0]⟩ ∧
    get_io_bufsize ⟨⟨false, 0, 0, 4⟩, [0, 0, 0, 0]⟩ ≤ ringbuf_capacity ⟨false, 0, 0, 4⟩ ∧
    (∀ (fuel : Nat) (s : Stdin),
      (s.data.length < fuel →
        (push_stdin ⟨⟨false, 0, 0, 4⟩, [0, 0, 0, 0]⟩ fuel s).2 ≠ none) ∧
      ∀ data, Op.push data ∈ (push_stdin ⟨⟨false, 0, 0, 4⟩, [0, 0, 0, 0]⟩ fuel s).1 →
        1 ≤ data.length ∧ data.length ≤ ringbuf_capacity ⟨false, 0, 0, 4⟩ ∧
        ∀ rb : shared_rbuf, rb.size = 4 → is_empty rb = true →
          ¬ ringbuf_bytes_free rb < data.length) ∧
    (∀ (buf : List Byte) (rb : ringbuf),
      buf.length = get_io_bufsize ⟨⟨false, 0, 0, 4⟩, [0, 0, 0, 0]⟩ → ring_ok rb →
      rb.srb.size = 4 →
      1 ≤ buf.length ∧ pop_stdout_turn buf rb ≠ .aborted ∧
      (pop_stdout_turn buf rb = .destroyed →
        rb.srb.closed = true ∧ is_empty rb.srb = true)) ∧
    (∀ (s0 s : Trace) (ops : List Op) (buf : List Byte), ring_ok s0.rb →
      s0.rb.srb.size = 4 → 4 < 18446744071562067968 →
      run s0 ops = .ok s → buf.length = get_io_bufsize ⟨⟨false, 0, 0, 4⟩, [0, 0, 0, 0]⟩ →
      pop_stdout_turn buf s.rb ≠ .aborted ∧
      (pop_stdout_turn buf s.rb = .destroyed →
        s.rb.srb.closed = true ∧ is_empty s.rb.srb = true))) :=
  ⟨by decide, by decide, by decide, by decide,
    pump_buffer_bound ⟨⟨false, 0, 0, 4⟩, [0, 0, 0, 0]⟩ (by decide) (by decide)⟩

/-! ## C20: the copies stay inside the slab -/

theorem push_copies_link (rb : ringbuf) (data : List Byte)
    (hfree : ¬ ringbuf_bytes_free rb.srb < data.length) :
    (copy_all rb.slab data (push_copies rb.srb data.length) = none ∧
      push_ringbuf rb data = .fault) ∨
    ∃ rb1, copy_all rb.slab data (push_copies rb.srb data.length) = some rb1.slab ∧
      push_ringbuf rb data = .ok rb1 := by
  unfold push_ringbuf push_copies
  simp only [if_neg hfree]
  by_cases hlt : min data.length (size_sub rb.srb.size (to_size_t rb.srb.tail)) < data.length
  · simp only [if_pos hlt, copy_all]
    cases h1 : memcpy rb.slab rb.srb.tail data 0
        (min data.length (size_sub rb.srb.size (to_size_t rb.srb.tail))) with
    | none => exact Or.inl ⟨rfl, rfl⟩
    | some slab1 =>
      simp only
      cases h2 : memcpy slab1 0 data
          ((min data.length (size_sub rb.srb.size (to_size_t rb.srb.tail)) : Nat) : Int)
          (size_sub data.length
            (min data.length (size_sub rb.srb.size (to_size_t rb.srb.tail)))) with
      | none => exact Or.inl ⟨rfl, rfl⟩
      | some slab2 => exact Or.inr ⟨_, rfl, rfl⟩
  · simp only [if_neg hlt, copy_all]
    cases h1 : memcpy rb.slab rb.srb.tail data 0
        (min data.length (size_sub rb.srb.size (to_size_t rb.srb.tail))) with
    | none => exact Or.inl ⟨rfl, rfl⟩
    | some slab1 => exact Or.inr ⟨_, rfl, rfl⟩

theorem pop_copies_link (rb : ringbuf) (buf : List Byte) (cap : Nat) :
    (pop_copies rb.srb cap = [] ∧ pop_ringbuf rb buf cap = .blocked) ∨
    (copy_all buf rb.slab (pop_copies rb.srb cap) = none ∧
      pop_ringbuf rb buf cap = .fault) ∨
    ∃ rb1 buf1 ret, copy_all buf rb.slab (pop_copies rb.srb cap) = some buf1 ∧
      pop_ringbuf rb buf cap = .ok (rb1, buf1, ret) := by
  unfold pop_ringbuf pop_copies
  simp only
  by_cases hb : (is_empty rb.srb && !rb.srb.closed) = true
  · rw [if_pos hb, if_pos hb]
    exact Or.inl ⟨rfl, rfl⟩
  · rw [if_neg hb, if_neg hb]
    right
    by_cases hz : (rb.srb.head == rb.srb.tail && rb.srb.closed) = true
    · rw [if_pos hz, if_pos hz]
      exact Or.inr ⟨_, _, _, rfl, rfl⟩
    · rw [if_neg hz, if_neg hz]
      by_cases hlt : min (min cap (ringbuf_bytes_used rb.srb))
          (size_sub rb.srb.size (to_size_t rb.srb.head)) < min cap (ringbuf_bytes_used rb.srb)
      · simp only [if_pos hlt, copy_all]
        cases h1 : memcpy buf 0 rb.slab rb.srb.head
            (min (min cap (ringbuf_bytes_used rb.srb))
              (size_sub rb.srb.size (to_size_t rb.srb.head))) with
        | none => exact Or.inl ⟨rfl, rfl⟩
        | some buf1 =>
          simp only
          cases h2 : memcpy buf1
              ((min (min cap (ringbuf_bytes_used rb.srb))
                (size_sub rb.srb.size (to_size_t rb.srb.head)) : Nat) : Int) rb.slab 0
              (size_sub (min cap (ringbuf_bytes_used rb.srb))
                (min (min cap (ringbuf_bytes_used rb.srb))
                  (size_sub rb.srb.size (to_size_t rb.srb.head)))) with
          | none => exact Or.inl ⟨rfl, rfl⟩
          | some buf2 => exact Or.inr ⟨_, _, _, rfl, rfl⟩
      · simp only [if_neg hlt, copy_all]
        cases h1 : memcpy buf 0 rb.slab rb.srb.head
            (min (min cap (ringbuf_bytes_used rb.srb))
              (size_sub rb.srb.size (to_size_t rb.srb.head))) with
        | none => exact Or.inl ⟨rfl, rfl⟩
        | some buf1 => exact Or.inr ⟨_, _, _, rfl, rfl⟩

theorem mem_occupied (c : Bool) (h t n : Nat) (hh : h < 2147483648) (ht : t < 2147483648)
    (hn : n < 18446744073709551616) (hhn : h < n) (htn : t < n) (i : Nat) :
    i ∈ occupied ⟨c, h, t, n⟩ ↔
      (h ≤ t ∧ h ≤ i ∧ i < t) ∨ (t < h ∧ ((h ≤ i ∧ i < n) ∨ i < t)) := by
  obtain ⟨hu1, hu2, -⟩ := used_spec c h t n hh ht hn hhn htn
  unfold occupied
  simp only [List.mem_map, List.mem_range, Int.toNat_ofNat]
  generalize ringbuf_bytes_used ⟨c, h, t, n⟩ = u at hu1 hu2 ⊢
  constructor
  · rintro ⟨j, hj, rfl⟩
    have hu : u ≤ n := by
      by_cases hle : h ≤ t
      · have := hu1 hle
        omega
      · have := hu2 (by omega)
        omega
    have hm := mod_wrap (h + j) n (by omega)
    by_cases hle : h ≤ t
    · have := hu1 hle
      rw [if_pos (by omega)] at hm
      omega
    · have := hu2 (by omega)
      by_cases hw : h + j < n
      · rw [if_pos hw] at hm
        omega
      · rw [if_neg hw] at hm
        omega
  · intro hi
    rcases hi with ⟨hle, h1, h2⟩ | ⟨hlt, h1 | h1⟩
    · have := hu1 hle
      refine ⟨i - h, by omega, ?_⟩
      rw [Nat.mod_eq_of_lt (by omega)]
      omega
    · have := hu2 hlt
      refine ⟨i - h, by omega, ?_⟩
      rw [Nat.mod_eq_of_lt (by omega)]
      omega
    · have := hu2 hlt
      refine ⟨i + n - h, by omega, ?_⟩
      have hm := mod_wrap (h + (i + n - h)) n (by omega)
      rw [if_neg (by omega)] at hm
      omega

theorem push_copies_bounds (c : Bool) (h t n len : Nat) (hh : h < 2147483648)
    (ht : t < 2147483648) (hn : n < 18446744073709551616) (hhn : h < n) (htn : t < n)
    (hfree : len ≤ ringbuf_bytes_free ⟨c, h, t, n⟩) :
    ∀ cp ∈ push_copies ⟨c, h, t, n⟩ len,
      0 ≤ cp.doff ∧ cp.doff.toNat + cp.n ≤ n ∧ 0 ≤ cp.soff ∧ cp.soff.toNat + cp.n ≤ len ∧
      ∀ j, j < cp.n → cp.doff.toNat + j ∉ occupied ⟨c, h, t, n⟩ := by
  obtain ⟨hu1, hu2, hf⟩ := used_spec c h t n hh ht hn hhn htn
  have hocc := mem_occupied c h t n hh ht hn hhn htn
  generalize ringbuf_bytes_used ⟨c, h, t, n⟩ = u at hu1 hu2 hf
  have hlen : len ≤ n - 1 - u := by omega
  have hcase : (h ≤ t ∧ u = t - h) ∨ (t < h ∧ u = n - h + t) := by
    by_cases hle : h ≤ t
    · exact Or.inl ⟨hle, hu1 hle⟩
    · exact Or.inr ⟨by omega, hu2 (by omega)⟩
  intro cp hcp
  unfold push_copies at hcp
  simp only [to_size_t_ofNat t (by omega), size_sub_eq n t (by omega) hn] at hcp
  by_cases hlt : min len (n - t) < len
  · rw [if_pos hlt] at hcp
    have hsub : size_sub len (min len (n - t)) = len - min len (n - t) :=
      size_sub_eq _ _ (by omega) (by omega)
    rw [hsub] at hcp
    simp only [List.mem_cons, List.mem_singleton, List.not_mem_nil, or_false] at hcp
    rcases hcp with rfl | rfl
    · refine ⟨by simp only; omega, by simp only [Int.toNat_ofNat]; omega, by simp only; omega,
        by simp only [Int.toNat_zero]; omega, ?_⟩
      intro j hj
      simp only [Int.toNat_ofNat] at hj ⊢
      rw [hocc]
      omega
    · refine ⟨by simp only; omega, by simp only [Int.toNat_zero]; omega, by simp only; omega,
        by simp only [Int.toNat_ofNat]; omega, ?_⟩
      intro j hj
      simp only [Int.toNat_zero] at hj ⊢
      rw [hocc]
      omega
  · rw [if_neg hlt] at hcp
    simp only [List.mem_singleton] at hcp
    subst hcp
    refine ⟨by simp only; omega, by simp only [Int.toNat_ofNat]; omega, by simp only; omega,
      by simp only [Int.toNat_zero]; omega, ?_⟩
    intro j hj
    simp only [Int.toNat_ofNat] at hj ⊢
    rw [hocc]
    omega

theorem pop_copies_bounds (c : Bool) (h t n cap : Nat) (hh : h < 2147483648)
    (ht : t < 2147483648) (hn : n < 18446744073709551616) (hhn : h < n) (htn : t < n) :
    ∀ cp ∈ pop_copies ⟨c, h, t, n⟩ cap,
      0 ≤ cp.soff ∧ cp.soff.toNat + cp.n ≤ n ∧ 0 ≤ cp.doff ∧ cp.doff.toNat + cp.n ≤ cap ∧
      ∀ j, j < cp.n → cp.soff.toNat + j ∈ occupied ⟨c, h, t, n⟩ := by
  by_cases heq : h = t
  · subst heq
    have hnil : pop_copies ⟨c, h, h, n⟩ cap = [] := by
      unfold pop_copies is_empty
      cases c <;> simp
    rw [hnil]
    intro cp hcp
    cases hcp
  · obtain ⟨hu1, hu2, -⟩ := used_spec c h t n hh ht hn hhn htn
    have hocc := mem_occupied c h t n hh ht hn hhn htn
    have e1 : ((h : Int) == (t : Int)) = false := by simp; omega
    intro cp hcp
    unfold pop_copies at hcp
    simp only [is_empty, e1, Bool.false_and, Bool.false_eq_true, if_false,
      to_size_t_ofNat h (by omega), size_sub_eq n h (by omega) hn] at hcp
    generalize ringbuf_bytes_used ⟨c, h, t, n⟩ = u at hu1 hu2 hcp
    have hcase : (h < t ∧ u = t - h) ∨ (t < h ∧ u = n - h + t) := by
      by_cases hle : h ≤ t
      · exact Or.inl ⟨by omega, hu1 hle⟩
      · exact Or.inr ⟨by omega, hu2 (by omega)⟩
    generalize hk : min cap u = k at hcp
    have hk1 : k ≤ cap ∧ k ≤ u := by omega
    by_cases hlt : min k (n - h) < k
    · rw [if_pos hlt] at hcp
      have hsub : size_sub k (min k (n - h)) = k - min k (n - h) :=
        size_sub_eq _ _ (by omega) (by omega)
      rw [hsub] at hcp
      simp only [List.mem_cons, List.mem_singleton, List.not_mem_nil, or_false] at hcp
      rcases hcp with rfl | rfl
      · refine ⟨by simp only; omega, by simp only [Int.toNat_ofNat]; omega, by simp only; omega,
          by simp only [Int.toNat_zero]; omega, ?_⟩
        intro j hj
        simp only [Int.toNat_ofNat] at hj ⊢
        rw [hocc]
        omega
      · refine ⟨by simp only; omega, by simp only [Int.toNat_zero]; omega, by simp only; omega,
          by simp only [Int.toNat_ofNat]; omega, ?_⟩
        intro j hj
        simp only [Int.toNat_zero] at hj ⊢
        rw [hocc]
        omega
    · rw [if_neg hlt] at hcp
      simp only [List.mem_singleton] at hcp
      subst hcp
      refine ⟨by simp only; omega, by simp only [Int.toNat_ofNat]; omega, by simp only; omega,
        by simp only [Int.toNat_zero]; omega, ?_⟩
      intro j hj
      simp only [Int.toNat_ofNat] at hj ⊢
      rw [hocc]
      omega

theorem push_keeps_occupied (c : Bool) (h t n : Nat) (slab data : List Byte)
    (hh : h < 2147483648) (ht : t < 2147483648) (hn : n < 18446744073709551616)
    (hhn : h < n) (htn : t < n) (hs : slab.length = n)
    (hfree : data.length ≤ ringbuf_bytes_free ⟨c, h, t, n⟩) :
    ∃ rb1, push_ringbuf ⟨⟨c, h, t, n⟩, slab⟩ data = .ok rb1 ∧ rb1.slab.length = n ∧
      ∀ i ∈ occupied ⟨c, h, t, n⟩, rb1.slab[i]? = slab[i]? := by
  obtain ⟨slab1, hp, hl, hpt⟩ := push_ringbuf_eq c h t n slab data hh ht hn hhn htn hs hfree
  refine ⟨_, hp, hl, ?_⟩
  intro i hi
  obtain ⟨hu1, hu2, hf⟩ := used_spec c h t n hh ht hn hhn htn
  rw [mem_occupied c h t n hh ht hn hhn htn] at hi
  generalize ringbuf_bytes_used ⟨c, h, t, n⟩ = u at hu1 hu2 hf
  have hcase : (h ≤ t ∧ u = t - h) ∨ (t < h ∧ u = n - h + t) := by
    by_cases hle : h ≤ t
    · exact Or.inl ⟨hle, hu1 hle⟩
    · exact Or.inr ⟨by omega, hu2 (by omega)⟩
  show slab1[i]? = slab[i]?
  rw [hpt i (by omega)]
  by_cases hti : t ≤ i
  · rw [if_pos hti, if_neg (by omega)]
  · rw [if_neg hti, if_neg (by omega)]

theorem push_copies_total (c : Bool) (h t n len : Nat) (hh : h < 2147483648)
    (ht : t < 2147483648) (hn : n < 18446744073709551616) (hhn : h < n) (htn : t < n)
    (hfree : len ≤ ringbuf_bytes_free ⟨c, h, t, n⟩) :
    ((push_copies ⟨c, h, t, n⟩ len).map Copy.n).sum = len := by
  obtain ⟨-, -, hf⟩ := used_spec c h t n hh ht hn hhn htn
  unfold push_copies
  simp only [to_size_t_ofNat t (by omega), size_sub_eq n t (by omega) hn]
  by_cases hlt : min len (n - t) < len
  · rw [if_pos hlt, size_sub_eq _ _ (by omega) (by omega)]
    simp only [List.map_cons, List.map_nil, List.sum_cons, List.sum_nil]
    omega
  · rw [if_neg hlt]
    simp only [List.map_cons, List.map_nil, List.sum_cons, List.sum_nil]
    omega

theorem pop_copies_total (c : Bool) (h t n cap : Nat) (hh : h < 2147483648)
    (ht : t < 2147483648) (hn : n < 18446744073709551616) (hhn : h < n) (htn : t < n) :
    ((pop_copies ⟨c, h, t, n⟩ cap).map Copy.n).sum ≤ cap := by
  by_cases heq : h = t
  · subst heq
    have hnil : pop_copies ⟨c, h, h, n⟩ cap = [] := by
      unfold pop_copies is_empty
      cases c <;> simp
    rw [hnil]
    simp
  · obtain ⟨hu1, hu2, -⟩ := used_spec c h t n hh ht hn hhn htn
    have e1 : ((h : Int) == (t : Int)) = false := by simp; omega
    unfold pop_copies
    simp only [is_empty, e1, Bool.false_and, Bool.false_eq_true, if_false,
      to_size_t_ofNat h (by omega), size_sub_eq n h (by omega) hn]
    generalize ringbuf_bytes_used ⟨c, h, t, n⟩ = u at hu1 hu2
    have hu : u ≤ n := by
      by_cases hle : h ≤ t
      · have := hu1 hle
        omega
      · have := hu2 (by omega)
        omega
    generalize hk : min cap u = k
    have hk1 : k ≤ cap ∧ k ≤ u := by omega
    by_cases hlt : min k (n - h) < k
    · rw [if_pos hlt, size_sub_eq _ _ (by omega) (by omega)]
      simp only [List.map_cons, List.map_nil, List.sum_cons, List.sum_nil]
      omega
    · rw [if_neg hlt]
      simp only [List.map_cons, List.map_nil, List.sum_cons, List.sum_nil]
      omega

theorem pop_not_fault (rb : ringbuf) (buf : List Byte) (cap : Nat) (hok : ring_ok rb)
    (hb : cap ≤ buf.length) : pop_ringbuf rb buf cap ≠ .fault := by
  by_cases he : is_empty rb.srb = true
  · by_cases hc : rb.srb.closed = true
    · rw [pop_closed_empty rb buf cap he hc]
      simp
    · rw [pop_blocked rb buf cap he (by simpa using hc)]
      simp
  · have hne : is_empty rb.srb = false := by simpa using he
    obtain ⟨c, h, t, n, slab, rfl, hh, ht, hn, hhn, htn, hs⟩ := ring_ok_cases rb hok
    obtain ⟨rb2, buf2, hp2, -⟩ :=
      pop_any_size c h t n slab buf cap hh ht hn hhn htn hs
        ((is_empty_false_iff c h t n).mp hne) hb
    rw [hp2]
    simp

/-- C20: for every ring state satisfying the index invariant.  A
`push_ringbuf` with `len ≤ bytes_free` returns without a `memcpy` leaving its
range; each of its `memcpy` calls writes slab indices inside `[0, size)` and
outside the occupied region and reads inside `data`, the calls read `len`
bytes in all, and the bytes of the occupied region are unchanged.  A
`pop_ringbuf` into a buffer of at least the requested length waits or
returns, without a `memcpy` leaving its range; each of its `memcpy` calls
reads slab indices inside `[0, size)` and inside the occupied region and
writes inside the first `len` bytes of the buffer, at most `len` bytes in
all, and the slab is unchanged. -/
theorem copies_stay_inside (rb : ringbuf) (hok : ring_ok rb) :
    (∀ data : List Byte, data.length ≤ ringbuf_bytes_free rb.srb →
      (∃ rb1, push_ringbuf rb data = .ok rb1 ∧
        copy_all rb.slab data (push_copies rb.srb data.length) = some rb1.slab ∧
        ∀ i ∈ occupied rb.srb, rb1.slab[i]? = rb.slab[i]?) ∧
      ((push_copies rb.srb data.length).map Copy.n).sum = data.length ∧
      ∀ cp ∈ push_copies rb.srb data.length,
        0 ≤ cp.doff ∧ cp.doff.toNat + cp.n ≤ rb.srb.size ∧
        0 ≤ cp.soff ∧ cp.soff.toNat + cp.n ≤ data.length ∧
        ∀ j, j < cp.n → cp.doff.toNat + j ∉ occupied rb.srb) ∧
    (∀ (buf : List Byte) (len : Nat), len ≤ buf.length →
      ((pop_ringbuf rb buf len = .blocked ∧ pop_copies rb.srb len = []) ∨
        ∃ rb1 buf1 ret, pop_ringbuf rb buf len = .ok (rb1, buf1, ret) ∧
          copy_all buf rb.slab (pop_copies rb.srb len) = some buf1 ∧
          rb1.slab = rb.slab) ∧
      ((pop_copies rb.srb len).map Copy.n).sum ≤ len ∧
      ∀ cp ∈ pop_copies rb.srb len,
        0 ≤ cp.soff ∧ cp.soff.toNat + cp.n ≤ rb.srb.size ∧
        0 ≤ cp.doff ∧ cp.doff.toNat + cp.n ≤ len ∧
        ∀ j, j < cp.n → cp.soff.toNat + j ∈ occupied rb.srb) := by
  constructor
  · intro data hfree
    have hlink := push_copies_link rb data (by omega)
    obtain ⟨c, h, t, n, slab, rfl, hh, ht, hn, hhn, htn, hs⟩ := ring_ok_cases rb hok
    obtain ⟨rb2, hp2, -, hkeep⟩ :=
      push_keeps_occupied c h t n slab data hh ht hn hhn htn hs hfree
    refine ⟨?_, push_copies_total c h t n _ hh ht hn hhn htn hfree,
      push_copies_bounds c h t n _ hh ht hn hhn htn hfree⟩
    rcases hlink with ⟨-, hf⟩ | ⟨rb1, hc, hp⟩
    · rw [hp2] at hf
      cases hf
    · rw [hp2] at hp
      cases hp
      exact ⟨rb2, hp2, hc, hkeep⟩
  · intro buf len hb
    have hlink := pop_copies_link rb buf len
    have hnf := pop_not_fault rb buf len hok hb
    obtain ⟨c, h, t, n, slab, rfl, hh, ht, hn, hhn, htn, hs⟩ := ring_ok_cases rb hok
    refine ⟨?_, pop_copies_total c h t n len hh ht hn hhn htn,
      pop_copies_bounds c h t n len hh ht hn hhn htn⟩
    rcases hlink with ⟨hnil, hbl⟩ | ⟨-, hf⟩ | ⟨rb1, buf1, ret, hc, hp⟩
    · exact Or.inl ⟨hbl, hnil⟩
    · exact absurd hf hnf
    · exact Or.inr ⟨rb1, buf1, ret, hp, hc, (pop_frame _ _ _ _ _ _ hp).2.2.1⟩

/-- C20 at a ring of five bytes holding two, at indices 2 and 3: a push of
two bytes writes the indices 4 and 0, and a pop of up to three bytes reads the
indices 2 and 3. -/
theorem copies_stay_inside_witness :
    ring_ok ⟨⟨false, 2, 4, 5⟩, [0, 0, 7, 8, 0]⟩ ∧
    occupied ⟨false, 2, 4, 5⟩ = [2, 3] ∧
    push_copies ⟨false, 2, 4, 5⟩ 2 = [⟨4, 0, 1⟩, ⟨0, 1, 1⟩] ∧
    pop_copies ⟨false, 2, 4, 5⟩ 3 = [⟨0, 2, 2⟩] ∧
    push_ringbuf ⟨⟨false, 2, 4, 5⟩, [0, 0, 7, 8, 0]⟩ [1, 2]
      = .ok ⟨⟨false, 2, 1, 5⟩, [2, 0, 7, 8, 1]⟩ ∧
    pop_ringbuf ⟨⟨false, 2, 4, 5⟩, [0, 0, 7, 8, 0]⟩ [9, 9, 9] 3
      = .ok (⟨⟨false, 4, 4, 5⟩, [0, 0, 7, 8, 0]⟩, [7, 8, 9], 2) ∧
    ((∃ rb1, push_ringbuf ⟨⟨false, 2, 4, 5⟩, [0, 0, 7, 8, 0]⟩ [1, 2] = .ok rb1 ∧
        copy_all [0, 0, 7, 8, 0] [1, 2] (push_copies ⟨false, 2, 4, 5⟩ 2) = some rb1.slab ∧
        ∀ i ∈ occupied ⟨false, 2, 4, 5⟩, rb1.slab[i]? = ([0, 0, 7, 8, 0] : List Byte)[i]?) ∧
      ((push_copies ⟨false, 2, 4, 5⟩ 2).map Copy.n).sum = 2 ∧
      ∀ cp ∈ push_copies ⟨false, 2, 4, 5⟩ 2,
        0 ≤ cp.doff ∧ cp.doff.toNat + cp.n ≤ 5 ∧
        0 ≤ cp.soff ∧ cp.soff.toNat + cp.n ≤ 2 ∧
        ∀ j, j < cp.n → cp.doff.toNat + j ∉ occupied ⟨false, 2, 4, 5⟩) ∧
    (((pop_ringbuf ⟨⟨false, 2, 4, 5⟩, [0, 0, 7, 8, 0]⟩ [9, 9, 9] 3 = .blocked ∧
        pop_copies ⟨false, 2, 4, 5⟩ 3 = []) ∨
        ∃ rb1 buf1 ret,
          pop_ringbuf ⟨⟨false, 2, 4, 5⟩, [0, 0, 7, 8, 0]⟩ [9, 9, 9] 3 = .ok (rb1, buf1, ret) ∧
          copy_all [9, 9, 9] [0, 0, 7, 8, 0] (pop_copies ⟨false, 2, 4, 5⟩ 3) = some buf1 ∧
          rb1.slab = [0, 0, 7, 8, 0]) ∧
      ((pop_copies ⟨false, 2, 4, 5⟩ 3).map Copy.n).sum ≤ 3 ∧
      ∀ cp ∈ pop_copies ⟨false, 2, 4, 5⟩ 3,
        0 ≤ cp.soff ∧ cp.soff.toNat + cp.n ≤ 5 ∧
        0 ≤ cp.doff ∧ cp.doff.toNat + cp.n ≤ 3 ∧
        ∀ j, j < cp.n → cp.soff.toNat + j ∈ occupied ⟨false, 2, 4, 5⟩) :=
  ⟨by decide, by decide, by decide, by decide, by decide, by decide,
    (copies_stay_inside ⟨⟨false, 2, 4, 5⟩, [0, 0, 7, 8, 0]⟩ (by decide)).1 [1, 2] (by decide),
    (copies_stay_inside ⟨⟨false, 2, 4, 5⟩, [0, 0, 7, 8, 0]⟩ (by decide)).2 [9, 9, 9] 3
      (by decide)⟩

end Memtalk
